import Mathlib

/-!
Verification of the flat-structure core of the veerer repository: flat veering
triangulations (`veerer/flat_structure.py`), their planar layouts
(`veerer/layout.py`) and the square-tiling move generator
(`squaredtriangulation.py`).  Python lists of 2d vectors over an exact field are
embedded as functions or lists over `ℚ × ℚ`; fallible constructors and methods
return `Except String`.  External collaborators absent from the sources
(the permutation triangulation, the union-find container, the coloured
triangulation helpers) are modelled from the specification and marked as such.
-/

namespace Veerer

/-- Plane vectors; the sources keep Sage vectors over a common exact base
field, and every embedded operation (checks, flips, gluing, positioning) uses
only ring operations and order comparisons, so the embedding takes integer
coordinates — the concrete instances of the sources' doctests; the
fraction-field normalisation of the constructors is modelled separately with
a cast to `ℚ`. -/
abbrev Vec : Type := ℤ × ℤ

/-- Modelled from the spec: the cross product `det2` of `veerer/misc.py`, which
is absent from the sources; the spec uses it as the cross-product sign test for
positive orientation. -/
def det2 (u v : Vec) : ℤ := u.1 * v.2 - u.2 * v.1

/-- Pointwise update of a function state, standing for a Python list assignment. -/
def upd {α : Type} (f : Nat → α) (i : Nat) (v : α) : Nat → α :=
  fun j => if j = i then v else f j

theorem upd_same {α : Type} (f : Nat → α) (i : Nat) (v : α) : upd f i v i = v := by
  simp [upd]

theorem upd_other {α : Type} (f : Nat → α) (i j : Nat) (v : α) (h : j ≠ i) :
    upd f i v j = f j := by
  simp [upd, h]

/-- Edge colours; the four values RED, BLUE, PURPLE, GREEN come from the absent
`constants.py` and are named in the spec (PURPLE horizontal, GREEN vertical). -/
inductive Colour
  | red
  | blue
  | purple
  | green
deriving DecidableEq

/-- Slope of a 2d vector, following `vec_slope` in `layout.py` and
`flat_structure.py`. -/
def vecSlope (v : Vec) : Colour :=
  if v.1 = 0 then .green
  else if v.2 = 0 then .purple
  else if 0 < v.1 * v.2 then .red
  else .blue

/-- Modelled from the spec: the external permutation-based `Triangulation`,
kept as a face permutation `fp` and an edge involution `ep` on the half-edges
`0 .. n-1`. -/
structure Tri where
  n : Nat
  fp : Nat → Nat
  ep : Nat → Nat

/-- Representatives of the faces: each face is listed once, from its smallest
half-edge, mirroring the face enumeration `Triangulation.faces()`. -/
def Tri.faceReps (T : Tri) : List Nat :=
  (List.range T.n).filter (fun a => decide (a ≤ T.fp a) && decide (a ≤ T.fp (T.fp a)))

/-- Faces as triples `(a, fp a, fp (fp a))`, as produced by
`Triangulation.faces()`. -/
def Tri.faces (T : Tri) : List (Nat × Nat × Nat) :=
  T.faceReps.map (fun a => (a, T.fp a, T.fp (T.fp a)))

/-- Number of edges: orbits of the involution `ep`, each pair counted at its
smaller representative, following `Triangulation.num_edges`. -/
def numEdges (T : Tri) : Nat :=
  ((List.range T.n).filter (fun e => decide (e ≤ T.ep e))).length

/-- Modelled from the spec: the well-formedness enforced by the external
`Triangulation._check` — permutation values in range, `ep` an involution and
`fp` a union of genuine 3-cycles (faces are triangles). -/
def Tri.wfB (T : Tri) : Bool :=
  (List.range T.n).all (fun a =>
    decide (T.fp a < T.n) && decide (T.ep a < T.n) &&
    decide (T.ep (T.ep a) = a) && decide (T.fp (T.fp (T.fp a)) = a) &&
    !(decide (T.fp a = a)) && !(decide (T.fp (T.fp a) = a)))

/-- Well-formedness of a triangulation, as a proposition. -/
def Tri.Wf (T : Tri) : Prop :=
  ∀ a, a < T.n → T.fp a < T.n ∧ T.ep a < T.n ∧ T.ep (T.ep a) = a ∧
    T.fp (T.fp (T.fp a)) = a ∧ T.fp a ≠ a ∧ T.fp (T.fp a) ≠ a

theorem wfB_iff (T : Tri) : T.wfB = true ↔ T.Wf := by
  constructor
  · intro h a ha
    have := List.all_eq_true.mp h a (List.mem_range.mpr ha)
    simp only [Bool.and_eq_true, decide_eq_true_eq, Bool.not_eq_true',
      decide_eq_false_iff_not] at this
    exact ⟨this.1.1.1.1.1, this.1.1.1.1.2, this.1.1.1.2, this.1.1.2, this.1.2, this.2⟩
  · intro h
    apply List.all_eq_true.mpr
    intro a ha
    obtain ⟨h1, h2, h3, h4, h5, h6⟩ := h a (List.mem_range.mp ha)
    simp only [Bool.and_eq_true, decide_eq_true_eq, Bool.not_eq_true',
      decide_eq_false_iff_not]
    exact ⟨⟨⟨⟨⟨h1, h2⟩, h3⟩, h4⟩, h5⟩, h6⟩

/-- Modelled from the spec: the validation performed by the external
`Triangulation._check`, invoked first by both `_check` methods of the sources. -/
def triCheckE (T : Tri) : Except String Unit :=
  if T.wfB then .ok () else .error "invalid triangulation"

theorem triCheckE_iff (T : Tri) : triCheckE T = .ok () ↔ T.Wf := by
  unfold triCheckE
  by_cases h : T.wfB = true
  · simp [h, (wfB_iff T).mp h]
  · simp only [h]
    simp only [Bool.false_eq_true, if_false]
    constructor
    · intro hc; exact Except.noConfusion hc
    · intro hw; exact absurd ((wfB_iff T).mpr hw) h

def pairMsg (a A : Nat) : String := s!"ep[{a}] = {A} but the vectors do not match"

def sumMsg (a b c : Nat) : String :=
  s!"vec[{a}], vec[{b}] and vec[{c}] do not sum to zero"

def cwMsg (a b c : Nat) : String := s!"({a}, {b}, {c}) is a clockwise triangle"

/-- First half-edge failing the edge-pairing vector test, mirroring the first
loop of `FlatVeeringTriangulationLayout._check` (layout.py, lines 213-218) and
of `FlatVeeringTriangulation._check` (flat_structure.py, lines 265-270). -/
def pairFail (T : Tri) (vec : Nat → Vec) : Option Nat :=
  (List.range T.n).find? (fun a =>
    !(decide (vec a = vec (T.ep a)) || decide (vec a = -vec (T.ep a))))

def pairCheckE (T : Tri) (vec : Nat → Vec) : Except String Unit :=
  match pairFail T vec with
  | some a => .error (pairMsg a (T.ep a))
  | none => .ok ()

/-- Edge-pairing invariant: every half-edge carries the vector of its opposite
up to sign. -/
def PairInv (T : Tri) (vec : Nat → Vec) : Prop :=
  ∀ a, a < T.n → vec a = vec (T.ep a) ∨ vec a = -vec (T.ep a)

theorem pairCheckE_iff (T : Tri) (vec : Nat → Vec) :
    pairCheckE T vec = .ok () ↔ PairInv T vec := by
  unfold pairCheckE
  rcases h : pairFail T vec with _ | a
  · simp only [true_iff]
    intro a ha
    have hnone := List.find?_eq_none.mp h a (List.mem_range.mpr ha)
    simp only [Bool.not_eq_true', Bool.or_eq_false_iff, decide_eq_false_iff_not] at hnone
    rcases Decidable.em (vec a = vec (T.ep a)) with h1 | h1
    · exact Or.inl h1
    · rcases Decidable.em (vec a = -vec (T.ep a)) with h2 | h2
      · exact Or.inr h2
      · exact (hnone ⟨h1, h2⟩).elim
  · constructor
    · intro hc; exact Except.noConfusion hc
    · intro hp
      have hmem := List.mem_range.mp (List.mem_of_find?_eq_some h)
      have hpa := List.find?_some h
      simp only [Bool.not_eq_true', Bool.or_eq_false_iff, decide_eq_false_iff_not] at hpa
      rcases hp a hmem with h1 | h1
      · exact absurd h1 hpa.1
      · exact absurd h1 hpa.2

def faceOkB (T : Tri) (vec : Nat → Vec) (a : Nat) : Bool :=
  decide (vec a + vec (T.fp a) + vec (T.fp (T.fp a)) = 0) &&
  decide (0 < det2 (vec a) (vec (T.fp a))) &&
  decide (0 < det2 (vec (T.fp a)) (vec (T.fp (T.fp a)))) &&
  decide (0 < det2 (vec (T.fp (T.fp a))) (vec a))

/-- First face failing the zero-sum or positive-orientation test, mirroring the
face loop shared by `FlatVeeringTriangulationLayout._check` (layout.py, lines
220-230) and `FlatVeeringTriangulation._check` (flat_structure.py, lines
272-281). -/
def faceFail (T : Tri) (vec : Nat → Vec) : Option Nat :=
  T.faceReps.find? (fun a => !(faceOkB T vec a))

def faceMsg (T : Tri) (vec : Nat → Vec) (a : Nat) : String :=
  if vec a + vec (T.fp a) + vec (T.fp (T.fp a)) = 0 then cwMsg a (T.fp a) (T.fp (T.fp a))
  else sumMsg a (T.fp a) (T.fp (T.fp a))

def faceCheckE (T : Tri) (vec : Nat → Vec) : Except String Unit :=
  match faceFail T vec with
  | some a => .error (faceMsg T vec a)
  | none => .ok ()

/-- Face invariant: every triangle has vectors summing to zero and the three
consecutive cross products strictly positive (stated from every half-edge, which
covers all three rotations of each face). -/
def FaceInv (T : Tri) (vec : Nat → Vec) : Prop :=
  ∀ a, a < T.n → vec a + vec (T.fp a) + vec (T.fp (T.fp a)) = 0 ∧
    0 < det2 (vec a) (vec (T.fp a))

theorem mem_faceReps (T : Tri) (a : Nat) :
    a ∈ T.faceReps ↔ a < T.n ∧ a ≤ T.fp a ∧ a ≤ T.fp (T.fp a) := by
  simp [Tri.faceReps, List.mem_filter, List.mem_range, and_assoc]

theorem faceOkB_iff (T : Tri) (vec : Nat → Vec) (a : Nat) :
    faceOkB T vec a = true ↔
      vec a + vec (T.fp a) + vec (T.fp (T.fp a)) = 0 ∧
      0 < det2 (vec a) (vec (T.fp a)) ∧
      0 < det2 (vec (T.fp a)) (vec (T.fp (T.fp a))) ∧
      0 < det2 (vec (T.fp (T.fp a))) (vec a) := by
  simp [faceOkB, and_assoc]

theorem faceCheckE_iff (T : Tri) (vec : Nat → Vec) (hw : T.Wf) :
    faceCheckE T vec = .ok () ↔ FaceInv T vec := by
  have repOk : faceCheckE T vec = .ok () ↔ ∀ r ∈ T.faceReps, faceOkB T vec r = true := by
    unfold faceCheckE faceFail
    rcases h : T.faceReps.find? (fun a => !(faceOkB T vec a)) with _ | a
    · simp only [true_iff]
      intro r hr
      have := List.find?_eq_none.mp h r hr
      simpa using this
    · have hmem := List.mem_of_find?_eq_some h
      have hpa := List.find?_some h
      simp only [Bool.not_eq_true'] at hpa
      constructor
      · intro hc; exact Except.noConfusion hc
      · intro hall
        exact absurd (hall a hmem) (by simp [hpa])
  rw [repOk]
  constructor
  · intro hall a ha
    obtain ⟨hfa, _, _, hfp3, _, _⟩ := hw a ha
    have hcn : T.fp (T.fp a) < T.n := (hw (T.fp a) hfa).1
    by_cases h1 : a ≤ T.fp a ∧ a ≤ T.fp (T.fp a)
    · have hrep : a ∈ T.faceReps := (mem_faceReps T a).mpr ⟨ha, h1.1, h1.2⟩
      have hok := (faceOkB_iff T vec a).mp (hall a hrep)
      exact ⟨hok.1, hok.2.1⟩
    · by_cases h2 : T.fp a ≤ T.fp (T.fp a) ∧ T.fp a ≤ a
      · have hrep : T.fp a ∈ T.faceReps := by
          rw [mem_faceReps]
          refine ⟨hfa, h2.1, ?_⟩
          rw [hfp3]; exact h2.2
        have hok := (faceOkB_iff T vec (T.fp a)).mp (hall (T.fp a) hrep)
        rw [hfp3] at hok
        refine ⟨?_, hok.2.2.2⟩
        have hs := hok.1
        have : vec a + vec (T.fp a) + vec (T.fp (T.fp a)) =
            vec (T.fp a) + vec (T.fp (T.fp a)) + vec a := by abel
        rw [this]; exact hs
      · have h3 : T.fp (T.fp a) ≤ a ∧ T.fp (T.fp a) ≤ T.fp a := by omega
        have hrep : T.fp (T.fp a) ∈ T.faceReps := by
          rw [mem_faceReps]
          refine ⟨hcn, ?_, ?_⟩
          · rw [hfp3]; exact h3.1
          · rw [hfp3]; exact h3.2
        have hok := (faceOkB_iff T vec (T.fp (T.fp a))).mp (hall (T.fp (T.fp a)) hrep)
        rw [hfp3] at hok
        refine ⟨?_, hok.2.2.1⟩
        have hs := hok.1
        have : vec a + vec (T.fp a) + vec (T.fp (T.fp a)) =
            vec (T.fp (T.fp a)) + vec a + vec (T.fp a) := by abel
        rw [this]; exact hs
  · intro hinv r hr
    obtain ⟨hrn, _, _⟩ := (mem_faceReps T r).mp hr
    obtain ⟨hfr, _, _, hfp3, _, _⟩ := hw r hrn
    have h1 := hinv r hrn
    have h2 := hinv (T.fp r) hfr
    have h3 := hinv (T.fp (T.fp r)) (hw (T.fp r) hfr).1
    rw [hfp3] at h3
    exact (faceOkB_iff T vec r).mpr ⟨h1.1, h1.2, h2.2, h3.2⟩

def posMsg (a b c : Nat) : String :=
  s!"pos[{a}], pos[{b}], pos[{c}] are inconsistent with the vectors"

/-- Position consistency of one face, mirroring the position loop of
`FlatVeeringTriangulationLayout._check` (layout.py, lines 232-244); an unset
position makes the comparison fail (in Python this face would raise). -/
def posOkB (T : Tri) (vec : Nat → Vec) (p : Nat → Option Vec) (a : Nat) : Bool :=
  match p a, p (T.fp a), p (T.fp (T.fp a)) with
  | some pa, some pb, some pc =>
    decide (pa + vec a = pb) && decide (pb + vec (T.fp a) = pc) &&
    decide (pc + vec (T.fp (T.fp a)) = pa)
  | _, _, _ => false

def posFail (T : Tri) (vec : Nat → Vec) (p : Nat → Option Vec) : Option Nat :=
  T.faceReps.find? (fun a => !(posOkB T vec p a))

def posCheckE (T : Tri) (vec : Nat → Vec) (p : Nat → Option Vec) :
    Except String Unit :=
  match posFail T vec p with
  | some a => .error (posMsg a (T.fp a) (T.fp (T.fp a)))
  | none => .ok ()

/-- Position invariant: each set of face corners is chained by the vectors. -/
def PosInv (T : Tri) (vec : Nat → Vec) (p : Nat → Option Vec) : Prop :=
  ∀ a, a < T.n → ∃ pa pb, p a = some pa ∧ p (T.fp a) = some pb ∧ pa + vec a = pb

theorem posOkB_iff (T : Tri) (vec : Nat → Vec) (p : Nat → Option Vec) (a : Nat) :
    posOkB T vec p a = true ↔
      ∃ pa pb pc, p a = some pa ∧ p (T.fp a) = some pb ∧ p (T.fp (T.fp a)) = some pc ∧
        pa + vec a = pb ∧ pb + vec (T.fp a) = pc ∧ pc + vec (T.fp (T.fp a)) = pa := by
  unfold posOkB
  rcases ha : p a with _ | pa <;> rcases hb : p (T.fp a) with _ | pb <;>
    rcases hc : p (T.fp (T.fp a)) with _ | pc <;> simp [ha, hb, hc, and_assoc]

theorem posCheckE_iff (T : Tri) (vec : Nat → Vec) (p : Nat → Option Vec) (hw : T.Wf) :
    posCheckE T vec p = .ok () ↔ PosInv T vec p := by
  have repOk : posCheckE T vec p = .ok () ↔ ∀ r ∈ T.faceReps, posOkB T vec p r = true := by
    unfold posCheckE posFail
    rcases h : T.faceReps.find? (fun a => !(posOkB T vec p a)) with _ | a
    · simp only [true_iff]
      intro r hr
      have := List.find?_eq_none.mp h r hr
      simpa using this
    · have hmem := List.mem_of_find?_eq_some h
      have hpa := List.find?_some h
      simp only [Bool.not_eq_true'] at hpa
      constructor
      · intro hc; exact Except.noConfusion hc
      · intro hall
        exact absurd (hall a hmem) (by simp [hpa])
  rw [repOk]
  constructor
  · intro hall a ha
    obtain ⟨hfa, _, _, hfp3, _, _⟩ := hw a ha
    have hcn : T.fp (T.fp a) < T.n := (hw (T.fp a) hfa).1
    by_cases h1 : a ≤ T.fp a ∧ a ≤ T.fp (T.fp a)
    · have hrep : a ∈ T.faceReps := (mem_faceReps T a).mpr ⟨ha, h1.1, h1.2⟩
      obtain ⟨pa, pb, pc, hpa, hpb, hpc, l1, _, _⟩ :=
        (posOkB_iff T vec p a).mp (hall a hrep)
      exact ⟨pa, pb, hpa, hpb, l1⟩
    · by_cases h2 : T.fp a ≤ T.fp (T.fp a) ∧ T.fp a ≤ a
      · have hrep : T.fp a ∈ T.faceReps := by
          rw [mem_faceReps]
          refine ⟨hfa, h2.1, ?_⟩
          rw [hfp3]; exact h2.2
        obtain ⟨pa, pb, pc, hpa, hpb, hpc, l1, l2, l3⟩ :=
          (posOkB_iff T vec p (T.fp a)).mp (hall (T.fp a) hrep)
        rw [hfp3] at hpc l3
        exact ⟨pc, pa, hpc, hpa, l3⟩
      · have h3 : T.fp (T.fp a) ≤ a ∧ T.fp (T.fp a) ≤ T.fp a := by omega
        have hrep : T.fp (T.fp a) ∈ T.faceReps := by
          rw [mem_faceReps]
          refine ⟨hcn, ?_, ?_⟩
          · rw [hfp3]; exact h3.1
          · rw [hfp3]; exact h3.2
        obtain ⟨pa, pb, pc, hpa, hpb, hpc, l1, l2, l3⟩ :=
          (posOkB_iff T vec p (T.fp (T.fp a))).mp (hall (T.fp (T.fp a)) hrep)
        rw [hfp3] at hpb hpc l2 l3
        exact ⟨pb, pc, hpb, hpc, l2⟩
  · intro hinv r hr
    obtain ⟨hrn, _, _⟩ := (mem_faceReps T r).mp hr
    obtain ⟨hfr, _, _, hfp3, _, _⟩ := hw r hrn
    obtain ⟨pa, pb, hpa, hpb, l1⟩ := hinv r hrn
    obtain ⟨pb2, pc, hpb2, hpc, l2⟩ := hinv (T.fp r) hfr
    obtain ⟨pc2, pa2, hpc2, hpa2, l3⟩ := hinv (T.fp (T.fp r)) (hw (T.fp r) hfr).1
    rw [hfp3] at hpa2
    have eb : pb2 = pb := by rw [hpb] at hpb2; exact (Option.some.inj hpb2).symm ▸ rfl
    have ec : pc2 = pc := by rw [hpc] at hpc2; exact (Option.some.inj hpc2).symm ▸ rfl
    have ea : pa2 = pa := by rw [hpa] at hpa2; exact (Option.some.inj hpa2).symm ▸ rfl
    apply (posOkB_iff T vec p r).mpr
    refine ⟨pa, pb, pc, hpa, hpb, hpc, l1, ?_, ?_⟩
    · rw [← eb]; exact l2
    · rw [← ec, ← ea]; exact l3

/-- State of a `FlatVeeringTriangulationLayout`: the underlying (veering)
triangulation with its slope-derived colours, the half-edge vectors, and the
optional corner positions (layout.py, lines 150-196). -/
structure Layout where
  tri : Tri
  cols : Nat → Colour
  vectors : Nat → Vec
  pos : Option (Nat → Option Vec)

/-- The validation `FlatVeeringTriangulationLayout._check` (layout.py, lines
198-244): the external `Triangulation._check` is modelled by `triCheckE`, then
come the edge-pairing loop, the face loop, and, when positions are set, the
position loop.  The colour consistency enforced by the external
`VeeringTriangulation` constructor is not modelled. -/
def Layout.checkE (L : Layout) : Except String Unit :=
  match triCheckE L.tri with
  | .error m => .error m
  | .ok _ =>
  match pairCheckE L.tri L.vectors with
  | .error m => .error m
  | .ok _ =>
  match faceCheckE L.tri L.vectors with
  | .error m => .error m
  | .ok _ =>
  match L.pos with
  | none => .ok ()
  | some p => posCheckE L.tri L.vectors p

/-- Everything `_check` verifies, as a proposition. -/
def LayoutInv (L : Layout) : Prop :=
  L.tri.Wf ∧ PairInv L.tri L.vectors ∧ FaceInv L.tri L.vectors ∧
    ∀ p, L.pos = some p → PosInv L.tri L.vectors p

theorem layoutCheckE_iff (L : Layout) : L.checkE = .ok () ↔ LayoutInv L := by
  unfold Layout.checkE LayoutInv
  rcases h1 : triCheckE L.tri with m | u
  · constructor
    · intro hc; exact Except.noConfusion hc
    · rintro ⟨hwf, -⟩
      have hok := (triCheckE_iff L.tri).mpr hwf
      rw [h1] at hok; exact Except.noConfusion hok
  · cases u
    have hwf : L.tri.Wf := (triCheckE_iff L.tri).mp h1
    rcases h2 : pairCheckE L.tri L.vectors with m | u
    · constructor
      · intro hc; exact Except.noConfusion hc
      · rintro ⟨-, hp, -⟩
        have hok := (pairCheckE_iff L.tri L.vectors).mpr hp
        rw [h2] at hok; exact Except.noConfusion hok
    · cases u
      have hp : PairInv L.tri L.vectors := (pairCheckE_iff L.tri L.vectors).mp h2
      rcases h3 : faceCheckE L.tri L.vectors with m | u
      · constructor
        · intro hc; exact Except.noConfusion hc
        · rintro ⟨-, -, hf, -⟩
          have hok := (faceCheckE_iff L.tri L.vectors hwf).mpr hf
          rw [h3] at hok; exact Except.noConfusion hok
      · cases u
        have hf : FaceInv L.tri L.vectors := (faceCheckE_iff L.tri L.vectors hwf).mp h3
        rcases h4 : L.pos with _ | p
        · simp only [true_iff]
          exact ⟨hwf, hp, hf, fun p hpos => Option.noConfusion hpos⟩
        · rw [posCheckE_iff L.tri L.vectors p hwf]
          constructor
          · intro hpos
            refine ⟨hwf, hp, hf, fun q hq => ?_⟩
            exact Option.some.inj hq ▸ hpos
          · rintro ⟨-, -, -, hall⟩
            exact hall p rfl

/-- The constructor `FlatVeeringTriangulationLayout.__init__` (layout.py, lines
150-196) for an input already over a field (the fraction-field lift is treated
separately): a list of vectors, either one per edge — extended through the edge
permutation after the standard-form test — or one per half-edge; colours are
derived from slopes and `_check` runs before returning.  The external
`VeeringTriangulation` wrapping of the coloured triangulation is kept only as
the colour table. -/
def extendVectors (T : Tri) (vs : List Vec) : Except String (List Vec) :=
  if vs.length = numEdges T then
    match (List.range (numEdges T)).find?
        (fun e => decide (e ≠ T.ep e) && decide (T.ep e < numEdges T)) with
    | some _ => .error "edge perm not in standard form"
    | none => .ok (vs ++ (List.range (T.n - numEdges T)).map
        (fun i => vs.getD (T.ep (numEdges T + i)) 0))
  else .ok vs

def layoutInit (T : Tri) (vs : List Vec) : Except String Layout :=
  match extendVectors T vs with
  | .error msg => .error msg
  | .ok vs2 =>
    if vs2.length ≠ T.n then .error "wrong number of vectors"
    else
      let L : Layout :=
        { tri := T, cols := fun e => vecSlope (vs2.getD e 0),
          vectors := fun i => vs2.getD i 0, pos := none }
      match L.checkE with
      | .error m => .error m
      | .ok _ => .ok L

theorem layoutInit_inv (T : Tri) (vs : List Vec) (L : Layout)
    (h : layoutInit T vs = .ok L) : LayoutInv L := by
  unfold layoutInit at h
  rcases hs : extendVectors T vs with msg | vs2 <;> rw [hs] at h <;> dsimp only at h
  · exact Except.noConfusion h
  · by_cases hlen : vs2.length ≠ T.n
    · rw [if_pos hlen] at h; exact Except.noConfusion h
    · rw [if_neg hlen] at h
      rcases hc : Layout.checkE
          { tri := T, cols := fun e => vecSlope (vs2.getD e 0),
            vectors := fun i => vs2.getD i 0, pos := none } with m | u
      · rw [hc] at h; exact Except.noConfusion h
      · cases u
        rw [hc] at h
        have hinv := (layoutCheckE_iff _).mp hc
        rwa [← Except.ok.inj h]

/-- State of a `FlatVeeringTriangulation` (flat_structure.py): the underlying
triangulation, the holonomy list, and the translation flag set by the abelian
detection. -/
structure FVT where
  tri : Tri
  holonomies : List Vec
  translation : Bool

/-- Holonomy lookup as a function (Python indexes the list directly). -/
def FVT.vec (S : FVT) : Nat → Vec := fun i => S.holonomies.getD i 0

/-- First edge failing the translation-surface sign assertion of
`FlatVeeringTriangulation._check` (flat_structure.py, lines 283-286). -/
def transFail (S : FVT) : Option Nat :=
  (List.range (numEdges S.tri)).find?
    (fun e => !(decide (S.vec e = -S.vec (S.tri.ep e))))

/-- The validation `FlatVeeringTriangulation._check` (flat_structure.py, lines
247-286): base-triangulation check, holonomy-list length, edge-pairing loop,
face loop, and — on translation surfaces — the global sign assertion. -/
def fvtCheckE (S : FVT) : Except String Unit :=
  match triCheckE S.tri with
  | .error m => .error m
  | .ok _ =>
  if S.holonomies.length ≠ S.tri.n then .error "invalid list of vectors"
  else
  match pairCheckE S.tri S.vec with
  | .error m => .error m
  | .ok _ =>
  match faceCheckE S.tri S.vec with
  | .error m => .error m
  | .ok _ =>
  if S.translation then
    match transFail S with
    | some _ => .error "AssertionError"
    | none => .ok ()
  else .ok ()

/-- Everything `FlatVeeringTriangulation._check` verifies, as a proposition. -/
def FVTInv (S : FVT) : Prop :=
  S.tri.Wf ∧ S.holonomies.length = S.tri.n ∧ PairInv S.tri S.vec ∧
    FaceInv S.tri S.vec ∧
    (S.translation = true →
      ∀ e, e < numEdges S.tri → S.vec e = -S.vec (S.tri.ep e))

theorem fvtCheckE_iff (S : FVT) : fvtCheckE S = .ok () ↔ FVTInv S := by
  unfold fvtCheckE FVTInv
  rcases h1 : triCheckE S.tri with m | u
  · constructor
    · intro hc; exact Except.noConfusion hc
    · rintro ⟨hwf, -⟩
      have hok := (triCheckE_iff S.tri).mpr hwf
      rw [h1] at hok; exact Except.noConfusion hok
  · cases u
    have hwf : S.tri.Wf := (triCheckE_iff S.tri).mp h1
    by_cases hlen : S.holonomies.length ≠ S.tri.n
    · rw [if_pos hlen]
      constructor
      · intro hc; exact Except.noConfusion hc
      · rintro ⟨-, hl, -⟩; exact absurd hl hlen
    · rw [if_neg hlen]
      rcases h2 : pairCheckE S.tri S.vec with m | u
      · constructor
        · intro hc; exact Except.noConfusion hc
        · rintro ⟨-, -, hp, -⟩
          have hok := (pairCheckE_iff S.tri S.vec).mpr hp
          rw [h2] at hok; exact Except.noConfusion hok
      · cases u
        have hp : PairInv S.tri S.vec := (pairCheckE_iff S.tri S.vec).mp h2
        rcases h3 : faceCheckE S.tri S.vec with m | u
        · constructor
          · intro hc; exact Except.noConfusion hc
          · rintro ⟨-, -, -, hf, -⟩
            have hok := (faceCheckE_iff S.tri S.vec hwf).mpr hf
            rw [h3] at hok; exact Except.noConfusion hok
        · cases u
          have hf : FaceInv S.tri S.vec := (faceCheckE_iff S.tri S.vec hwf).mp h3
          have hlen2 : S.holonomies.length = S.tri.n := not_ne_iff.mp hlen
          rcases ht : S.translation with _ | _
          · simp only [Bool.false_eq_true, if_false, true_iff]
            refine ⟨hwf, hlen2, hp, hf, fun hcontra => ?_⟩
            exact absurd hcontra (by simp)
          · simp only [if_true]
            rcases h4 : transFail S with _ | a
            · simp only [true_iff]
              refine ⟨hwf, hlen2, hp, hf, fun _ e he => ?_⟩
              have := List.find?_eq_none.mp h4 e (List.mem_range.mpr he)
              simpa using this
            · constructor
              · intro hc; exact Except.noConfusion hc
              · rintro ⟨-, -, -, -, hall⟩
                have hmem := List.mem_range.mp (List.mem_of_find?_eq_some h4)
                have hpa := List.find?_some h4
                simp only [Bool.not_eq_true', decide_eq_false_iff_not] at hpa
                exact absurd (hall (by simp) a hmem) hpa

/-- First half of one step of the sign-canonicalisation loop of
`FlatVeeringTriangulation.__init__` (flat_structure.py, lines 140-141): flip
the sign of this side of the edge pair when it disagrees with the certificate
bit. -/
def canonStepA (h : List Vec) (e : Nat) (right : Bool) : List Vec :=
  if right ≠ decide (0 < (h.getD e 0).1) then h.set e (-(h.getD e 0)) else h

/-- Second half of one step of the canonicalisation loop (flat_structure.py,
lines 142-143): flip the sign of the opposite side when it disagrees. -/
def canonStepB (ep : Nat → Nat) (h1 : List Vec) (e : Nat) (right : Bool) : List Vec :=
  if right ≠ decide ((h1.getD (ep e) 0).1 < 0) then h1.set (ep e) (-(h1.getD (ep e) 0))
  else h1

/-- One step of the sign-canonicalisation loop (flat_structure.py, lines
138-143). -/
def canonStep (ep : Nat → Nat) (h : List Vec) (e : Nat) (right : Bool) : List Vec :=
  canonStepB ep (canonStepA h e right) e right

/-- The sign-canonicalisation loop over the certificate returned by the
external `is_abelian` (flat_structure.py, lines 137-143). -/
def canonicalize (ep : Nat → Nat) (cert : List Bool) (h : List Vec) : List Vec :=
  cert.enum.foldl (fun h p => canonStep ep h p.1 p.2) h

/-- The constructor `FlatVeeringTriangulation.__init__` (flat_structure.py,
lines 81-146), for input already over a field and a plain (uncoloured)
triangulation: the per-edge branch performs the standard-form test and then
crashes on the undefined name `vectors` (line 113) whenever half-edges remain
to extend; the abelian detection `is_abelian` of the external veering
triangulation is taken as the pair `(ans, cert)`; the colour-compatibility
branch applies only to `VeeringTriangulation` inputs and is skipped. -/
def fvtInit (T : Tri) (hol : List Vec) (ans : Bool) (cert : List Bool) :
    Except String FVT :=
  match (if hol.length = numEdges T then
      match (List.range (numEdges T)).find?
          (fun e => decide (e ≠ T.ep e) && decide (T.ep e < numEdges T)) with
      | some _ => .error "edge perm not in standard form"
      | none =>
        if numEdges T < T.n then .error "NameError: name vectors is not defined"
        else .ok hol
    else (.ok hol : Except String (List Vec))) with
  | .error m => .error m
  | .ok h2 =>
    if h2.length ≠ T.n then .error "wrong number of vectors"
    else
      let h3 := if ans then canonicalize T.ep cert h2 else h2
      let S : FVT := { tri := T, holonomies := h3, translation := ans }
      match fvtCheckE S with
      | .error m => .error m
      | .ok _ => .ok S

/-- The per-edge input normalisation of `fvtInit`, named for reuse in proofs. -/
def fvtStep1 (T : Tri) (hol : List Vec) : Except String (List Vec) :=
  if hol.length = numEdges T then
    match (List.range (numEdges T)).find?
        (fun e => decide (e ≠ T.ep e) && decide (T.ep e < numEdges T)) with
    | some _ => .error "edge perm not in standard form"
    | none =>
      if numEdges T < T.n then .error "NameError: name vectors is not defined"
      else .ok hol
  else .ok hol

theorem fvtInit_eq_step1 (T : Tri) (hol : List Vec) (ans : Bool) (cert : List Bool) :
    fvtInit T hol ans cert =
      match fvtStep1 T hol with
      | .error m => .error m
      | .ok h2 =>
        if h2.length ≠ T.n then .error "wrong number of vectors"
        else
          let h3 := if ans then canonicalize T.ep cert h2 else h2
          let S : FVT := { tri := T, holonomies := h3, translation := ans }
          match fvtCheckE S with
          | .error m => .error m
          | .ok _ => .ok S := rfl

theorem fvtInit_inv (T : Tri) (hol : List Vec) (ans : Bool) (cert : List Bool)
    (S : FVT) (h : fvtInit T hol ans cert = .ok S) : FVTInv S := by
  rw [fvtInit_eq_step1] at h
  rcases hs : fvtStep1 T hol with m | h2 <;> rw [hs] at h <;> dsimp only at h
  · exact Except.noConfusion h
  · by_cases hlen : h2.length ≠ T.n
    · rw [if_pos hlen] at h; exact Except.noConfusion h
    · rw [if_neg hlen] at h
      rcases hc : fvtCheckE
          { tri := T, holonomies := if ans then canonicalize T.ep cert h2 else h2,
            translation := ans } with m | u
      · rw [hc] at h; exact Except.noConfusion h
      · cases u
        rw [hc] at h
        have hinv := (fvtCheckE_iff _).mp hc
        rwa [← Except.ok.inj h]

/-- Gate a layout state behind its own `_check`, the common final step of the
constructor, `glue_side_by_side` and `flip`. -/
def checked (L : Layout) : Except String Layout :=
  match L.checkE with
  | .error m => .error m
  | .ok _ => .ok L

theorem checked_inv {L L' : Layout} (h : checked L = .ok L') :
    L' = L ∧ L.checkE = .ok () ∧ LayoutInv L' := by
  unfold checked at h
  rcases hc : L.checkE with m | u <;> rw [hc] at h
  · exact Except.noConfusion h
  · cases u
    have he : L' = L := (Except.ok.inj h).symm
    exact ⟨he, rfl, he ▸ (layoutCheckE_iff L).mp hc⟩

theorem checked_cases (L : Layout) :
    (checked L = .ok L ∧ L.checkE = .ok ()) ∨
      ∃ m, checked L = .error m ∧ L.checkE = .error m := by
  unfold checked
  rcases hc : L.checkE with m | u
  · exact Or.inr ⟨m, rfl, rfl⟩
  · cases u; exact Or.inl ⟨rfl, rfl⟩

/-- The test `_edge_is_boundary` (layout.py, lines 482-488); comparisons with an
unset position are inequalities, as in Python. -/
def edgeIsBoundary (T : Tri) (vec : Nat → Vec) (p : Nat → Option Vec) (e : Nat) : Bool :=
  decide (p (T.fp e) ≠ p (T.ep e)) || decide (vec e ≠ -vec (T.ep e))

/-- The repositioning `glue_side_by_side` (layout.py, lines 490-516): when the
edge is a boundary of the planar picture and is not folded, possibly negate the
vectors of the face of `a`, recompute its three corner positions from the
opposite side, and re-run `_check`.  Reading an unset opposite position is the
Python `TypeError` of `pos[A] + vectors[A]`. -/
def glueSideBySide (L : Layout) (p : Nat → Option Vec) (a : Nat) :
    Except String Layout :=
  let T := L.tri
  if !(edgeIsBoundary T L.vectors p a) then .ok { L with pos := some p }
  else
    let A := T.ep a
    let b := T.fp a
    let c := T.fp b
    if a = A then .ok { L with pos := some p }
    else
      let v1 := if L.vectors a = L.vectors A then
          upd L.vectors a (-(L.vectors a)) else L.vectors
      let v2 := if L.vectors a = L.vectors A then upd v1 b (-(v1 b)) else v1
      let v3 := if L.vectors a = L.vectors A then upd v2 c (-(v2 c)) else v2
      match p A with
      | none => .error "TypeError: unsupported operand"
      | some pA =>
        let qa := pA + v3 A
        let qb := qa + v3 a
        let qc := qb + v3 b
        let p3 := upd (upd (upd p a (some qa)) b (some qb)) c (some qc)
        checked { L with vectors := v3, pos := some p3 }

/-- Modelled from the spec: `is_forward_flippable` of the external veering
triangulation — `e` is not folded, its two adjacent faces are distinct, and the
surrounding quadrilateral is convex under the current geometry: with sides
`a, b` and `c, d` around the diagonal, the two corners cut by the new diagonal
turn left, `det2 (vec d) (vec a) > 0` and `det2 (vec b) (vec c) > 0` (the other
two corners are convex because the present faces are positively oriented). -/
def forwardFlippable (T : Tri) (vec : Nat → Vec) (e : Nat) : Bool :=
  let E := T.ep e
  let a := T.fp e
  let b := T.fp a
  let c := T.fp E
  let d := T.fp c
  decide (e < T.n) && !(decide (E = e)) && !(decide (E = a)) && !(decide (E = b)) &&
  decide (0 < det2 (vec d) (vec a)) && decide (0 < det2 (vec b) (vec c))

/-- Modelled from the spec: the combinatorial flip primitive of the external
base triangulation — the diagonal `e/E` of the quadrilateral with faces
`(e,a,b)` and `(E,c,d)` is replaced by the other diagonal, giving faces
`(e,b,c)` and `(E,d,a)`; `ep` is unchanged. -/
def combFlip (T : Tri) (e : Nat) : Tri :=
  let E := T.ep e
  let a := T.fp e
  let b := T.fp a
  let c := T.fp E
  let d := T.fp c
  { T with fp := fun x =>
      if x = e then b else if x = b then c else if x = c then e
      else if x = E then d else if x = d then a else if x = a then E
      else T.fp x }

/-- The state updates of `flip` after the optional gluing (layout.py, lines
531-555): move the diagonal positions, set `vector e := vector d + vector a`
and `vector E := vector b + vector c` (sequentially, as Python does),
recolour the flipped edge from the slope of its new vector and apply the
combinatorial flip; `a, b, c, d` are read from the face permutation before
the flip. -/
def flipUpdate (L1 : Layout) (T : Tri) (e : Nat) : Layout :=
  let E := T.ep e
  let a := T.fp e
  let b := T.fp a
  let c := T.fp E
  let d := T.fp c
  let pos2 : Option (Nat → Option Vec) :=
    match L1.pos with
    | some p => some (upd (upd p e (p d)) E ((upd p e (p d)) b))
    | none => none
  let v1 := upd L1.vectors e (L1.vectors d + L1.vectors a)
  let v2 := upd v1 E (v1 b + v1 c)
  let col := vecSlope (v2 e)
  { tri := combFlip T e,
    cols := upd (upd L1.cols e col) E col,
    vectors := v2,
    pos := pos2 }

/-- The method `FlatVeeringTriangulationLayout.flip` (layout.py, lines
518-557): refuse non-forward-flippable edges, glue the two faces side by side
when positions are set, perform the state updates of `flipUpdate`, and re-run
`_check`. -/
def layoutFlip (L : Layout) (e : Nat) : Except String Layout :=
  if !(forwardFlippable L.tri L.vectors e) then .error "ValueError"
  else
    match (match L.pos with
           | some p => glueSideBySide L p (L.tri.ep e)
           | none => .ok L) with
    | .error m => .error m
    | .ok L1 => checked (flipUpdate L1 L.tri e)

theorem layoutFlip_inv (L : Layout) (e : Nat) (L' : Layout)
    (h : layoutFlip L e = .ok L') : LayoutInv L' := by
  unfold layoutFlip at h
  by_cases hf : forwardFlippable L.tri L.vectors e = true
  · rw [hf] at h
    simp only [Bool.not_true, Bool.false_eq_true, if_false] at h
    rcases hg : (match L.pos with
                 | some p => glueSideBySide L p (L.tri.ep e)
                 | none => .ok L) with m | L1 <;> rw [hg] at h <;> dsimp only at h
    · exact Except.noConfusion h
    · exact (checked_inv h).2.2
  · rw [Bool.not_eq_true] at hf
    rw [hf] at h
    simp only [Bool.not_false, if_true] at h
    exact Except.noConfusion h

/-- C1: for every `FlatVeeringTriangulation` and every
`FlatVeeringTriangulationLayout` built from valid input, the full invariant
check passes immediately after construction and after every successful flip —
for every half-edge `a` with opposite `A`, `vector a` equals `vector A` or
`-vector A`; every face has vectors summing to zero and the three consecutive
cross products strictly positive (and consistent positions when set; on a
translation surface also globally opposite signs) — and `_check` succeeds
exactly when these invariants hold, so any violation raises the descriptive
error naming the offending edge or triangle. -/
theorem claim_C1 (T : Tri) (vs hol : List Vec) (ans : Bool) (cert : List Bool)
    (L L' M : Layout) (e : Nat) (S : FVT) :
    (layoutInit T vs = .ok L → LayoutInv L) ∧
    (layoutFlip M e = .ok L' → LayoutInv L') ∧
    (fvtInit T hol ans cert = .ok S → FVTInv S) ∧
    (M.checkE = .ok () ↔ LayoutInv M) ∧
    (fvtCheckE S = .ok () ↔ FVTInv S) :=
  ⟨layoutInit_inv T vs L, layoutFlip_inv M e L', fvtInit_inv T hol ans cert S,
   layoutCheckE_iff M, fvtCheckE_iff S⟩

/-- Example: the two-triangle torus with faces `(0,1,2)` and `(3,5,4)` and
`ep h = 5 - h`. -/
def triEx : Tri :=
  { n := 6,
    fp := fun x =>
      if x = 0 then 1 else if x = 1 then 2 else if x = 2 then 0
      else if x = 3 then 5 else if x = 5 then 4 else if x = 4 then 3 else x,
    ep := fun x => 5 - x }

/-- Example holonomies: a unit square torus cut along its diagonal. -/
def vsEx : List Vec := [(1, 1), (-1, 0), (0, -1), (0, 1), (1, 0), (-1, -1)]

/-- Example abelian certificate matching `vsEx`: edge 0 points right, edges 1
and 2 do not. -/
def certEx : List Bool := [true, false, false]

/-- Fallback layout used as the default of `okOr`. -/
def layoutD : Layout :=
  { tri := triEx, cols := fun _ => .red, vectors := fun _ => 0, pos := none }

/-- Fallback flat structure used as the default of `okOr`. -/
def fvtD : FVT := { tri := triEx, holonomies := [], translation := false }

def isOkB {ε α : Type} (x : Except ε α) : Bool :=
  match x with
  | .ok _ => true
  | .error _ => false

def okOr {ε α : Type} (x : Except ε α) (d : α) : α :=
  match x with
  | .ok a => a
  | .error _ => d

theorem okOr_spec {ε α : Type} (x : Except ε α) (d : α) (h : isOkB x = true) :
    x = .ok (okOr x d) := by
  cases x
  · exact absurd h (by simp [isOkB])
  · rfl

def layEx : Layout := okOr (layoutInit triEx vsEx) layoutD

def layFlipEx : Layout := okOr (layoutFlip layEx 0) layoutD

def fvtEx : FVT := okOr (fvtInit triEx vsEx true certEx) fvtD

/-- C1 witness: the torus layout and flat structure construct successfully, the
flip of edge 0 succeeds, and the invariants hold on all three results. -/
theorem claim_C1_witness :
    LayoutInv layEx ∧ LayoutInv layFlipEx ∧ FVTInv fvtEx := by
  have h1 : layoutInit triEx vsEx = .ok layEx := okOr_spec _ _ (by decide)
  have h2 : layoutFlip layEx 0 = .ok layFlipEx := okOr_spec _ _ (by decide)
  have h3 : fvtInit triEx vsEx true certEx = .ok fvtEx := okOr_spec _ _ (by decide)
  obtain ⟨c1, c2, c3, -, -⟩ :=
    claim_C1 triEx vsEx vsEx true certEx layEx layFlipEx layEx 0 fvtEx
  exact ⟨c1 h1, c2 h2, c3 h3⟩

theorem flipUpdate_fields (L : Layout) (T : Tri) (e : Nat)
    (hbe : T.fp (T.fp e) ≠ e) (hce : T.fp (T.ep e) ≠ e) (heE : e ≠ T.ep e) :
    (flipUpdate L T e).vectors e =
      L.vectors (T.fp (T.fp (T.ep e))) + L.vectors (T.fp e) ∧
    (flipUpdate L T e).vectors (T.ep e) =
      L.vectors (T.fp (T.fp e)) + L.vectors (T.fp (T.ep e)) ∧
    (∀ x, x ≠ e → x ≠ T.ep e → (flipUpdate L T e).vectors x = L.vectors x) ∧
    (flipUpdate L T e).cols e = vecSlope ((flipUpdate L T e).vectors e) ∧
    (flipUpdate L T e).cols (T.ep e) = vecSlope ((flipUpdate L T e).vectors e) ∧
    (∀ x, x ≠ e → x ≠ T.ep e → (flipUpdate L T e).cols x = L.cols x) ∧
    (flipUpdate L T e).tri = combFlip T e ∧
    (L.pos = none → (flipUpdate L T e).pos = none) := by
  have hvece : (flipUpdate L T e).vectors e =
      L.vectors (T.fp (T.fp (T.ep e))) + L.vectors (T.fp e) := by
    show upd (upd L.vectors e _) (T.ep e) _ e = _
    rw [upd_other _ _ _ _ heE, upd_same]
  refine ⟨hvece, ?_, ?_, ?_, ?_, ?_, rfl, ?_⟩
  · show upd (upd L.vectors e _) (T.ep e) _ (T.ep e) = _
    rw [upd_same]
    rw [upd_other _ _ _ _ hbe, upd_other _ _ _ _ hce]
  · intro x hxe hxE
    show upd (upd L.vectors e _) (T.ep e) _ x = _
    rw [upd_other _ _ _ _ hxE, upd_other _ _ _ _ hxe]
  · show upd (upd L.cols e _) (T.ep e) _ e = _
    rw [upd_other _ _ _ _ heE, upd_same, hvece]
    show vecSlope (upd (upd L.vectors e _) (T.ep e) _ e) = _
    rw [upd_other _ _ _ _ heE, upd_same]
  · show upd (upd L.cols e _) (T.ep e) _ (T.ep e) = _
    rw [upd_same, hvece]
    show vecSlope (upd (upd L.vectors e _) (T.ep e) _ e) = _
    rw [upd_other _ _ _ _ heE, upd_same]
  · intro x hxe hxE
    show upd (upd L.cols e _) (T.ep e) _ x = _
    rw [upd_other _ _ _ _ hxE, upd_other _ _ _ _ hxe]
  · intro hpos
    show (match L.pos with
          | some p => some (upd (upd p e (p (T.fp (T.fp (T.ep e))))) (T.ep e)
              (upd p e (p (T.fp (T.fp (T.ep e)))) (T.fp (T.fp e))))
          | none => (none : Option (Nat → Option Vec))) = none
    rw [hpos]

/-- C2: `flip(e)` raises the invalid-argument `ValueError` when `e` is not
forward flippable; otherwise — stated here for a layout without positions, so
the optional gluing step is skipped — with `a = fp e`, `b = fp a`, `c = fp E`,
`d = fp c` for `E` the opposite of `e`, it sets `vector e` to
`vector d + vector a` and `vector E` to `vector b + vector c`, derives the new
edge colour from the slope of the new vector, delegates the combinatorial flip
to the base triangulation, and re-runs the invariant check before returning:
the call succeeds with exactly that updated state when the check passes and
propagates the check's error otherwise. -/
theorem claim_C2 (L : Layout) (e : Nat) (hpos : L.pos = none) (hw : L.tri.Wf) :
    (forwardFlippable L.tri L.vectors e = false →
      layoutFlip L e = .error "ValueError") ∧
    (forwardFlippable L.tri L.vectors e = true →
      ∃ L2 : Layout,
        L2.vectors e =
          L.vectors (L.tri.fp (L.tri.fp (L.tri.ep e))) + L.vectors (L.tri.fp e) ∧
        L2.vectors (L.tri.ep e) =
          L.vectors (L.tri.fp (L.tri.fp e)) + L.vectors (L.tri.fp (L.tri.ep e)) ∧
        (∀ x, x ≠ e → x ≠ L.tri.ep e → L2.vectors x = L.vectors x) ∧
        L2.cols e = vecSlope (L2.vectors e) ∧
        L2.cols (L.tri.ep e) = vecSlope (L2.vectors e) ∧
        (∀ x, x ≠ e → x ≠ L.tri.ep e → L2.cols x = L.cols x) ∧
        L2.tri = combFlip L.tri e ∧
        L2.pos = none ∧
        ((layoutFlip L e = .ok L2 ∧ L2.checkE = .ok ()) ∨
          ∃ m, layoutFlip L e = .error m ∧ L2.checkE = .error m)) := by
  constructor
  · intro hf
    unfold layoutFlip
    rw [hf]
    rfl
  · intro hf
    have hfp := hf
    unfold forwardFlippable at hfp
    simp only [Bool.and_eq_true, decide_eq_true_eq, Bool.not_eq_true',
      decide_eq_false_iff_not] at hfp
    obtain ⟨⟨⟨⟨⟨hen, hEe⟩, hEa⟩, hEb⟩, -⟩, -⟩ := hfp
    obtain ⟨hfen, hepn, hep2, hfp3, hfne, hfp2ne⟩ := hw e hen
    have heE : e ≠ L.tri.ep e := fun h => hEe h.symm
    have hbe : L.tri.fp (L.tri.fp e) ≠ e := hfp2ne
    have hce : L.tri.fp (L.tri.ep e) ≠ e := by
      intro h
      apply hEb
      have h3E := (hw (L.tri.ep e) hepn).2.2.2.1
      rw [h] at h3E
      exact h3E.symm
    obtain ⟨f1, f2, f3, f4, f5, f6, f7, f8⟩ := flipUpdate_fields L L.tri e hbe hce heE
    refine ⟨flipUpdate L L.tri e, f1, f2, f3, f4, f5, f6, f7, f8 hpos, ?_⟩
    have hfl : layoutFlip L e = checked (flipUpdate L L.tri e) := by
      unfold layoutFlip
      rw [hf, hpos]
      rfl
    rw [hfl]
    rcases checked_cases (flipUpdate L L.tri e) with ⟨hok, hchk⟩ | ⟨m, herr, hchk⟩
    · exact Or.inl ⟨hok, hchk⟩
    · exact Or.inr ⟨m, herr, hchk⟩

/-- C2 witness: on the torus layout, flipping edge 0 succeeds and installs the
new diagonal vectors `(-1, 1)` and `(1, -1)`. -/
theorem claim_C2_witness :
    layoutFlip layEx 0 = .ok layFlipEx ∧ layFlipEx.vectors 0 = (-1, 1) ∧
      layFlipEx.vectors 5 = (1, -1) := by
  have hok : layoutFlip layEx 0 = .ok layFlipEx := okOr_spec _ _ (by decide)
  obtain ⟨-, h2⟩ := claim_C2 layEx 0 rfl ((wfB_iff layEx.tri).mp (by decide))
  obtain ⟨L2, hv1, hv2, -, -, -, -, -, -, hres⟩ := h2 (by decide)
  rcases hres with ⟨hok2, -⟩ | ⟨m, herr, -⟩
  · rw [hok] at hok2
    have heq : layFlipEx = L2 := Except.ok.inj hok2
    refine ⟨hok, ?_, ?_⟩
    · rw [heq, hv1]; decide
    · have h5 : layEx.tri.ep 0 = 5 := rfl
      rw [heq, ← h5, hv2]; decide
  · rw [herr] at hok
    exact Except.noConfusion hok

theorem getD_set_self (l : List Vec) (i : Nat) (v : Vec) (h : i < l.length) :
    (l.set i v).getD i 0 = v := by
  simp [List.getD_eq_getElem?_getD, List.getElem?_set_self, h]

theorem getD_set_ne (l : List Vec) (i j : Nat) (v : Vec) (h : j ≠ i) :
    (l.set i v).getD j 0 = l.getD j 0 := by
  simp [List.getD_eq_getElem?_getD, List.getElem?_set_ne (fun hh => h hh.symm)]

theorem numEdges_le (T : Tri) : numEdges T ≤ T.n := by
  unfold numEdges
  calc ((List.range T.n).filter (fun e => decide (e ≤ T.ep e))).length
      ≤ (List.range T.n).length := List.length_filter_le _ _
    _ = T.n := List.length_range T.n

theorem canonStepA_length (h : List Vec) (e : Nat) (r : Bool) :
    (canonStepA h e r).length = h.length := by
  unfold canonStepA
  split <;> simp

theorem canonStepB_length (ep : Nat → Nat) (h : List Vec) (e : Nat) (r : Bool) :
    (canonStepB ep h e r).length = h.length := by
  unfold canonStepB
  split <;> simp

theorem canonStep_length (ep : Nat → Nat) (h : List Vec) (e : Nat) (r : Bool) :
    (canonStep ep h e r).length = h.length := by
  unfold canonStep
  rw [canonStepB_length, canonStepA_length]

theorem canonStepA_frame (h : List Vec) (e : Nat) (r : Bool) (x : Nat) (hx : x ≠ e) :
    (canonStepA h e r).getD x 0 = h.getD x 0 := by
  unfold canonStepA
  split
  · exact getD_set_ne _ _ _ _ hx
  · rfl

theorem canonStepB_frame (ep : Nat → Nat) (h : List Vec) (e : Nat) (r : Bool)
    (x : Nat) (hx : x ≠ ep e) :
    (canonStepB ep h e r).getD x 0 = h.getD x 0 := by
  unfold canonStepB
  split
  · exact getD_set_ne _ _ _ _ hx
  · rfl

theorem canonStep_frame (ep : Nat → Nat) (h : List Vec) (e : Nat) (r : Bool)
    (x : Nat) (hx1 : x ≠ e) (hx2 : x ≠ ep e) :
    (canonStep ep h e r).getD x 0 = h.getD x 0 := by
  unfold canonStep
  rw [canonStepB_frame _ _ _ _ _ hx2, canonStepA_frame _ _ _ _ hx1]

theorem canonStepA_getD_e (h : List Vec) (e : Nat) (r : Bool) (hel : e < h.length) :
    (canonStepA h e r).getD e 0 =
      (if r ≠ decide (0 < (h.getD e 0).1) then -(h.getD e 0) else h.getD e 0) := by
  unfold canonStepA
  split
  · exact getD_set_self _ _ _ hel
  · rfl

theorem canonStepB_getD_E (ep : Nat → Nat) (h : List Vec) (e : Nat) (r : Bool)
    (hEl : ep e < h.length) :
    (canonStepB ep h e r).getD (ep e) 0 =
      (if r ≠ decide ((h.getD (ep e) 0).1 < 0) then -(h.getD (ep e) 0)
       else h.getD (ep e) 0) := by
  unfold canonStepB
  split
  · exact getD_set_self _ _ _ hEl
  · rfl

theorem canonStep_getD (ep : Nat → Nat) (h : List Vec) (e : Nat) (r : Bool)
    (hel : e < h.length) (hEl : ep e < h.length) (hne : ep e ≠ e) :
    (canonStep ep h e r).getD e 0 =
      (if r ≠ decide (0 < (h.getD e 0).1) then -(h.getD e 0) else h.getD e 0) ∧
    (canonStep ep h e r).getD (ep e) 0 =
      (if r ≠ decide ((h.getD (ep e) 0).1 < 0) then -(h.getD (ep e) 0)
       else h.getD (ep e) 0) := by
  have hne' : e ≠ ep e := fun hh => hne hh.symm
  constructor
  · unfold canonStep
    rw [canonStepB_frame _ _ _ _ _ hne', canonStepA_getD_e _ _ _ hel]
  · unfold canonStep
    rw [canonStepB_getD_E _ _ _ _ (by rw [canonStepA_length]; exact hEl),
      canonStepA_frame _ _ _ _ hne]

theorem signFix_pos (z : Vec) (b : Bool) (hz : z.1 ≠ 0) :
    (0 < ((if b ≠ decide (0 < z.1) then -z else z) : Vec).1 ↔ b = true) ∧
    ((if b ≠ decide (0 < z.1) then -z else z) = z ∨
      (if b ≠ decide (0 < z.1) then -z else z) = -z) := by
  by_cases hp : 0 < z.1 <;> cases b <;> simp [hp] <;> omega

theorem signFix_neg (z : Vec) (b : Bool) (hz : z.1 ≠ 0) :
    (((if b ≠ decide (z.1 < 0) then -z else z) : Vec).1 < 0 ↔ b = true) ∧
    ((if b ≠ decide (z.1 < 0) then -z else z) = z ∨
      (if b ≠ decide (z.1 < 0) then -z else z) = -z) := by
  by_cases hp : z.1 < 0 <;> cases b <;> simp [hp] <;> omega

theorem sign_opposite (x u v : Vec) (hx : x.1 ≠ 0) (r : Bool)
    (hu : u = x ∨ u = -x) (hv : v = x ∨ v = -x)
    (hus : 0 < u.1 ↔ r = true) (hvs : v.1 < 0 ↔ r = true) : v = -u := by
  rcases hu with hu | hu <;> rcases hv with hv | hv <;> subst hu <;> subst hv
  · exfalso
    cases r
    · simp only [Bool.false_eq_true, iff_false, not_lt] at hus hvs
      omega
    · simp only [iff_true] at hus hvs
      omega
  · rfl
  · simp [neg_neg]
  · exfalso
    cases r
    · simp only [Bool.false_eq_true, iff_false, not_lt] at hus hvs
      simp only [Prod.fst_neg] at hus hvs
      omega
    · simp only [iff_true, Prod.fst_neg] at hus hvs
      omega

theorem canonStep_spec (ep : Nat → Nat) (h : List Vec) (e : Nat) (r : Bool)
    (hel : e < h.length) (hEl : ep e < h.length) (hne : ep e ≠ e)
    (hpair : h.getD (ep e) 0 = h.getD e 0 ∨ h.getD (ep e) 0 = -(h.getD e 0))
    (hx : (h.getD e 0).1 ≠ 0) :
    (0 < ((canonStep ep h e r).getD e 0).1 ↔ r = true) ∧
    (canonStep ep h e r).getD (ep e) 0 = -((canonStep ep h e r).getD e 0) := by
  obtain ⟨ge, gE⟩ := canonStep_getD ep h e r hel hEl hne
  have hy : (h.getD (ep e) 0).1 ≠ 0 := by
    rcases hpair with hp | hp <;> rw [hp] <;> simpa using hx
  obtain ⟨s1, s2⟩ := signFix_pos (h.getD e 0) r hx
  obtain ⟨t1, t2⟩ := signFix_neg (h.getD (ep e) 0) r hy
  rw [ge, gE]
  refine ⟨s1, ?_⟩
  apply sign_opposite (h.getD e 0) _ _ hx r s2 _ s1 t1
  rcases t2 with ht | ht <;> rcases hpair with hp | hp <;> rw [ht, hp]
  · exact Or.inl rfl
  · exact Or.inr rfl
  · exact Or.inr rfl
  · exact Or.inl (neg_neg _)

/-- The canonicalisation loop starting at certificate index `k`, for reasoning
by induction on the remaining certificate entries. -/
def canonFoldFrom (ep : Nat → Nat) (k : Nat) (l : List Bool) (h : List Vec) :
    List Vec :=
  (List.enumFrom k l).foldl (fun h p => canonStep ep h p.1 p.2) h

theorem canonicalize_eq_foldFrom (ep : Nat → Nat) (cert : List Bool) (h : List Vec) :
    canonicalize ep cert h = canonFoldFrom ep 0 cert h := rfl

theorem canonFoldFrom_nil (ep : Nat → Nat) (k : Nat) (h : List Vec) :
    canonFoldFrom ep k [] h = h := rfl

theorem canonFoldFrom_cons (ep : Nat → Nat) (k : Nat) (r : Bool) (l : List Bool)
    (h : List Vec) :
    canonFoldFrom ep k (r :: l) h = canonFoldFrom ep (k + 1) l (canonStep ep h k r) :=
  rfl

theorem canonFoldFrom_length (ep : Nat → Nat) (k : Nat) (l : List Bool) (h : List Vec) :
    (canonFoldFrom ep k l h).length = h.length := by
  induction l generalizing k h with
  | nil => rfl
  | cons r l ih => rw [canonFoldFrom_cons, ih, canonStep_length]

theorem canonFoldFrom_frame (ep : Nat → Nat) (k : Nat) (l : List Bool) (h : List Vec)
    (x : Nat) (hx : ∀ j, k ≤ j → j < k + l.length → x ≠ j ∧ x ≠ ep j) :
    (canonFoldFrom ep k l h).getD x 0 = h.getD x 0 := by
  induction l generalizing k h with
  | nil => rfl
  | cons r l ih =>
    rw [canonFoldFrom_cons]
    have hk := hx k le_rfl (by simp)
    rw [ih (k + 1) _ (fun j hj1 hj2 => hx j (by omega) (by simp only [List.length_cons]; omega))]
    exact canonStep_frame ep h k r x hk.1 hk.2

theorem canonFoldFrom_spec (T : Tri) (k : Nat) (l : List Bool) (h : List Vec)
    (hlen : h.length = T.n)
    (hm : k + l.length ≤ numEdges T)
    (hstd : ∀ e, e < numEdges T → numEdges T ≤ T.ep e)
    (hepn : ∀ e, e < numEdges T → T.ep e < T.n)
    (hepinv : ∀ e, e < numEdges T → T.ep (T.ep e) = e)
    (hpair : ∀ e, k ≤ e → e < k + l.length →
      h.getD (T.ep e) 0 = h.getD e 0 ∨ h.getD (T.ep e) 0 = -(h.getD e 0))
    (hx : ∀ e, k ≤ e → e < k + l.length → (h.getD e 0).1 ≠ 0) :
    ∀ e, k ≤ e → e < k + l.length →
      (0 < ((canonFoldFrom T.ep k l h).getD e 0).1 ↔ l.getD (e - k) false = true) ∧
      (canonFoldFrom T.ep k l h).getD (T.ep e) 0 =
        -((canonFoldFrom T.ep k l h).getD e 0) := by
  induction l generalizing k h with
  | nil => intro e he1 he2; simp at he2; omega
  | cons r l ih =>
    intro e he1 he2
    simp only [List.length_cons] at he2 hm
    have hem : e < numEdges T := by omega
    have hkm : k < numEdges T := by omega
    rw [canonFoldFrom_cons]
    rcases Nat.eq_or_lt_of_le he1 with heq | hlt
    · subst heq
      have hfr : ∀ j, k + 1 ≤ j → j < k + 1 + l.length →
          (k ≠ j ∧ k ≠ T.ep j) ∧ (T.ep k ≠ j ∧ T.ep k ≠ T.ep j) := by
        intro j hj1 hj2
        have hjm : j < numEdges T := by omega
        have h1 : k ≠ j := by omega
        have h2 : k ≠ T.ep j := by
          have := hstd j hjm
          omega
        have h3 : T.ep k ≠ j := by
          have := hstd k hkm
          omega
        have h4 : T.ep k ≠ T.ep j := by
          intro hc
          have := hepinv k hkm
          rw [hc, hepinv j hjm] at this
          omega
        exact ⟨⟨h1, h2⟩, ⟨h3, h4⟩⟩
      have hf1 : (canonFoldFrom T.ep (k + 1) l (canonStep T.ep h k r)).getD k 0 =
          (canonStep T.ep h k r).getD k 0 :=
        canonFoldFrom_frame _ _ _ _ _ (fun j hj1 hj2 => (hfr j hj1 hj2).1)
      have hf2 : (canonFoldFrom T.ep (k + 1) l (canonStep T.ep h k r)).getD (T.ep k) 0 =
          (canonStep T.ep h k r).getD (T.ep k) 0 :=
        canonFoldFrom_frame _ _ _ _ _ (fun j hj1 hj2 => (hfr j hj1 hj2).2)
      rw [hf1, hf2]
      have hel : k < h.length := by
        rw [hlen]; exact lt_of_lt_of_le hkm (numEdges_le T)
      have hEl : T.ep k < h.length := by rw [hlen]; exact hepn k hkm
      have hne : T.ep k ≠ k := by
        have := hstd k hkm
        omega
      have spec := canonStep_spec T.ep h k r hel hEl hne
        (hpair k le_rfl (by simp only [List.length_cons]; omega))
        (hx k le_rfl (by simp only [List.length_cons]; omega))
      refine ⟨?_, spec.2⟩
      simpa using spec.1
    · have hpair2 : ∀ e2, k + 1 ≤ e2 → e2 < k + 1 + l.length →
          (canonStep T.ep h k r).getD (T.ep e2) 0 = (canonStep T.ep h k r).getD e2 0 ∨
          (canonStep T.ep h k r).getD (T.ep e2) 0 = -((canonStep T.ep h k r).getD e2 0) := by
        intro e2 h1 h2
        have he2m : e2 < numEdges T := by omega
        have g1 : (canonStep T.ep h k r).getD e2 0 = h.getD e2 0 :=
          canonStep_frame _ _ _ _ _ (by omega) (by have := hstd k hkm; omega)
        have g2 : (canonStep T.ep h k r).getD (T.ep e2) 0 = h.getD (T.ep e2) 0 := by
          apply canonStep_frame
          · have := hstd e2 he2m; omega
          · intro hc
            have := hepinv e2 he2m
            rw [hc, hepinv k hkm] at this
            omega
        rw [g1, g2]
        exact hpair e2 (by omega) (by simp only [List.length_cons]; omega)
      have hx2 : ∀ e2, k + 1 ≤ e2 → e2 < k + 1 + l.length →
          ((canonStep T.ep h k r).getD e2 0).1 ≠ 0 := by
        intro e2 h1 h2
        have he2m : e2 < numEdges T := by omega
        have g1 : (canonStep T.ep h k r).getD e2 0 = h.getD e2 0 :=
          canonStep_frame _ _ _ _ _ (by omega) (by have := hstd k hkm; omega)
        rw [g1]
        exact hx e2 (by omega) (by simp only [List.length_cons]; omega)
      have := ih (k + 1) (canonStep T.ep h k r)
        (by rw [canonStep_length]; exact hlen) (by omega) hpair2 hx2 e hlt (by omega)
      refine ⟨?_, this.2⟩
      rw [this.1]
      have hik : e - k = (e - (k + 1)) + 1 := by omega
      rw [hik]
      simp

/-- C4: when the veering triangulation is detected as a translation structure
(`is_abelian` true with certificate `cert`), the constructor's sign
canonicalisation makes `holonomies (opposite e) = -(holonomies e)` for every
edge `e`, flipping the sign of whichever side disagrees with the certificate —
afterwards the first coordinate of `holonomies e` is positive exactly when the
certificate says the edge points right; and any successfully constructed
translation flat structure satisfies the global sign property. -/
theorem claim_C4 (T : Tri) (hol : List Vec) (cert : List Bool)
    (hlen : hol.length = T.n) (hcert : cert.length = numEdges T)
    (hstd : ∀ e, e < numEdges T → numEdges T ≤ T.ep e)
    (hepn : ∀ e, e < numEdges T → T.ep e < T.n)
    (hepinv : ∀ e, e < numEdges T → T.ep (T.ep e) = e)
    (hpair : ∀ e, e < numEdges T →
      hol.getD (T.ep e) 0 = hol.getD e 0 ∨ hol.getD (T.ep e) 0 = -(hol.getD e 0))
    (hx : ∀ e, e < numEdges T → (hol.getD e 0).1 ≠ 0) :
    (∀ e, e < numEdges T →
      (canonicalize T.ep cert hol).getD (T.ep e) 0 =
        -((canonicalize T.ep cert hol).getD e 0) ∧
      (0 < ((canonicalize T.ep cert hol).getD e 0).1 ↔ cert.getD e false = true)) ∧
    (∀ S : FVT, fvtInit T hol true cert = .ok S →
      ∀ e, e < numEdges S.tri → S.vec (S.tri.ep e) = -(S.vec e)) := by
  constructor
  · intro e he
    rw [canonicalize_eq_foldFrom]
    have hb : e < 0 + cert.length := by rw [hcert]; omega
    have := canonFoldFrom_spec T 0 cert hol hlen (by rw [hcert]; omega) hstd hepn hepinv
      (fun e2 _ h2 => hpair e2 (by rw [hcert] at h2; omega))
      (fun e2 _ h2 => hx e2 (by rw [hcert] at h2; omega)) e (Nat.zero_le e) hb
    exact ⟨this.2, by simpa using this.1⟩
  · intro S hS e he
    have hinv := fvtInit_inv T hol true cert S hS
    have htr : S.translation = true := by
      rw [fvtInit_eq_step1] at hS
      rcases hs : fvtStep1 T hol with m | h2 <;> rw [hs] at hS <;> dsimp only at hS
      · exact Except.noConfusion hS
      · by_cases hl : h2.length ≠ T.n
        · rw [if_pos hl] at hS; exact Except.noConfusion hS
        · rw [if_neg hl] at hS
          rcases hc : fvtCheckE
              { tri := T, holonomies := if true = true then canonicalize T.ep cert h2 else h2,
                translation := true } with m | u
          · rw [hc] at hS; exact Except.noConfusion hS
          · cases u
            rw [hc] at hS
            rw [← Except.ok.inj hS]
    have := hinv.2.2.2.2 htr e he
    rw [this, neg_neg]

/-- Example holonomies from the class doctest of `FlatVeeringTriangulation`,
anti-symmetric under the edge involution and with no vertical edge. -/
def vsEx2 : List Vec := [(1, 2), (-2, -1), (1, -1), (-1, 1), (2, 1), (-1, -2)]

/-- Certificate matching the signs of `vsEx2`. -/
def certEx2 : List Bool := [true, false, true]

def fvtEx2 : FVT := okOr (fvtInit triEx vsEx2 true certEx2) fvtD

/-- C4 witness: on the torus with the doctest holonomies, canonicalisation
yields opposite vectors on the edge pair of edge 0 with the certificate sign,
and the constructed translation surface satisfies the global sign property. -/
theorem claim_C4_witness :
    ((canonicalize triEx.ep certEx2 vsEx2).getD (triEx.ep 0) 0 =
      -((canonicalize triEx.ep certEx2 vsEx2).getD 0 0) ∧
     (0 < ((canonicalize triEx.ep certEx2 vsEx2).getD 0 0).1 ↔
       certEx2.getD 0 false = true)) ∧
    fvtEx2.vec (fvtEx2.tri.ep 0) = -(fvtEx2.vec 0) := by
  have hS : fvtInit triEx vsEx2 true certEx2 = .ok fvtEx2 := okOr_spec _ _ (by decide)
  obtain ⟨c1, c2⟩ := claim_C4 triEx vsEx2 certEx2 (by decide) (by decide) (by decide)
    (by decide) (by decide) (by decide) (by decide)
  exact ⟨c1 0 (by decide), c2 fvtEx2 hS 0 (by decide)⟩

theorem getD_append_right (l l' : List Vec) (i : Nat) (h : l.length ≤ i) :
    (l ++ l').getD i 0 = l'.getD (i - l.length) 0 := by
  simp [List.getD_eq_getElem?_getD, List.getElem?_append_right h]

theorem getD_range_map (k i : Nat) (f : Nat → Vec) (h : i < k) :
    ((List.range k).map f).getD i 0 = f i := by
  simp [List.getD_eq_getElem?_getD, List.getElem?_map, List.getElem?_range h]

theorem stdFormFind_none (T : Tri)
    (hstd : ∀ e, e < numEdges T → e = T.ep e ∨ numEdges T ≤ T.ep e) :
    (List.range (numEdges T)).find?
      (fun e => decide (e ≠ T.ep e) && decide (T.ep e < numEdges T)) = none := by
  apply List.find?_eq_none.mpr
  intro e he
  have hem := List.mem_range.mp he
  simp only [Bool.and_eq_true, decide_eq_true_eq, not_and, ne_eq]
  intro hne
  rcases hstd e hem with h | h
  · exact absurd h hne
  · omega

/-- C8: when a constructor receives one vector per edge, the standard-form test
and the wrong-count error behave as claimed for both classes, and the layout
constructor extends the list so that every half-edge `h ≥ m` stores the input
vector of `opposite h` — but `FlatVeeringTriangulation.__init__` cannot: its
extension expression (flat_structure.py, line 113) references the undefined
name `vectors`, so whenever half-edges remain to extend it raises `NameError`
instead of extending. -/
theorem claim_C8 (T : Tri) (vs : List Vec) (L : Layout) (ans : Bool)
    (cert : List Bool) :
    (vs.length = numEdges T →
      (∀ e, e < numEdges T → e = T.ep e ∨ numEdges T ≤ T.ep e) →
      layoutInit T vs = .ok L →
      ∀ h, numEdges T ≤ h → h < T.n → L.vectors h = vs.getD (T.ep h) 0) ∧
    (vs.length = numEdges T →
      (∃ e, e < numEdges T ∧ e ≠ T.ep e ∧ T.ep e < numEdges T) →
      layoutInit T vs = .error "edge perm not in standard form" ∧
      fvtInit T vs ans cert = .error "edge perm not in standard form") ∧
    (vs.length ≠ numEdges T → vs.length ≠ T.n →
      layoutInit T vs = .error "wrong number of vectors" ∧
      fvtInit T vs ans cert = .error "wrong number of vectors") ∧
    (vs.length = numEdges T →
      (∀ e, e < numEdges T → e = T.ep e ∨ numEdges T ≤ T.ep e) →
      numEdges T < T.n →
      fvtInit T vs ans cert = .error "NameError: name vectors is not defined") := by
  refine ⟨?_, ?_, ?_, ?_⟩
  · intro hlen hstd hok h hm hn
    have hext : extendVectors T vs = .ok (vs ++ (List.range (T.n - numEdges T)).map
        (fun i => vs.getD (T.ep (numEdges T + i)) 0)) := by
      unfold extendVectors
      rw [if_pos hlen, stdFormFind_none T hstd]
    unfold layoutInit at hok
    rw [hext] at hok
    dsimp only at hok
    set vs2 := vs ++ (List.range (T.n - numEdges T)).map
      (fun i => vs.getD (T.ep (numEdges T + i)) 0) with hvs2
    by_cases hl : vs2.length ≠ T.n
    · rw [if_pos hl] at hok; exact Except.noConfusion hok
    · rw [if_neg hl] at hok
      rcases hc : Layout.checkE
          { tri := T, cols := fun e => vecSlope (vs2.getD e 0),
            vectors := fun i => vs2.getD i 0, pos := none } with m | u
      · rw [hc] at hok; exact Except.noConfusion hok
      · cases u
        rw [hc] at hok
        have hLv : L.vectors = fun i => vs2.getD i 0 := by
          rw [← Except.ok.inj hok]
        rw [hLv]
        show vs2.getD h 0 = vs.getD (T.ep h) 0
        have h1 : vs2.getD h 0 = ((List.range (T.n - numEdges T)).map
            (fun i => vs.getD (T.ep (numEdges T + i)) 0)).getD (h - vs.length) 0 :=
          getD_append_right _ _ _ (by omega)
        rw [h1, hlen, getD_range_map _ _ _ (by omega)]
        have : numEdges T + (h - numEdges T) = h := by omega
        rw [this]
  · rintro hlen ⟨e, hem, hne, hlt⟩
    have hfind : ∃ a, (List.range (numEdges T)).find?
        (fun e => decide (e ≠ T.ep e) && decide (T.ep e < numEdges T)) = some a := by
      rcases hf : (List.range (numEdges T)).find?
          (fun e => decide (e ≠ T.ep e) && decide (T.ep e < numEdges T)) with _ | a
      · have := List.find?_eq_none.mp hf e (List.mem_range.mpr hem)
        simp only [Bool.and_eq_true, decide_eq_true_eq, not_and, ne_eq,
          Decidable.not_not] at this
        exact absurd (this hne) (by omega)
      · exact ⟨a, rfl⟩
    obtain ⟨a, hfind⟩ := hfind
    constructor
    · have hext : extendVectors T vs = .error "edge perm not in standard form" := by
        unfold extendVectors
        rw [if_pos hlen, hfind]
      unfold layoutInit
      rw [hext]
    · have hext : fvtStep1 T vs = .error "edge perm not in standard form" := by
        unfold fvtStep1
        rw [if_pos hlen, hfind]
      rw [fvtInit_eq_step1, hext]
  · intro h1 h2
    constructor
    · have hext : extendVectors T vs = .ok vs := by
        unfold extendVectors
        rw [if_neg h1]
      unfold layoutInit
      rw [hext]
      dsimp only
      rw [if_pos h2]
    · have hext : fvtStep1 T vs = .ok vs := by
        unfold fvtStep1
        rw [if_neg h1]
      rw [fvtInit_eq_step1, hext]
      dsimp only
      rw [if_pos h2]
  · intro hlen hstd hmn
    have hext : fvtStep1 T vs = .error "NameError: name vectors is not defined" := by
      unfold fvtStep1
      rw [if_pos hlen, stdFormFind_none T hstd, if_pos hmn]
    rw [fvtInit_eq_step1, hext]

/-- Truncation of `vsEx2` to one vector per edge. -/
def vsEx2Half : List Vec := [(1, 2), (-2, -1), (1, -1)]

def layExHalf : Layout := okOr (layoutInit triEx vsEx2Half) layoutD

/-- A non-standard edge pairing on six half-edges: 0↔1, 2↔5, 3↔4. -/
def triBad : Tri :=
  { n := 6, fp := triEx.fp,
    ep := fun x =>
      if x = 0 then 1 else if x = 1 then 0 else if x = 2 then 5
      else if x = 5 then 2 else if x = 3 then 4 else if x = 4 then 3 else x }

/-- C8 witness: the layout extension stores the opposite's input vector on
half-edge 3; both constructors reject the non-standard pairing and the wrong
count; the flat-structure constructor crashes on the per-edge path. -/
theorem claim_C8_witness :
    layExHalf.vectors 3 = vsEx2Half.getD (triEx.ep 3) 0 ∧
    layoutInit triBad vsEx2Half = .error "edge perm not in standard form" ∧
    fvtInit triBad vsEx2Half true [] = .error "edge perm not in standard form" ∧
    layoutInit triEx [(1, 2)] = .error "wrong number of vectors" ∧
    fvtInit triEx [(1, 2)] true [] = .error "wrong number of vectors" ∧
    fvtInit triEx vsEx2Half true [] = .error "NameError: name vectors is not defined" := by
  have hok : layoutInit triEx vsEx2Half = .ok layExHalf := okOr_spec _ _ (by decide)
  obtain ⟨c1, -, -, -⟩ := claim_C8 triEx vsEx2Half layExHalf true []
  obtain ⟨-, c2, -, -⟩ := claim_C8 triBad vsEx2Half layoutD true []
  obtain ⟨-, -, c3, -⟩ := claim_C8 triEx [(1, 2)] layoutD true []
  obtain ⟨-, -, -, c4⟩ := claim_C8 triEx vsEx2Half layoutD true []
  refine ⟨?_, ?_, ?_, ?_, ?_, ?_⟩
  · exact c1 (by decide) (by decide) hok 3 (by decide) (by decide)
  · exact (c2 (by decide) ⟨0, by decide⟩).1
  · exact (c2 (by decide) ⟨0, by decide⟩).2
  · exact (c3 (by decide) (by decide)).1
  · exact (c3 (by decide) (by decide)).2
  · exact c4 (by decide) (by decide) (by decide)

/-- Base rings occurring in the constructors: the integers and their fraction
field, as Sage ring objects. -/
inductive RingTag
  | zz
  | qq
deriving DecidableEq

/-- Modelled from the spec: membership of the base ring in the Sage category
of fields, the test `self._K not in _Fields` of both constructors. -/
def RingTag.isField : RingTag → Bool
  | .zz => false
  | .qq => true

/-- Modelled from the spec: the fraction field of the base ring. -/
def RingTag.fractionField : RingTag → RingTag
  | .zz => .qq
  | .qq => .qq

/-- Rational plane vectors: integer vectors lifted to the fraction field. -/
abbrev QVec : Type := ℚ × ℚ

/-- Coordinatewise lift of an integer vector into the fraction field. -/
def liftVec (v : Vec) : QVec := ((v.1 : ℚ), (v.2 : ℚ))

/-- The ring-normalisation step of `FlatVeeringTriangulationLayout.__init__`
(layout.py, lines 183-186): when the common base ring is not a field, the base
ring becomes its fraction field and the vectors are lifted into it. -/
def layoutRingNormalize (K : RingTag) (vs : List Vec) : RingTag × List QVec :=
  if K.isField then (K, vs.map liftVec)
  else (K.fractionField, vs.map liftVec)

/-- The ring-normalisation step of `FlatVeeringTriangulation.__init__`
(flat_structure.py, lines 99-102): on the not-a-field branch, line 102 reads
`self._holonomies`, an attribute that is only assigned later (line 116), so
Python raises `AttributeError` instead of lifting. -/
def fvtRingNormalize (K : RingTag) (hol : List Vec) :
    Except String (RingTag × List QVec) :=
  if K.isField then .ok (K, hol.map liftVec)
  else .error "AttributeError: FlatVeeringTriangulation has no attribute holonomies"

/-- C9: the claim holds for the layout — integer input vectors are lifted to
the fraction field `QQ` of `ZZ`, which becomes the base ring — but fails for
`FlatVeeringTriangulation`: its not-a-field branch reads the yet-unassigned
attribute `_holonomies` (flat_structure.py, line 102) and construction raises
`AttributeError`, contradicting the class's own doctests with `ZZ` vectors. -/
theorem claim_C9 (vs : List Vec) :
    layoutRingNormalize .zz vs = (RingTag.fractionField .zz, vs.map liftVec) ∧
    (RingTag.fractionField .zz).isField = true ∧
    (∃ m, fvtRingNormalize .zz vs = .error m) ∧
    fvtRingNormalize .qq vs = .ok (.qq, vs.map liftVec) := by
  refine ⟨rfl, rfl, ⟨_, rfl⟩, rfl⟩

/-- The method `FlatVeeringTriangulation.swap` (flat_structure.py, lines
148-155).  Modelled from the spec for the missing base class: for a non-folded
edge the delegation `Triangulation.swap(e)` (line 154) is a call on the class
with the integer `e` in place of `self` and the positional argument `e`
missing, so Python raises `TypeError` before the holonomy swap of line 155
runs; for a folded edge the body does nothing. -/
def fvtSwap (S : FVT) (e : Nat) : Except String FVT :=
  if e ≠ S.tri.ep e then
    .error "TypeError: swap missing 1 required positional argument"
  else .ok S

/-- C10: for every non-folded edge, `swap` raises and leaves the structure
unchanged (the failure happens before the holonomies are touched, so no state
is modified); for a folded edge it is a no-op returning the structure as is. -/
theorem claim_C10 (S : FVT) (e : Nat) :
    (S.tri.ep e ≠ e → ∃ m, fvtSwap S e = .error m) ∧
    (S.tri.ep e = e → fvtSwap S e = .ok S) := by
  constructor
  · intro hne
    refine ⟨"TypeError: swap missing 1 required positional argument", ?_⟩
    unfold fvtSwap
    rw [if_pos (fun hc => hne hc.symm)]
  · intro heq
    unfold fvtSwap
    rw [if_neg (fun hc => hc heq.symm)]

/-- A flat structure whose every edge is folded (`ep` the identity). -/
def fvtFold : FVT :=
  { tri := { n := 3, fp := fun x => if x = 0 then 1 else if x = 1 then 2
      else if x = 2 then 0 else x, ep := fun x => x },
    holonomies := [], translation := false }

/-- C10 witness: swapping the non-folded edge 0 of the torus flat structure
raises; swapping the folded edge 0 of `fvtFold` is a no-op. -/
theorem claim_C10_witness :
    (∃ m, fvtSwap fvtEx2 0 = .error m) ∧ fvtSwap fvtFold 0 = .ok fvtFold := by
  obtain ⟨c1, -⟩ := claim_C10 fvtEx2 0
  obtain ⟨-, c2⟩ := claim_C10 fvtFold 0
  exact ⟨c1 (by decide), c2 rfl⟩

namespace SqT

/-- Colours of the coloured-triangulation layer: `colouredtriangulation.py`
uses the two constants RED and BLUE. -/
inductive TCol
  | red
  | blue
deriving DecidableEq

/-- The recolouring of `swap` (squaredtriangulation.py, line 33):
`RED if self.colour == BLUE else BLUE`. -/
def TCol.other (c : TCol) : TCol := if c = .blue then .red else .blue

/-- Edge index of a half-edge: the smaller of the two half-edge labels of its
edge pair (flipper's unsigned edge indices). -/
def eIdx (T : Tri) (h : Nat) : Nat := min h (T.ep h)

/-- The edge indices `self.triangulation.indices` over which the union-find is
initialised, one representative per edge. -/
def edgeIndices (T : Tri) : List Nat :=
  (List.range T.n).filter (fun e => decide (e ≤ T.ep e))

/-- A coloured triangulation: the base triangulation plus a RED/BLUE colour
per edge index (the external `ColouredTriangulation`). -/
structure CTri where
  tri : Tri
  col : Nat → TCol

/-- Modelled from the spec: validity of one triangle of a veering two-coloured
triangulation — two edges of one colour and one of the other, never three
alike. -/
def faceColOk (T : Tri) (col : Nat → TCol) (h : Nat) : Bool :=
  !(decide (col (eIdx T h) = col (eIdx T (T.fp h))) &&
    decide (col (eIdx T (T.fp h)) = col (eIdx T (T.fp (T.fp h)))))

/-- Modelled from the spec: the full colouring check of the external
`ColouredTriangulation` — every triangle is two-one coloured. -/
def ctriOkB (C : CTri) : Bool :=
  (List.range C.tri.n).all (fun h => faceColOk C.tri C.col h)

/-- Modelled from the spec: `ColouredTriangulation.flip_edge` — replace the
diagonal `d` by the other diagonal of its quadrilateral (the combinatorial
flip of `combFlip`), assign it the given colour, and validate the two new
triangles (every mutating operation re-checks its invariant); fails when the
edge is folded or its two faces coincide. -/
def flipEdge (C : CTri) (d : Nat) (newCol : TCol) : Except String CTri :=
  let T := C.tri
  let E := T.ep d
  if E = d ∨ E = T.fp d ∨ E = T.fp (T.fp d) then .error "not flippable"
  else
    let T2 := combFlip T d
    let col2 := upd C.col (eIdx T d) newCol
    if faceColOk T2 col2 d && faceColOk T2 col2 E then .ok ⟨T2, col2⟩
    else .error "invalid veering colouring"

/-- Flips of a list of diagonals in sequence, as the loops of `twist` and
`swap` perform them. -/
def flipMany (C : CTri) (ds : List Nat) (c : TCol) : Except String CTri :=
  ds.foldlM (fun C d => flipEdge C d c) C

/-- Modelled from the spec: `Triangulation.square_about_edge` — the four side
edges of the quadrilateral around the diagonal `d`, as edge indices, read
around the two faces `(d, a, b)` and `(~d, c, dd)`. -/
def squareAbout (T : Tri) (d : Nat) : List Nat :=
  [eIdx T (T.fp d), eIdx T (T.fp (T.fp d)), eIdx T (T.fp (T.ep d)),
   eIdx T (T.fp (T.fp (T.ep d)))]

/-- Modelled from the spec: the union-find of the absent `structures.py`,
observationally — the initial labelling of the indices. -/
def ufInit : Nat → Nat := fun i => i

/-- One union: everything labelled like `b` is relabelled like `a`. -/
def ufUnion (f : Nat → Nat) (a b : Nat) : Nat → Nat :=
  fun i => if f i = f b then f a else f i

/-- A sequence of unions. -/
def ufUnions (f : Nat → Nat) (ps : List (Nat × Nat)) : Nat → Nat :=
  ps.foldl (fun f p => ufUnion f p.1 p.2) f

/-- The union pairs of the curve detection (squaredtriangulation.py, lines
15-17): every diagonal with each edge of its square carrying the
distinguished colour. -/
def unionPairs (T : Tri) (col : Nat → TCol) (c : TCol) (diags : List Nat) :
    List (Nat × Nat) :=
  (diags.map (fun d =>
    ((squareAbout T d).filter (fun x => decide (col x = c))).map
      (fun x => (d, x)))).flatten

/-- The classes of a labelling over the edge indices: each class is listed
from its first member, in order of first appearance. -/
def ufClasses (T : Tri) (f : Nat → Nat) : List (List Nat) :=
  ((edgeIndices T).filter (fun i =>
    decide (((edgeIndices T).filter (fun j => decide (f j = f i))).head? = some i))).map
    (fun i => (edgeIndices T).filter (fun j => decide (f j = f i)))

/-- The detected curves (squaredtriangulation.py, line 18): the union-find
classes with more than one member. -/
def curvesOf (T : Tri) (col : Nat → TCol) (c : TCol) (diags : List Nat) :
    List (List Nat) :=
  (ufClasses T (ufUnions ufInit (unionPairs T col c diags))).filter
    (fun cl => decide (1 < cl.length))

/-- State of a `SquaredTriangulation`: the coloured triangulation plus the
distinguished diagonals, their colour, and the detected curves
(squaredtriangulation.py, lines 9-18). -/
structure ST where
  ctri : CTri
  diagonals : List Nat
  colour : TCol
  curves : List (List Nat)

/-- The type of the diagonal extraction `mostly_sloped_edges` of the absent
`colouredtriangulation.py`: the constructions are parameterised by it. -/
abbrev Msl : Type := Tri → (Nat → TCol) → List Nat

/-- The constructor of `SquaredTriangulation` (squaredtriangulation.py, lines
9-18), with `mostly_sloped_edges` supplied as the parameter `msl` (modelled
from the spec: it returns the distinguished diagonals of the square
decomposition for the reference direction): record the diagonals and their
colour — indexing an empty diagonal list raises, and the assertion demands a
monochromatic diagonal set — then detect the curves as the union-find classes
of size over one. -/
def stInit (msl : Msl) (C : CTri) : Except String ST :=
  let diags := msl C.tri C.col
  match diags.head? with
  | none => .error "IndexError: empty diagonals"
  | some d0 =>
    if diags.all (fun d => decide (C.col d = C.col d0)) then
      .ok { ctri := C, diagonals := diags, colour := C.col d0,
            curves := curvesOf C.tri C.col (C.col d0) diags }
    else .error "AssertionError: diagonals not monochromatic"

/-- `SquaredTriangulation.twist` (squaredtriangulation.py, lines 20-28):
assert that the curve is one of the detected curves, flip every diagonal lying
on the curve with the distinguished colour re-applied, and rebuild. -/
def twist (msl : Msl) (S : ST) (curve : List Nat) : Except String ST :=
  if S.curves.contains curve then
    match flipMany S.ctri (S.diagonals.filter (fun d => curve.contains d)) S.colour with
    | .error m => .error m
    | .ok C2 => stInit msl C2
  else .error "AssertionError: not a curve"

/-- `SquaredTriangulation.swap` (squaredtriangulation.py, lines 30-35): flip
every diagonal with the other colour and rebuild. -/
def swapST (msl : Msl) (S : ST) : Except String ST :=
  match flipMany S.ctri S.diagonals S.colour.other with
  | .error m => .error m
  | .ok C2 => stInit msl C2

/-- `SquaredTriangulation.neighbours` (squaredtriangulation.py, lines 37-38):
the twists about every detected curve, in order, followed by the single swap. -/
def neighbours (msl : Msl) (S : ST) : Except String (List ST) :=
  match S.curves.mapM (fun c => twist msl S c) with
  | .error m => .error m
  | .ok ts =>
    match swapST msl S with
    | .error m => .error m
    | .ok sw => .ok (ts ++ [sw])

end SqT

namespace SqT

theorem eqvGen_lift {α : Type} (r s : α → α → Prop)
    (h : ∀ x y, r x y → Relation.EqvGen s x y) : ∀ x y, Relation.EqvGen r x y → Relation.EqvGen s x y := by
  intro x y hxy
  induction hxy with
  | rel a b hab => exact h a b hab
  | refl a => exact Relation.EqvGen.refl a
  | symm a b _ ih => exact Relation.EqvGen.symm _ _ ih
  | trans a b c _ _ ih1 ih2 => exact Relation.EqvGen.trans _ _ _ ih1 ih2

theorem ufUnions_cons (f : Nat → Nat) (a b : Nat) (ps : List (Nat × Nat)) :
    ufUnions f ((a, b) :: ps) = ufUnions (ufUnion f a b) ps := rfl

theorem ufUnion_self_pair (f : Nat → Nat) (a b : Nat) :
    ufUnion f a b a = ufUnion f a b b := by
  unfold ufUnion
  by_cases h : f a = f b <;> simp [h]

theorem ufUnion_eq_of_eq (f : Nat → Nat) (a b x y : Nat) (h : f x = f y) :
    ufUnion f a b x = ufUnion f a b y := by
  unfold ufUnion
  rw [h]

theorem ufUnions_iff (ps : List (Nat × Nat)) (f : Nat → Nat) (i j : Nat) :
    ufUnions f ps i = ufUnions f ps j ↔
      Relation.EqvGen (fun x y => f x = f y ∨ (x, y) ∈ ps) i j := by
  induction ps generalizing f i j with
  | nil =>
    constructor
    · intro h; exact Relation.EqvGen.rel _ _ (Or.inl h)
    · intro h
      induction h with
      | rel a b hab =>
        rcases hab with hab | hab
        · exact hab
        · simp at hab
      | refl a => rfl
      | symm a b _ ih => exact ih.symm
      | trans a b c _ _ ih1 ih2 => exact ih1.trans ih2
  | cons p ps ih =>
    obtain ⟨a, b⟩ := p
    rw [ufUnions_cons, ih]
    constructor
    · intro h
      refine eqvGen_lift _ _ ?_ i j h
      intro x y hxy
      rcases hxy with hxy | hxy
      · by_cases hx : f x = f b <;> by_cases hy : f y = f b
        · exact Relation.EqvGen.rel _ _ (Or.inl (hx.trans hy.symm))
        · have hfy : f a = f y := by
            unfold ufUnion at hxy
            rw [if_pos hx, if_neg hy] at hxy
            exact hxy
          refine Relation.EqvGen.trans _ _ _ (Relation.EqvGen.rel _ _ (Or.inl hx)) ?_
          refine Relation.EqvGen.trans _ _ _
            (Relation.EqvGen.symm _ _ (Relation.EqvGen.rel _ _ (Or.inr (List.mem_cons_self (a, b) ps)))) ?_
          exact Relation.EqvGen.rel _ _ (Or.inl hfy)
        · have hfx : f x = f a := by
            unfold ufUnion at hxy
            rw [if_neg hx, if_pos hy] at hxy
            exact hxy
          refine Relation.EqvGen.trans _ _ _ (Relation.EqvGen.rel _ _ (Or.inl hfx)) ?_
          refine Relation.EqvGen.trans _ _ _
            (Relation.EqvGen.rel _ _ (Or.inr (List.mem_cons_self (a, b) ps))) ?_
          exact Relation.EqvGen.rel _ _ (Or.inl hy.symm)
        · have hfxy : f x = f y := by
            unfold ufUnion at hxy
            rw [if_neg hx, if_neg hy] at hxy
            exact hxy
          exact Relation.EqvGen.rel _ _ (Or.inl hfxy)
      · exact Relation.EqvGen.rel _ _ (Or.inr (List.mem_cons_of_mem _ hxy))
    · intro h
      refine eqvGen_lift _ _ ?_ i j h
      intro x y hxy
      rcases hxy with hxy | hxy
      · exact Relation.EqvGen.rel _ _ (Or.inl (ufUnion_eq_of_eq f a b x y hxy))
      · rcases List.mem_cons.mp hxy with hh | hh
        · have hx : x = a := congrArg Prod.fst hh
          have hy : y = b := congrArg Prod.snd hh
          subst hx; subst hy
          exact Relation.EqvGen.rel _ _ (Or.inl (ufUnion_self_pair f x y))
        · exact Relation.EqvGen.rel _ _ (Or.inr hh)

theorem head?_mem {α : Type} {l : List α} {a : α} (h : l.head? = some a) : a ∈ l := by
  cases l with
  | nil => cases h
  | cons x xs =>
    have : x = a := Option.some.inj h
    rw [← this]
    exact List.mem_cons_self x xs

theorem ufClasses_mem_iff (T : Tri) (f : Nat → Nat) (i j : Nat)
    (hi : i ∈ edgeIndices T) (hj : j ∈ edgeIndices T) :
    (∃ cl, cl ∈ ufClasses T f ∧ i ∈ cl ∧ j ∈ cl) ↔ f i = f j := by
  constructor
  · rintro ⟨cl, hcl, hicl, hjcl⟩
    unfold ufClasses at hcl
    obtain ⟨l, hlmem, hleq⟩ := List.mem_map.mp hcl
    rw [← hleq] at hicl hjcl
    have h1 := (List.mem_filter.mp hicl).2
    have h2 := (List.mem_filter.mp hjcl).2
    simp only [decide_eq_true_eq] at h1 h2
    rw [h1, h2]
  · intro hij
    have hine : i ∈ (edgeIndices T).filter (fun k => decide (f k = f i)) :=
      List.mem_filter.mpr ⟨hi, by simp⟩
    rcases hl : ((edgeIndices T).filter (fun k => decide (f k = f i))).head? with _ | l
    · rw [List.head?_eq_none_iff] at hl
      rw [hl] at hine
      cases hine
    · have hlmem := head?_mem hl
      have hlf : f l = f i := by
        have := (List.mem_filter.mp hlmem).2
        simpa using this
      have hcongr : (edgeIndices T).filter (fun k => decide (f k = f l)) =
          (edgeIndices T).filter (fun k => decide (f k = f i)) := by
        apply List.filter_congr
        intro k hk
        simp [hlf]
      refine ⟨(edgeIndices T).filter (fun k => decide (f k = f l)), ?_, ?_, ?_⟩
      · unfold ufClasses
        apply List.mem_map.mpr
        refine ⟨l, ?_, rfl⟩
        apply List.mem_filter.mpr
        refine ⟨(List.mem_filter.mp hlmem).1, ?_⟩
        simp only [decide_eq_true_eq]
        rw [hcongr]
        exact hl
      · rw [hcongr]; exact hine
      · rw [hcongr]
        exact List.mem_filter.mpr ⟨hj, by simp [hij]⟩

end SqT

/-- C5: the `SquaredTriangulation` constructor computes `curves` as exactly the
union-find classes of size over one over the edge indices, for the union
relation joining every distinguished diagonal with the same-coloured edges of
its surrounding quadrilateral: membership in one class is the generated
equivalence of the union pairs, and every detected curve has more than one
member. -/
theorem claim_C5 (msl : SqT.Msl) (C : SqT.CTri) (S : SqT.ST)
    (h : SqT.stInit msl C = .ok S) :
    (∀ cl, cl ∈ S.curves → 1 < cl.length) ∧
    (∀ cl, cl ∈ S.curves ↔
      cl ∈ SqT.ufClasses C.tri (SqT.ufUnions SqT.ufInit
        (SqT.unionPairs C.tri C.col S.colour S.diagonals)) ∧ 1 < cl.length) ∧
    (∀ i j, i ∈ SqT.edgeIndices C.tri → j ∈ SqT.edgeIndices C.tri →
      ((∃ cl, cl ∈ SqT.ufClasses C.tri (SqT.ufUnions SqT.ufInit
          (SqT.unionPairs C.tri C.col S.colour S.diagonals)) ∧ i ∈ cl ∧ j ∈ cl) ↔
        Relation.EqvGen (fun x y =>
          (x, y) ∈ SqT.unionPairs C.tri C.col S.colour S.diagonals) i j)) := by
  have hS : S.curves = SqT.curvesOf C.tri C.col S.colour S.diagonals ∧
      S.diagonals = msl C.tri C.col := by
    unfold SqT.stInit at h
    dsimp only at h
    rcases hh : (msl C.tri C.col).head? with _ | d0 <;> rw [hh] at h <;> dsimp only at h
    · exact Except.noConfusion h
    · by_cases hall : (msl C.tri C.col).all (fun d => decide (C.col d = C.col d0)) = true
      · rw [if_pos hall] at h
        rw [← Except.ok.inj h]
        exact ⟨rfl, rfl⟩
      · rw [if_neg hall] at h
        exact Except.noConfusion h
  refine ⟨?_, ?_, ?_⟩
  · intro cl hcl
    rw [hS.1] at hcl
    have := (List.mem_filter.mp hcl).2
    simpa using this
  · intro cl
    rw [hS.1]
    unfold SqT.curvesOf
    rw [List.mem_filter]
    simp
  · intro i j hi hj
    rw [SqT.ufClasses_mem_iff C.tri _ i j hi hj, SqT.ufUnions_iff]
    constructor
    · intro hg
      refine SqT.eqvGen_lift _ _ ?_ i j hg
      intro x y hxy
      rcases hxy with hxy | hxy
      · unfold SqT.ufInit at hxy
        rw [hxy]
        exact Relation.EqvGen.refl y
      · exact Relation.EqvGen.rel _ _ hxy
    · intro hg
      refine SqT.eqvGen_lift _ _ ?_ i j hg
      intro x y hxy
      exact Relation.EqvGen.rel _ _ (Or.inr hxy)

/-- The four-triangle example of squaredtriangulation.py's `__main__` block:
faces `(6,8,4)`, `(7,5,0)`, `(9,1,3)`, `(10,11,2)` with `ep h = 11 - h`. -/
def triS : Tri :=
  { n := 12,
    fp := fun h =>
      if h = 6 then 8 else if h = 8 then 4 else if h = 4 then 6
      else if h = 7 then 5 else if h = 5 then 0 else if h = 0 then 7
      else if h = 9 then 1 else if h = 1 then 3 else if h = 3 then 9
      else if h = 10 then 11 else if h = 11 then 2 else if h = 2 then 10 else h,
    ep := fun h => 11 - h }

/-- Two-one colouring of `triS`: edges 2 and 4 red, the rest blue. -/
def colS : Nat → SqT.TCol := fun i => if i = 2 ∨ i = 4 then .red else .blue

/-- The coloured four-triangle example. -/
def ctriS : SqT.CTri := { tri := triS, col := colS }

/-- Diagonal extraction for the example: the blue diagonals 1 and 5. -/
def mslEx : SqT.Msl := fun _ _ => [1, 5]

/-- Fallback squared-triangulation state used as the default of `okOr`. -/
def stD : SqT.ST :=
  { ctri := ctriS, diagonals := [], colour := .blue, curves := [] }

/-- The squared triangulation built from the example. -/
def stEx : SqT.ST := okOr (SqT.stInit mslEx ctriS) stD

/-- Witness for C5: on the four-triangle example the constructor succeeds, the
single detected curve has more than one member, and edges 0 and 5 are joined
by the generated equivalence of the union pairs. -/
theorem claim_C5_witness :
    1 < (stEx.curves.getD 0 []).length ∧
    Relation.EqvGen (fun x y =>
      (x, y) ∈ SqT.unionPairs ctriS.tri ctriS.col stEx.colour stEx.diagonals)
      0 5 := by
  have h := okOr_spec (SqT.stInit mslEx ctriS) stD (by decide)
  have hc := claim_C5 mslEx ctriS stEx h
  constructor
  · exact hc.1 _ (by decide)
  · exact (hc.2.2 0 5 (by decide) (by decide)).mp
      ⟨[0, 1, 3, 5], by decide, by decide, by decide⟩

namespace SqT

/-- Modelled from the spec: flippability of a half-edge in the external
`flip_edge` — the edge is inside the triangulation, not folded, and its two
adjacent faces are distinct. -/
def Flippable (T : Tri) (e : Nat) : Prop :=
  e < T.n ∧ T.ep e ≠ e ∧ T.ep e ≠ T.fp e ∧ T.ep e ≠ T.fp (T.fp e)

/-- The six half-edges of the quadrilateral around the diagonal `e`: the two
faces `(e, a, b)` and `(~e, c, f)`. -/
def sixList (T : Tri) (e : Nat) : List Nat :=
  [e, T.fp e, T.fp (T.fp e), T.ep e, T.fp (T.ep e), T.fp (T.fp (T.ep e))]

/-- The face permutation of a well-formed triangulation is injective below
`n`. -/
theorem fp_inj (T : Tri) (hw : T.Wf) {x y : Nat} (hx : x < T.n) (hy : y < T.n)
    (h : T.fp x = T.fp y) : x = y := by
  have h3x := (hw x hx).2.2.2.1
  have h3y := (hw y hy).2.2.2.1
  calc x = T.fp (T.fp (T.fp x)) := h3x.symm
    _ = T.fp (T.fp (T.fp y)) := by rw [h]
    _ = y := h3y

/-- The bounds and pairwise distinctness of the six half-edges of the
quadrilateral around a flippable edge. -/
structure SixFacts (T : Tri) (e : Nat) : Prop where
  he : e < T.n
  ha : T.fp e < T.n
  hb : T.fp (T.fp e) < T.n
  hE : T.ep e < T.n
  hc : T.fp (T.ep e) < T.n
  hq : T.fp (T.fp (T.ep e)) < T.n
  ae : T.fp e ≠ e
  be : T.fp (T.fp e) ≠ e
  ba : T.fp (T.fp e) ≠ T.fp e
  Ee : T.ep e ≠ e
  Ea : T.ep e ≠ T.fp e
  Eb : T.ep e ≠ T.fp (T.fp e)
  cE : T.fp (T.ep e) ≠ T.ep e
  fE : T.fp (T.fp (T.ep e)) ≠ T.ep e
  fc : T.fp (T.fp (T.ep e)) ≠ T.fp (T.ep e)
  ce : T.fp (T.ep e) ≠ e
  ca : T.fp (T.ep e) ≠ T.fp e
  cb : T.fp (T.ep e) ≠ T.fp (T.fp e)
  fe : T.fp (T.fp (T.ep e)) ≠ e
  fa : T.fp (T.fp (T.ep e)) ≠ T.fp e
  fb : T.fp (T.fp (T.ep e)) ≠ T.fp (T.fp e)

/-- A flippable edge of a well-formed triangulation has six distinct
quadrilateral half-edges, all inside the triangulation. -/
theorem six_facts (T : Tri) (hw : T.Wf) (e : Nat) (hfl : Flippable T e) :
    SixFacts T e := by
  obtain ⟨he, g1, g2, g3⟩ := hfl
  obtain ⟨ha, hE, hee, h3e, hne1, hne2⟩ := hw e he
  obtain ⟨hb, _, _, _, hba, _⟩ := hw (T.fp e) ha
  obtain ⟨hc, _, _, h3E, hcE, hfE⟩ := hw (T.ep e) hE
  obtain ⟨hq, _, _, _, hfc, _⟩ := hw (T.fp (T.ep e)) hc
  have ce : T.fp (T.ep e) ≠ e := by
    intro h
    apply g3
    conv_lhs => rw [← h3E]
    rw [h]
  have ca : T.fp (T.ep e) ≠ T.fp e := fun h => g1 (fp_inj T hw hE he h)
  have cb : T.fp (T.ep e) ≠ T.fp (T.fp e) := fun h => g2 (fp_inj T hw hE ha h)
  have fe : T.fp (T.fp (T.ep e)) ≠ e := by
    intro h
    apply g2
    conv_lhs => rw [← h3E]
    rw [h]
  have fa : T.fp (T.fp (T.ep e)) ≠ T.fp e := fun h => ce (fp_inj T hw hc he h)
  have fb : T.fp (T.fp (T.ep e)) ≠ T.fp (T.fp e) :=
    fun h => ca (fp_inj T hw hc ha h)
  exact ⟨he, ha, hb, hE, hc, hq, hne1, hne2, hba, g1, g2, g3, hcE, hfE, hfc,
    ce, ca, cb, fe, fa, fb⟩

end SqT

namespace SqT

/-- The face permutation written by `combFlip`, as an explicit conditional. -/
theorem combFlip_fp (T : Tri) (e x : Nat) :
    (combFlip T e).fp x =
      (if x = e then T.fp (T.fp e) else if x = T.fp (T.fp e) then T.fp (T.ep e)
       else if x = T.fp (T.ep e) then e
       else if x = T.ep e then T.fp (T.fp (T.ep e))
       else if x = T.fp (T.fp (T.ep e)) then T.fp e
       else if x = T.fp e then T.ep e else T.fp x) := rfl

/-- `combFlip` keeps the edge permutation. -/
theorem combFlip_ep (T : Tri) (e : Nat) : (combFlip T e).ep = T.ep := rfl

/-- `combFlip` keeps the number of half-edges. -/
theorem combFlip_n (T : Tri) (e : Nat) : (combFlip T e).n = T.n := rfl

/-- `combFlip` keeps the edge indices. -/
theorem combFlip_eIdx (T : Tri) (e x : Nat) : eIdx (combFlip T e) x = eIdx T x := rfl

/-- Half-edges outside the flipped quadrilateral keep their face successor. -/
theorem combFlip_frame (T : Tri) (e x : Nat) (h : ¬ x ∈ sixList T e) :
    (combFlip T e).fp x = T.fp x := by
  simp only [sixList, List.mem_cons, List.not_mem_nil, or_false, not_or] at h
  obtain ⟨h1, h2, h3, h4, h5, h6⟩ := h
  rw [combFlip_fp, if_neg h1, if_neg h3, if_neg h5, if_neg h4, if_neg h6, if_neg h2]

/-- The images of the six quadrilateral half-edges under the flipped face
permutation: the faces `(e,a,b)` and `(~e,c,f)` become `(e,b,c)` and
`(~e,f,a)`. -/
theorem combFlip_images (T : Tri) (e : Nat) (hs : SixFacts T e) :
    (combFlip T e).fp e = T.fp (T.fp e) ∧
    (combFlip T e).fp (T.fp (T.fp e)) = T.fp (T.ep e) ∧
    (combFlip T e).fp (T.fp (T.ep e)) = e ∧
    (combFlip T e).fp (T.ep e) = T.fp (T.fp (T.ep e)) ∧
    (combFlip T e).fp (T.fp (T.fp (T.ep e))) = T.fp e ∧
    (combFlip T e).fp (T.fp e) = T.ep e := by
  refine ⟨?_, ?_, ?_, ?_, ?_, ?_⟩ <;> rw [combFlip_fp]
  · rw [if_pos rfl]
  · rw [if_neg hs.be, if_pos rfl]
  · rw [if_neg hs.ce, if_neg hs.cb, if_pos rfl]
  · rw [if_neg hs.Ee, if_neg hs.Eb, if_neg (Ne.symm hs.cE), if_pos rfl]
  · rw [if_neg hs.fe, if_neg hs.fb, if_neg hs.fc, if_neg hs.fE, if_pos rfl]
  · rw [if_neg hs.ae, if_neg (Ne.symm hs.ba), if_neg (Ne.symm hs.ca),
      if_neg (Ne.symm hs.Ea), if_neg (Ne.symm hs.fa), if_pos rfl]

/-- Every quadrilateral half-edge is inside the triangulation. -/
theorem six_mem_lt (T : Tri) (e : Nat) (hs : SixFacts T e) :
    ∀ x ∈ sixList T e, x < T.n := by
  intro x hx
  simp only [sixList, List.mem_cons, List.not_mem_nil, or_false] at hx
  rcases hx with rfl | rfl | rfl | rfl | rfl | rfl
  · exact hs.he
  · exact hs.ha
  · exact hs.hb
  · exact hs.hE
  · exact hs.hc
  · exact hs.hq

/-- The face permutation maps the quadrilateral into itself. -/
theorem fp_six_closed (T : Tri) (hw : T.Wf) (e : Nat) (hs : SixFacts T e)
    (x : Nat) (hx : x ∈ sixList T e) : T.fp x ∈ sixList T e := by
  have h3e := (hw e hs.he).2.2.2.1
  have h3E := (hw (T.ep e) hs.hE).2.2.2.1
  simp only [sixList, List.mem_cons, List.not_mem_nil, or_false] at hx ⊢
  rcases hx with rfl | rfl | rfl | rfl | rfl | rfl
  · exact Or.inr (Or.inl rfl)
  · exact Or.inr (Or.inr (Or.inl rfl))
  · exact Or.inl h3e
  · exact Or.inr (Or.inr (Or.inr (Or.inr (Or.inl rfl))))
  · exact Or.inr (Or.inr (Or.inr (Or.inr (Or.inr rfl))))
  · exact Or.inr (Or.inr (Or.inr (Or.inl h3E)))

/-- A half-edge whose face successor lies in the quadrilateral lies in the
quadrilateral itself. -/
theorem fp_six_preimage (T : Tri) (hw : T.Wf) (e : Nat) (hs : SixFacts T e)
    (x : Nat) (hx : x < T.n) (hfx : T.fp x ∈ sixList T e) : x ∈ sixList T e := by
  have h3e := (hw e hs.he).2.2.2.1
  have h3E := (hw (T.ep e) hs.hE).2.2.2.1
  simp only [sixList, List.mem_cons, List.not_mem_nil, or_false] at hfx ⊢
  rcases hfx with h | h | h | h | h | h
  · refine Or.inr (Or.inr (Or.inl ?_))
    exact fp_inj T hw hx hs.hb (by rw [h, h3e])
  · exact Or.inl (fp_inj T hw hx hs.he h)
  · exact Or.inr (Or.inl (fp_inj T hw hx hs.ha h))
  · refine Or.inr (Or.inr (Or.inr (Or.inr (Or.inr ?_))))
    exact fp_inj T hw hx hs.hq (by rw [h, h3E])
  · exact Or.inr (Or.inr (Or.inr (Or.inl (fp_inj T hw hx hs.hE h))))
  · exact Or.inr (Or.inr (Or.inr (Or.inr (Or.inl (fp_inj T hw hx hs.hc h)))))

end SqT

namespace SqT

/-- The combinatorial flip of a flippable edge preserves well-formedness. -/
theorem combFlip_wf (T : Tri) (hw : T.Wf) (e : Nat) (hfl : Flippable T e) :
    (combFlip T e).Wf := by
  have hs := six_facts T hw e hfl
  obtain ⟨i1, i2, i3, i4, i5, i6⟩ := combFlip_images T e hs
  intro x hx
  rw [combFlip_n] at hx
  obtain ⟨hfx, hepx, hee, h3, hne1, hne2⟩ := hw x hx
  by_cases hmem : x ∈ sixList T e
  · simp only [sixList, List.mem_cons, List.not_mem_nil, or_false] at hmem
    rcases hmem with rfl | rfl | rfl | rfl | rfl | rfl
    · exact ⟨by rw [i1]; exact hs.hb, hepx, hee, by rw [i1, i2, i3],
        by rw [i1]; exact hs.be, by rw [i1, i2]; exact hs.ce⟩
    · exact ⟨by rw [i6]; exact hs.hE, hepx, hee, by rw [i6, i4, i5],
        by rw [i6]; exact hs.Ea, by rw [i6, i4]; exact hs.fa⟩
    · exact ⟨by rw [i2]; exact hs.hc, hepx, hee, by rw [i2, i3, i1],
        by rw [i2]; exact hs.cb, by rw [i2, i3]; exact Ne.symm hs.be⟩
    · exact ⟨by rw [i4]; exact hs.hq, hepx, hee, by rw [i4, i5, i6],
        by rw [i4]; exact hs.fE, by rw [i4, i5]; exact Ne.symm hs.Ea⟩
    · exact ⟨by rw [i3]; exact hs.he, hepx, hee, by rw [i3, i1, i2],
        by rw [i3]; exact Ne.symm hs.ce, by rw [i3, i1]; exact Ne.symm hs.cb⟩
    · exact ⟨by rw [i5]; exact hs.ha, hepx, hee, by rw [i5, i6, i4],
        by rw [i5]; exact Ne.symm hs.fa, by rw [i5, i6]; exact Ne.symm hs.fE⟩
  · have hf1 : (combFlip T e).fp x = T.fp x := combFlip_frame T e x hmem
    have hm2 : ¬ T.fp x ∈ sixList T e :=
      fun hc => hmem (fp_six_preimage T hw e hs x hx hc)
    have hf2 : (combFlip T e).fp (T.fp x) = T.fp (T.fp x) := combFlip_frame T e _ hm2
    have hm3 : ¬ T.fp (T.fp x) ∈ sixList T e :=
      fun hc => hm2 (fp_six_preimage T hw e hs _ hfx hc)
    have hf3 : (combFlip T e).fp (T.fp (T.fp x)) = T.fp (T.fp (T.fp x)) :=
      combFlip_frame T e _ hm3
    exact ⟨by rw [hf1]; exact hfx, hepx, hee, by rw [hf1, hf2, hf3]; exact h3,
      by rw [hf1]; exact hne1, by rw [hf1, hf2]; exact hne2⟩

end SqT

namespace SqT

/-- The two-one colouring condition of a triangle does not depend on the
corner at which the triangle is read. -/
theorem faceColOk_rot (T : Tri) (col : Nat → TCol) (h : Nat)
    (h3 : T.fp (T.fp (T.fp h)) = h) :
    faceColOk T col (T.fp h) = faceColOk T col h := by
  unfold faceColOk
  rw [h3]
  generalize col (eIdx T h) = x
  generalize col (eIdx T (T.fp h)) = y
  generalize col (eIdx T (T.fp (T.fp h))) = z
  cases x <;> cases y <;> cases z <;> rfl

/-- Two half-edges with the same edge index are the same edge. -/
theorem eIdx_eq_cases (T : Tri) (hw : T.Wf) (x d : Nat) (hx : x < T.n)
    (hd : d < T.n) (h : eIdx T x = eIdx T d) : x = d ∨ x = T.ep d := by
  have hepx := (hw x hx).2.2.1
  have hepd := (hw d hd).2.2.1
  unfold eIdx at h
  rcases Nat.le_total x (T.ep x) with h1 | h1 <;>
    rcases Nat.le_total d (T.ep d) with h2 | h2
  · rw [Nat.min_eq_left h1, Nat.min_eq_left h2] at h
    exact Or.inl h
  · rw [Nat.min_eq_left h1, Nat.min_eq_right h2] at h
    exact Or.inr h
  · rw [Nat.min_eq_right h1, Nat.min_eq_left h2] at h
    have := congrArg T.ep h
    rw [hepx] at this
    exact Or.inr this
  · rw [Nat.min_eq_right h1, Nat.min_eq_right h2] at h
    have := congrArg T.ep h
    rw [hepx, hepd] at this
    exact Or.inl this

end SqT

namespace SqT

/-- Shape of a successful `flipEdge`: the guard passed, the two new triangles
were validated, and the result is the flipped triangulation with the flipped
edge recoloured. -/
theorem flipEdge_ok (C C2 : CTri) (d : Nat) (nc : TCol)
    (h : flipEdge C d nc = .ok C2) :
    ¬ (C.tri.ep d = d ∨ C.tri.ep d = C.tri.fp d ∨
        C.tri.ep d = C.tri.fp (C.tri.fp d)) ∧
    C2 = ⟨combFlip C.tri d, upd C.col (eIdx C.tri d) nc⟩ ∧
    faceColOk (combFlip C.tri d) (upd C.col (eIdx C.tri d) nc) d = true ∧
    faceColOk (combFlip C.tri d) (upd C.col (eIdx C.tri d) nc) (C.tri.ep d) = true := by
  unfold flipEdge at h
  dsimp only at h
  by_cases hg : C.tri.ep d = d ∨ C.tri.ep d = C.tri.fp d ∨
      C.tri.ep d = C.tri.fp (C.tri.fp d)
  · rw [if_pos hg] at h
    exact Except.noConfusion h
  · rw [if_neg hg] at h
    by_cases hchk : (faceColOk (combFlip C.tri d) (upd C.col (eIdx C.tri d) nc) d &&
        faceColOk (combFlip C.tri d) (upd C.col (eIdx C.tri d) nc) (C.tri.ep d)) = true
    · rw [if_pos hchk] at h
      rw [Bool.and_eq_true] at hchk
      obtain ⟨hk1, hk2⟩ := hchk
      exact ⟨hg, (Except.ok.inj h).symm, hk1, hk2⟩
    · rw [if_neg hchk] at h
      exact Except.noConfusion h

/-- A successful `flipEdge` on a valid coloured triangulation yields a valid
coloured triangulation over the same half-edges and edge pairing. -/
theorem flipEdge_preserves (C C2 : CTri) (d : Nat) (nc : TCol)
    (hw : C.tri.Wf) (hok : ctriOkB C = true) (hd : d < C.tri.n)
    (h : flipEdge C d nc = .ok C2) :
    C2.tri.Wf ∧ ctriOkB C2 = true ∧ C2.tri.n = C.tri.n ∧ C2.tri.ep = C.tri.ep := by
  obtain ⟨hg, hC2, hk1, hk2⟩ := flipEdge_ok C C2 d nc h
  push_neg at hg
  obtain ⟨g1, g2, g3⟩ := hg
  have hfl : Flippable C.tri d := ⟨hd, g1, g2, g3⟩
  have hs := six_facts C.tri hw d hfl
  have him := combFlip_images C.tri d hs
  obtain ⟨i1, i2, i3, i4, i5, i6⟩ := him
  subst hC2
  refine ⟨combFlip_wf C.tri hw d hfl, ?_, rfl, rfl⟩
  unfold ctriOkB
  apply List.all_eq_true.mpr
  intro x hxm
  have hx : x < C.tri.n := by
    rw [combFlip_n] at hxm
    exact List.mem_range.mp hxm
  simp only [decide_eq_true_eq]
  have h3d : (combFlip C.tri d).fp ((combFlip C.tri d).fp ((combFlip C.tri d).fp d)) = d := by
    rw [i1, i2, i3]
  have h3b : (combFlip C.tri d).fp ((combFlip C.tri d).fp ((combFlip C.tri d).fp
      (C.tri.fp (C.tri.fp d)))) = C.tri.fp (C.tri.fp d) := by
    rw [i2, i3, i1]
  have h3E : (combFlip C.tri d).fp ((combFlip C.tri d).fp ((combFlip C.tri d).fp
      (C.tri.ep d))) = C.tri.ep d := by
    rw [i4, i5, i6]
  have h3f : (combFlip C.tri d).fp ((combFlip C.tri d).fp ((combFlip C.tri d).fp
      (C.tri.fp (C.tri.fp (C.tri.ep d))))) = C.tri.fp (C.tri.fp (C.tri.ep d)) := by
    rw [i5, i6, i4]
  by_cases hmem : x ∈ sixList C.tri d
  · simp only [sixList, List.mem_cons, List.not_mem_nil, or_false] at hmem
    rcases hmem with rfl | rfl | rfl | rfl | rfl | rfl
    · exact hk1
    · rw [← i5, faceColOk_rot _ _ _ h3f, ← i4, faceColOk_rot _ _ _ h3E]
      exact hk2
    · rw [← i1, faceColOk_rot _ _ _ h3d]
      exact hk1
    · exact hk2
    · rw [← i2, ← i1,
        faceColOk_rot _ _ _ (congrArg (combFlip C.tri d).fp h3d),
        faceColOk_rot _ _ _ h3d]
      exact hk1
    · rw [← i4, faceColOk_rot _ _ _ h3E]
      exact hk2
  · have hf1 := combFlip_frame C.tri d x hmem
    have hm2 : ¬ C.tri.fp x ∈ sixList C.tri d :=
      fun hc => hmem (fp_six_preimage C.tri hw d hs x hx hc)
    have hf2 := combFlip_frame C.tri d _ hm2
    have hx2 := (hw x hx).1
    have hx3 := (hw _ hx2).1
    have hcol : ∀ y, y < C.tri.n → ¬ y ∈ sixList C.tri d →
        upd C.col (eIdx C.tri d) nc (eIdx C.tri y) = C.col (eIdx C.tri y) := by
      intro y hy hym
      apply upd_other
      intro hc
      rcases eIdx_eq_cases C.tri hw y d hy hd hc with rfl | rfl
      · exact hym (by simp [sixList])
      · exact hym (by simp [sixList])
    have horig := List.all_eq_true.mp hok x (List.mem_range.mpr hx)
    simp only [decide_eq_true_eq] at horig
    unfold faceColOk at horig ⊢
    rw [combFlip_eIdx, combFlip_eIdx, combFlip_eIdx, hf1, hf2,
      hcol x hx hmem, hcol _ hx2 hm2,
      hcol _ hx3 (fun hc => hm2 (fp_six_preimage C.tri hw d hs _ hx2 hc))]
    exact horig

end SqT

namespace SqT

/-- A successful sequence of flips on a valid coloured triangulation yields a
valid coloured triangulation with the same number of half-edges. -/
theorem flipMany_preserves (ds : List Nat) (C C2 : CTri) (nc : TCol)
    (hw : C.tri.Wf) (hok : ctriOkB C = true)
    (hb : ∀ d ∈ ds, d < C.tri.n)
    (h : flipMany C ds nc = .ok C2) :
    C2.tri.Wf ∧ ctriOkB C2 = true ∧ C2.tri.n = C.tri.n := by
  induction ds generalizing C with
  | nil =>
    unfold flipMany at h
    rw [List.foldlM_nil] at h
    have hCC : C = C2 := Except.ok.inj h
    subst hCC
    exact ⟨hw, hok, rfl⟩
  | cons d ds ih =>
    unfold flipMany at h ih
    rw [List.foldlM_cons] at h
    cases hfe : flipEdge C d nc with
    | error m =>
      rw [hfe] at h
      have hred : ((Except.error m : Except String CTri) >>=
          fun C1 => List.foldlM (fun C d => flipEdge C d nc) C1 ds) =
          (Except.error m : Except String CTri) := rfl
      rw [hred] at h
      exact Except.noConfusion h
    | ok C1 =>
      rw [hfe] at h
      have hred : ((Except.ok C1 : Except String CTri) >>=
          fun C1 => List.foldlM (fun C d => flipEdge C d nc) C1 ds) =
          List.foldlM (fun C d => flipEdge C d nc) C1 ds := rfl
      rw [hred] at h
      have hp := flipEdge_preserves C C1 d nc hw hok (hb d (List.mem_cons_self d ds)) hfe
      have hb1 : ∀ d' ∈ ds, d' < C1.tri.n := by
        intro d' hd'
        rw [hp.2.2.1]
        exact hb d' (List.mem_cons_of_mem d hd')
      obtain ⟨w2, o2, n2⟩ := ih C1 hp.1 hp.2.1 hb1 h
      exact ⟨w2, o2, n2.trans hp.2.2.1⟩

/-- A successful `mapM` over `Except` succeeds pointwise, in order. -/
theorem mapM_ok_forall₂ {α β : Type} (f : α → Except String β) :
    ∀ (l : List α) (ts : List β), l.mapM f = .ok ts →
      List.Forall₂ (fun a b => f a = .ok b) l ts := by
  intro l
  induction l with
  | nil =>
    intro ts h
    rw [List.mapM_nil] at h
    have : ([] : List β) = ts := Except.ok.inj h
    subst this
    exact List.Forall₂.nil
  | cons a l ih =>
    intro ts h
    rw [List.mapM_cons] at h
    cases hfa : f a with
    | error m =>
      rw [hfa] at h
      exact Except.noConfusion h
    | ok b =>
      rw [hfa] at h
      have hred : ((Except.ok b : Except String β) >>= fun x =>
          l.mapM f >>= fun xs => pure (x :: xs)) =
          (l.mapM f >>= fun xs => Except.ok (b :: xs)) := rfl
      rw [hred] at h
      cases hml : l.mapM f with
      | error m =>
        rw [hml] at h
        exact Except.noConfusion h
      | ok bs =>
        rw [hml] at h
        have : b :: bs = ts := Except.ok.inj h
        subst this
        exact List.Forall₂.cons hfa (ih bs hml)

/-- Every member of the right list of a `Forall₂` is related to a member of
the left list. -/
theorem forall₂_mem_right {α β : Type} (R : α → β → Prop) :
    ∀ (l : List α) (ts : List β), List.Forall₂ R l ts →
      ∀ b ∈ ts, ∃ a ∈ l, R a b := by
  intro l
  induction l with
  | nil =>
    intro ts hf b hb
    cases hf
    exact absurd hb (List.not_mem_nil b)
  | cons a l ih =>
    intro ts hf b hb
    cases hf with
    | cons hab htail =>
      rcases List.mem_cons.mp hb with rfl | hb2
      · exact ⟨a, List.mem_cons_self a l, hab⟩
      · obtain ⟨a', ha', hr⟩ := ih _ htail b hb2
        exact ⟨a', List.mem_cons_of_mem a ha', hr⟩

/-- Shape of a successful `stInit`: the coloured triangulation is recorded
unchanged, the diagonals are those extracted, their colour is the colour of
the first of them (which they all share), and the curves are the classes of
size over one. -/
theorem stInit_ok (msl : Msl) (C : CTri) (S : ST) (h : stInit msl C = .ok S) :
    S.ctri = C ∧ S.diagonals = msl C.tri C.col ∧
    ∃ d0, (msl C.tri C.col).head? = some d0 ∧ S.colour = C.col d0 ∧
      (∀ d ∈ msl C.tri C.col, C.col d = C.col d0) ∧
      S.curves = curvesOf C.tri C.col (C.col d0) (msl C.tri C.col) := by
  unfold stInit at h
  dsimp only at h
  rcases hh : (msl C.tri C.col).head? with _ | d0 <;> rw [hh] at h <;> dsimp only at h
  · exact Except.noConfusion h
  · by_cases hall : (msl C.tri C.col).all (fun d => decide (C.col d = C.col d0)) = true
    · rw [if_pos hall] at h
      rw [← Except.ok.inj h]
      refine ⟨rfl, rfl, d0, rfl, rfl, ?_, rfl⟩
      intro d hd
      have := List.all_eq_true.mp hall d hd
      simpa using this
    · rw [if_neg hall] at h
      exact Except.noConfusion h

end SqT

/-- C6: on a well-formed, validly two-one coloured squared triangulation whose
diagonals lie inside the triangulation, a successful `neighbours` returns
exactly `curves.length + 1` structures — the `twist` of each detected curve in
order, then the single `swap` — each again well-formed and validly coloured;
and `twist` of anything that is not a detected curve fails with the
assertion. -/
theorem claim_C6 (msl : SqT.Msl) (S : SqT.ST) (L : List SqT.ST)
    (hwf : S.ctri.tri.Wf) (hok : SqT.ctriOkB S.ctri = true)
    (hdb : ∀ d ∈ S.diagonals, d < S.ctri.tri.n)
    (h : SqT.neighbours msl S = .ok L) :
    L.length = S.curves.length + 1 ∧
    (∃ ts sw, L = ts ++ [sw] ∧
      List.Forall₂ (fun c t => SqT.twist msl S c = .ok t) S.curves ts ∧
      SqT.swapST msl S = .ok sw) ∧
    (∀ N, N ∈ L → N.ctri.tri.Wf ∧ SqT.ctriOkB N.ctri = true) ∧
    (∀ c, ¬ c ∈ S.curves →
      SqT.twist msl S c = .error "AssertionError: not a curve") := by
  unfold SqT.neighbours at h
  cases hmm : S.curves.mapM (fun c => SqT.twist msl S c) with
  | error m =>
    rw [hmm] at h
    exact Except.noConfusion h
  | ok ts =>
    rw [hmm] at h
    dsimp only at h
    cases hsw : SqT.swapST msl S with
    | error m =>
      rw [hsw] at h
      exact Except.noConfusion h
    | ok sw =>
      rw [hsw] at h
      dsimp only at h
      have hL : ts ++ [sw] = L := Except.ok.inj h
      have hf2 := SqT.mapM_ok_forall₂ (fun c => SqT.twist msl S c) S.curves ts hmm
      have hlen := hf2.length_eq
      refine ⟨?_, ⟨ts, sw, hL.symm, hf2, rfl⟩, ?_, ?_⟩
      · rw [← hL, List.length_append, ← hlen]
        rfl
      · intro N hN
        rw [← hL] at hN
        have hone : ∀ C2, SqT.stInit msl C2 = .ok N →
            C2.tri.Wf → SqT.ctriOkB C2 = true →
            N.ctri.tri.Wf ∧ SqT.ctriOkB N.ctri = true := by
          intro C2 hst hw2 ho2
          have := (SqT.stInit_ok msl C2 N hst).1
          rw [this]
          exact ⟨hw2, ho2⟩
        rcases List.mem_append.mp hN with hNt | hNs
        · obtain ⟨c, hcm, htw⟩ := SqT.forall₂_mem_right _ S.curves ts hf2 N hNt
          unfold SqT.twist at htw
          dsimp only at htw
          by_cases hcon : S.curves.contains c = true
          · rw [if_pos hcon] at htw
            cases hfm : SqT.flipMany S.ctri
                (S.diagonals.filter (fun d => c.contains d)) S.colour with
            | error m =>
              rw [hfm] at htw
              exact Except.noConfusion htw
            | ok C2 =>
              rw [hfm] at htw
              dsimp only at htw
              have hb : ∀ d ∈ S.diagonals.filter (fun d => c.contains d),
                  d < S.ctri.tri.n :=
                fun d hd => hdb d (List.mem_filter.mp hd).1
              obtain ⟨hw2, ho2, _⟩ :=
                SqT.flipMany_preserves _ S.ctri C2 S.colour hwf hok hb hfm
              exact hone C2 htw hw2 ho2
          · rw [if_neg hcon] at htw
            exact Except.noConfusion htw
        · have hNsw : N = sw := by
            rcases List.mem_cons.mp hNs with h' | h'
            · exact h'
            · exact absurd h' (List.not_mem_nil N)
          subst hNsw
          unfold SqT.swapST at hsw
          cases hfm : SqT.flipMany S.ctri S.diagonals S.colour.other with
          | error m =>
            rw [hfm] at hsw
            exact Except.noConfusion hsw
          | ok C2 =>
            rw [hfm] at hsw
            dsimp only at hsw
            obtain ⟨hw2, ho2, _⟩ :=
              SqT.flipMany_preserves _ S.ctri C2 S.colour.other hwf hok hdb hfm
            exact hone C2 hsw hw2 ho2
      · intro c hc
        unfold SqT.twist
        rw [if_neg]
        intro hcon
        exact hc (by simpa using hcon)

/-- The neighbour list of the four-triangle example. -/
def nbEx : List SqT.ST := okOr (SqT.neighbours mslEx stEx) []

/-- Witness for C6: on the four-triangle example `neighbours` succeeds with
`curves.length + 1` structures, and twisting about a non-curve raises the
assertion. -/
theorem claim_C6_witness :
    SqT.neighbours mslEx stEx = .ok nbEx ∧
    nbEx.length = stEx.curves.length + 1 ∧
    SqT.twist mslEx stEx [] = .error "AssertionError: not a curve" := by
  have h := okOr_spec (SqT.neighbours mslEx stEx) [] (by decide)
  have hc := claim_C6 mslEx stEx nbEx ((wfB_iff stEx.ctri.tri).mp (by decide))
    (by decide) (by decide) h
  exact ⟨h, hc.1, hc.2.2.2 [] (by decide)⟩

namespace SqT

/-- The internal relabeling performed by a double swap: every distinguished
diagonal half-edge is exchanged with its opposite. -/
def swapPerm (T : Tri) (D : List Nat) : Nat → Nat :=
  fun x => if x ∈ D ∨ T.ep x ∈ D then T.ep x else x

/-- The exchange of one half-edge pair. -/
def pairSwap (T : Tri) (e : Nat) : Nat → Nat :=
  fun y => if y = e then T.ep e else if y = T.ep e then e else y

/-- Pairwise disjointness of the quadrilaterals of a list of diagonals. -/
def SixDisjoint (T : Tri) (D : List Nat) : Prop :=
  List.Pairwise (fun d d' => ∀ x, x ∈ sixList T d → ¬ x ∈ sixList T d') D

/-- Swapping the distinguished colour twice restores it. -/
theorem other_other (c : TCol) : c.other.other = c := by
  cases c <;> rfl

/-- The quadrilaterals of two distinct diagonals of a disjoint family do not
meet, in either order. -/
theorem sixDisjoint_ne (T : Tri) (D : List Nat) (hdisj : SixDisjoint T D)
    (d d' : Nat) (hd : d ∈ D) (hd' : d' ∈ D) (hne : d ≠ d')
    (x : Nat) (hx : x ∈ sixList T d) : ¬ x ∈ sixList T d' := by
  have hsymm : Symmetric (fun d d' => ∀ x, x ∈ sixList T d → ¬ x ∈ sixList T d') :=
    fun a b h y hyb hya => h y hya hyb
  exact List.Pairwise.forall hsymm hdisj hd hd' hne x hx

/-- A diagonal lies in its own quadrilateral. -/
theorem self_mem_six (T : Tri) (d : Nat) : d ∈ sixList T d := by
  simp [sixList]

/-- The opposite of a diagonal lies in the diagonal's quadrilateral. -/
theorem ep_mem_six (T : Tri) (d : Nat) : T.ep d ∈ sixList T d := by
  simp [sixList]

/-- Two triangulations that agree around the quadrilateral of `e` produce the
same flipped successor on that quadrilateral. -/
theorem combFlip_agree (T T1 : Tri) (e : Nat)
    (hep : T1.ep e = T.ep e)
    (h1 : T1.fp e = T.fp e)
    (h2 : T1.fp (T.fp e) = T.fp (T.fp e))
    (h3 : T1.fp (T.ep e) = T.fp (T.ep e))
    (h4 : T1.fp (T.fp (T.ep e)) = T.fp (T.fp (T.ep e)))
    (x : Nat) (hx : x ∈ sixList T e) :
    (combFlip T1 e).fp x = (combFlip T e).fp x := by
  rw [combFlip_fp, combFlip_fp]
  simp only [hep, h1, h2, h3, h4]
  simp only [sixList, List.mem_cons, List.not_mem_nil, or_false] at hx
  by_cases c1 : x = e
  · rw [if_pos c1, if_pos c1]
  · rw [if_neg c1, if_neg c1]
    by_cases c2 : x = T.fp (T.fp e)
    · rw [if_pos c2, if_pos c2]
    · rw [if_neg c2, if_neg c2]
      by_cases c3 : x = T.fp (T.ep e)
      · rw [if_pos c3, if_pos c3]
      · rw [if_neg c3, if_neg c3]
        by_cases c4 : x = T.ep e
        · rw [if_pos c4, if_pos c4]
        · rw [if_neg c4, if_neg c4]
          by_cases c5 : x = T.fp (T.fp (T.ep e))
          · rw [if_pos c5, if_pos c5]
          · rw [if_neg c5, if_neg c5]
            by_cases c6 : x = T.fp e
            · rw [if_pos c6, if_pos c6]
            · rcases hx with h | h | h | h | h | h
              · exact absurd h c1
              · exact absurd h c6
              · exact absurd h c2
              · exact absurd h c4
              · exact absurd h c3
              · exact absurd h c5

end SqT

namespace SqT

/-- Pointwise description of a successful sequence of flips over pairwise
disjoint quadrilaterals: each quadrilateral is flipped as if alone, everything
else is untouched, and each flipped diagonal edge is recoloured. -/
theorem flipMany_fp (D : List Nat) :
    ∀ (T : Tri) (col : Nat → TCol) (nc : TCol) (C2 : CTri),
    T.Wf → (∀ d ∈ D, Flippable T d) → SixDisjoint T D →
    flipMany ⟨T, col⟩ D nc = .ok C2 →
    C2.tri.n = T.n ∧ C2.tri.ep = T.ep ∧ C2.tri.Wf ∧
    (∀ d ∈ D, ∀ x, x ∈ sixList T d → C2.tri.fp x = (combFlip T d).fp x) ∧
    (∀ x, (∀ d ∈ D, ¬ x ∈ sixList T d) → C2.tri.fp x = T.fp x) ∧
    (∀ i, C2.col i =
      if (D.any (fun d => decide (eIdx T d = i))) = true then nc else col i) := by
  induction D with
  | nil =>
    intro T col nc C2 hw hfl hdisj h
    unfold flipMany at h
    rw [List.foldlM_nil] at h
    have hCC : (⟨T, col⟩ : CTri) = C2 := Except.ok.inj h
    rw [← hCC]
    refine ⟨rfl, rfl, hw, ?_, ?_, ?_⟩
    · intro d hd
      exact absurd hd (List.not_mem_nil d)
    · intro x _
      rfl
    · intro i
      simp
  | cons d ds ih =>
    intro T col nc C2 hw hfl hdisj h
    unfold flipMany at h
    rw [List.foldlM_cons] at h
    cases hfe : flipEdge ⟨T, col⟩ d nc with
    | error m =>
      rw [hfe] at h
      have hred : ((Except.error m : Except String CTri) >>=
          fun C' => List.foldlM (fun C d => flipEdge C d nc) C' ds) =
          (Except.error m : Except String CTri) := rfl
      rw [hred] at h
      exact Except.noConfusion h
    | ok C1 =>
      rw [hfe] at h
      have hred : ((Except.ok C1 : Except String CTri) >>=
          fun C' => List.foldlM (fun C d => flipEdge C d nc) C' ds) =
          List.foldlM (fun C d => flipEdge C d nc) C1 ds := rfl
      rw [hred] at h
      obtain ⟨hg, hC1, hk1, hk2⟩ := flipEdge_ok ⟨T, col⟩ C1 d nc hfe
      subst hC1
      have hfld := hfl d (List.mem_cons_self d ds)
      have hw1 := combFlip_wf T hw d hfld
      have hdisj_head : ∀ d' ∈ ds, ∀ x, x ∈ sixList T d → ¬ x ∈ sixList T d' :=
        fun d' hd' => (List.pairwise_cons.mp hdisj).1 d' hd'
      have hdisj_tail := (List.pairwise_cons.mp hdisj).2
      have hsix_pt : ∀ d' ∈ ds, ∀ y, y ∈ sixList T d' → (combFlip T d).fp y = T.fp y := by
        intro d' hd' y hy
        apply combFlip_frame
        intro hy6
        exact hdisj_head d' hd' y hy6 hy
      have hsix_eq : ∀ d' ∈ ds, sixList (combFlip T d) d' = sixList T d' := by
        intro d' hd'
        unfold sixList
        rw [combFlip_ep]
        rw [hsix_pt d' hd' d' (self_mem_six T d')]
        rw [hsix_pt d' hd' (T.fp d') (by simp [sixList])]
        rw [hsix_pt d' hd' (T.ep d') (ep_mem_six T d')]
        rw [hsix_pt d' hd' (T.fp (T.ep d')) (by simp [sixList])]
      have hfl1 : ∀ d' ∈ ds, Flippable (combFlip T d) d' := by
        intro d' hd'
        obtain ⟨hlt, g1, g2, g3⟩ := hfl d' (List.mem_cons_of_mem d hd')
        refine ⟨?_, ?_, ?_, ?_⟩
        · rw [combFlip_n]
          exact hlt
        · rw [combFlip_ep]
          exact g1
        · rw [combFlip_ep, hsix_pt d' hd' d' (self_mem_six T d')]
          exact g2
        · rw [combFlip_ep, hsix_pt d' hd' d' (self_mem_six T d'),
            hsix_pt d' hd' (T.fp d') (by simp [sixList])]
          exact g3
      have hdisj1 : SixDisjoint (combFlip T d) ds := by
        apply List.Pairwise.imp_of_mem ?_ hdisj_tail
        intro a b ha hb hR x hxa
        rw [hsix_eq a ha] at hxa
        rw [hsix_eq b hb]
        exact hR x hxa
      have h' : flipMany ⟨combFlip T d, upd col (eIdx T d) nc⟩ ds nc = .ok C2 := h
      obtain ⟨n2, ep2, w2, img2, frm2, col2⟩ :=
        ih (combFlip T d) (upd col (eIdx T d) nc) nc C2 hw1 hfl1 hdisj1 h'
      refine ⟨n2.trans (combFlip_n T d), ep2.trans (combFlip_ep T d), w2, ?_, ?_, ?_⟩
      · intro dd hdd x hx
        rcases List.mem_cons.mp hdd with rfl | hdd'
        · have hnot : ∀ d' ∈ ds, ¬ x ∈ sixList (combFlip T dd) d' := by
            intro d' hd' hc
            rw [hsix_eq d' hd'] at hc
            exact hdisj_head d' hd' x hx hc
          exact frm2 x hnot
        · rw [img2 dd hdd' x (by rw [hsix_eq dd hdd']; exact hx)]
          exact combFlip_agree T (combFlip T d) dd
            (by rw [combFlip_ep])
            (hsix_pt dd hdd' dd (self_mem_six T dd))
            (hsix_pt dd hdd' (T.fp dd) (by simp [sixList]))
            (hsix_pt dd hdd' (T.ep dd) (ep_mem_six T dd))
            (hsix_pt dd hdd' (T.fp (T.ep dd)) (by simp [sixList]))
            x hx
      · intro x hnot
        have hnot1 : ∀ d' ∈ ds, ¬ x ∈ sixList (combFlip T d) d' := by
          intro d' hd' hc
          rw [hsix_eq d' hd'] at hc
          exact hnot d' (List.mem_cons_of_mem d hd') hc
        rw [frm2 x hnot1]
        exact combFlip_frame T d x (hnot d (List.mem_cons_self d ds))
      · intro i
        rw [col2 i]
        simp only [combFlip_eIdx]
        rw [List.any_cons]
        by_cases hA : ds.any (fun d0 => decide (eIdx T d0 = i)) = true
        · rw [if_pos hA]
          have hcond : (decide (eIdx T d = i) ||
              ds.any (fun d0 => decide (eIdx T d0 = i))) = true := by
            rw [hA, Bool.or_true]
          rw [if_pos hcond]
        · rw [if_neg hA]
          unfold upd
          have hA' : ds.any (fun d0 => decide (eIdx T d0 = i)) = false :=
            Bool.not_eq_true _ ▸ Bool.of_not_eq_true hA
          by_cases hB : eIdx T d = i
          · have hcond : (decide (eIdx T d = i) ||
                ds.any (fun d0 => decide (eIdx T d0 = i))) = true := by
              simp [hB]
            rw [if_pos hcond, if_pos hB.symm]
          · have hcond : ¬ ((decide (eIdx T d = i) ||
                ds.any (fun d0 => decide (eIdx T d0 = i))) = true) := by
              simp [hB, hA']
            rw [if_neg hcond, if_neg (fun hc => hB hc.symm)]

end SqT

namespace SqT

/-- Flipping the same flippable diagonal twice exchanges the diagonal with its
opposite half-edge and leaves the rest of the quadrilateral as before. -/
theorem combFlip_twice (T : Tri) (hw : T.Wf) (e : Nat) (hfl : Flippable T e)
    (x : Nat) (hx : x ∈ sixList T e) :
    (combFlip (combFlip T e) e).fp x = pairSwap T e (T.fp (pairSwap T e x)) := by
  have hs := six_facts T hw e hfl
  obtain ⟨i1, i2, i3, i4, i5, i6⟩ := combFlip_images T e hs
  have hw1 := combFlip_wf T hw e hfl
  have hfl1 : Flippable (combFlip T e) e := by
    refine ⟨?_, ?_, ?_, ?_⟩
    · rw [combFlip_n]
      exact hs.he
    · rw [combFlip_ep]
      exact hs.Ee
    · rw [combFlip_ep, i1]
      exact hs.Eb
    · rw [combFlip_ep, i1, i2]
      exact Ne.symm hs.cE
  have hs1 := six_facts (combFlip T e) hw1 e hfl1
  obtain ⟨j1, j2, j3, j4, j5, j6⟩ := combFlip_images (combFlip T e) e hs1
  rw [combFlip_ep] at j2 j3 j4 j5 j6
  rw [i1, i2] at j1
  rw [i1, i2, i4] at j2
  rw [i4] at j3
  rw [i4, i5] at j4
  rw [i4, i5, i1] at j5
  rw [i1] at j6
  have h3e := (hw e hs.he).2.2.2.1
  have h3E := (hw (T.ep e) hs.hE).2.2.2.1
  simp only [sixList, List.mem_cons, List.not_mem_nil, or_false] at hx
  rcases hx with rfl | rfl | rfl | rfl | rfl | rfl
  · unfold pairSwap
    rw [if_pos (rfl : x = x), if_neg hs.ce, if_neg hs.cE]
    exact j1
  · unfold pairSwap
    rw [if_neg hs.ae, if_neg (Ne.symm hs.Ea), if_neg hs.be, if_neg (Ne.symm hs.Eb)]
    exact j5
  · unfold pairSwap
    rw [if_neg hs.be, if_neg (Ne.symm hs.Eb), h3e, if_pos (rfl : e = e)]
    exact j6
  · unfold pairSwap
    rw [if_neg hs.Ee, if_pos (rfl : T.ep e = T.ep e), if_neg hs.ae,
      if_neg (Ne.symm hs.Ea)]
    exact j4
  · unfold pairSwap
    rw [if_neg hs.ce, if_neg hs.cE, if_neg hs.fe, if_neg hs.fE]
    exact j2
  · unfold pairSwap
    rw [if_neg hs.fe, if_neg hs.fE, h3E, if_neg hs.Ee,
      if_pos (rfl : T.ep e = T.ep e)]
    exact j3

end SqT

namespace SqT

/-- On the quadrilateral of a diagonal of a disjoint family, the global
relabeling acts as the exchange of that diagonal pair alone. -/
theorem swapPerm_eq_pairSwap (T : Tri) (hw : T.Wf) (D : List Nat)
    (hfl : ∀ d ∈ D, Flippable T d) (hdisj : SixDisjoint T D)
    (d : Nat) (hd : d ∈ D) (x : Nat) (hx : x ∈ sixList T d) :
    swapPerm T D x = pairSwap T d x := by
  have hs := six_facts T hw d (hfl d hd)
  have hdlt := (hfl d hd).1
  have hepep_d := (hw d hdlt).2.2.1
  have hnotD : ∀ y, y ∈ sixList T d → y ≠ d → ¬ y ∈ D := by
    intro y hy hy1 hyD
    exact sixDisjoint_ne T D hdisj y d hyD hd hy1 y (self_mem_six T y) hy
  have hnotepD : ∀ y, y < T.n → y ∈ sixList T d → y ≠ T.ep d → ¬ T.ep y ∈ D := by
    intro y hylt hy hy2 hypD
    have hepep := (hw y hylt).2.2.1
    have hyin : y ∈ sixList T (T.ep y) := by
      have hm := ep_mem_six T (T.ep y)
      rw [hepep] at hm
      exact hm
    have hne : T.ep y ≠ d := by
      intro hc
      apply hy2
      rw [← hc, hepep]
    exact sixDisjoint_ne T D hdisj (T.ep y) d hypD hd hne y hyin hy
  simp only [sixList, List.mem_cons, List.not_mem_nil, or_false] at hx
  rcases hx with rfl | rfl | rfl | rfl | rfl | rfl
  · unfold swapPerm pairSwap
    rw [if_pos (Or.inl hd), if_pos rfl]
  · unfold swapPerm pairSwap
    have hcond : ¬ (T.fp d ∈ D ∨ T.ep (T.fp d) ∈ D) := by
      rintro (hc | hc)
      · exact hnotD (T.fp d) (by simp [sixList]) hs.ae hc
      · exact hnotepD (T.fp d) hs.ha (by simp [sixList]) (Ne.symm hs.Ea) hc
    rw [if_neg hcond, if_neg hs.ae, if_neg (Ne.symm hs.Ea)]
  · unfold swapPerm pairSwap
    have hcond : ¬ (T.fp (T.fp d) ∈ D ∨ T.ep (T.fp (T.fp d)) ∈ D) := by
      rintro (hc | hc)
      · exact hnotD (T.fp (T.fp d)) (by simp [sixList]) hs.be hc
      · exact hnotepD (T.fp (T.fp d)) hs.hb (by simp [sixList]) (Ne.symm hs.Eb) hc
    rw [if_neg hcond, if_neg hs.be, if_neg (Ne.symm hs.Eb)]
  · unfold swapPerm pairSwap
    have hcond : T.ep d ∈ D ∨ T.ep (T.ep d) ∈ D := by
      refine Or.inr ?_
      rw [hepep_d]
      exact hd
    rw [if_pos hcond, hepep_d, if_neg hs.Ee, if_pos (rfl : T.ep d = T.ep d)]
  · unfold swapPerm pairSwap
    have hcond : ¬ (T.fp (T.ep d) ∈ D ∨ T.ep (T.fp (T.ep d)) ∈ D) := by
      rintro (hc | hc)
      · exact hnotD (T.fp (T.ep d)) (by simp [sixList]) hs.ce hc
      · exact hnotepD (T.fp (T.ep d)) hs.hc (by simp [sixList]) hs.cE hc
    rw [if_neg hcond, if_neg hs.ce, if_neg hs.cE]
  · unfold swapPerm pairSwap
    have hcond : ¬ (T.fp (T.fp (T.ep d)) ∈ D ∨ T.ep (T.fp (T.fp (T.ep d))) ∈ D) := by
      rintro (hc | hc)
      · exact hnotD (T.fp (T.fp (T.ep d))) (by simp [sixList]) hs.fe hc
      · exact hnotepD (T.fp (T.fp (T.ep d))) hs.hq (by simp [sixList]) hs.fE hc
    rw [if_neg hcond, if_neg hs.fe, if_neg hs.fE]

/-- The relabeling fixes every half-edge away from all flipped
quadrilaterals. -/
theorem swapPerm_frame (T : Tri) (hw : T.Wf) (D : List Nat)
    (x : Nat) (hx : x < T.n)
    (hnot : ∀ d ∈ D, ¬ x ∈ sixList T d) : swapPerm T D x = x := by
  unfold swapPerm
  rw [if_neg]
  rintro (hc | hc)
  · exact hnot x hc (self_mem_six T x)
  · have hepep := (hw x hx).2.2.1
    have hm : x ∈ sixList T (T.ep x) := by
      have hm2 := ep_mem_six T (T.ep x)
      rw [hepep] at hm2
      exact hm2
    exact hnot (T.ep x) hc hm

end SqT

namespace SqT

/-- The pair exchange sends the diagonal to its opposite. -/
theorem pairSwap_self (T : Tri) (d : Nat) : pairSwap T d d = T.ep d := by
  unfold pairSwap
  rw [if_pos rfl]

/-- The pair exchange sends the opposite back to the diagonal. -/
theorem pairSwap_ep (T : Tri) (d : Nat) (h : T.ep d ≠ d) :
    pairSwap T d (T.ep d) = d := by
  unfold pairSwap
  rw [if_neg h, if_pos (rfl : T.ep d = T.ep d)]

/-- The pair exchange fixes everything else. -/
theorem pairSwap_other (T : Tri) (d y : Nat) (h1 : y ≠ d) (h2 : y ≠ T.ep d) :
    pairSwap T d y = y := by
  unfold pairSwap
  rw [if_neg h1, if_neg h2]

/-- The pair exchange maps the quadrilateral into itself. -/
theorem pairSwap_mem_six (T : Tri) (d x : Nat) (hx : x ∈ sixList T d) :
    pairSwap T d x ∈ sixList T d := by
  unfold pairSwap
  by_cases hA : x = d
  · rw [if_pos hA]
    exact ep_mem_six T d
  · rw [if_neg hA]
    by_cases hB : x = T.ep d
    · rw [if_pos hB]
      exact self_mem_six T d
    · rw [if_neg hB]
      exact hx

/-- The quadrilateral of the flipped diagonal has the same half-edges as
before the flip. -/
theorem mem_six_combFlip_self (T : Tri) (hw : T.Wf) (d : Nat) (hfl : Flippable T d)
    (x : Nat) (hx : x ∈ sixList T d) : x ∈ sixList (combFlip T d) d := by
  have hs := six_facts T hw d hfl
  obtain ⟨i1, i2, i3, i4, i5, i6⟩ := combFlip_images T d hs
  have heq : sixList (combFlip T d) d =
      [d, T.fp (T.fp d), T.fp (T.ep d), T.ep d, T.fp (T.fp (T.ep d)), T.fp d] := by
    unfold sixList
    rw [combFlip_ep, i1, i2, i4, i5]
  rw [heq]
  simp only [sixList, List.mem_cons, List.not_mem_nil, or_false] at hx ⊢
  tauto

/-- Membership of the union pairs, elementwise. -/
theorem unionPairs_mem (T : Tri) (col : Nat → TCol) (c : TCol) (D : List Nat)
    (p : Nat × Nat) :
    p ∈ unionPairs T col c D ↔
      ∃ d ∈ D, p.1 = d ∧ p.2 ∈ squareAbout T d ∧ col p.2 = c := by
  unfold unionPairs
  rw [List.mem_flatten]
  constructor
  · rintro ⟨l, hl, hpl⟩
    rw [List.mem_map] at hl
    obtain ⟨d, hdD, rfl⟩ := hl
    rw [List.mem_map] at hpl
    obtain ⟨x, hx, rfl⟩ := hpl
    rw [List.mem_filter] at hx
    exact ⟨d, hdD, rfl, hx.1, by simpa using hx.2⟩
  · rintro ⟨d, hdD, h1, h2, h3⟩
    refine ⟨((squareAbout T d).filter (fun x => decide (col x = c))).map
      (fun x => (d, x)), List.mem_map.mpr ⟨d, hdD, rfl⟩, ?_⟩
    rw [List.mem_map]
    refine ⟨p.2, List.mem_filter.mpr ⟨h2, by simpa using h3⟩, ?_⟩
    rw [← h1]

/-- Two labellings with the same identification pattern have the same
classes. -/
theorem ufClasses_congr (T : Tri) (f g : Nat → Nat)
    (h : ∀ i j, f i = f j ↔ g i = g j) : ufClasses T f = ufClasses T g := by
  unfold ufClasses
  have hfil : ∀ i, (edgeIndices T).filter (fun j => decide (f j = f i)) =
      (edgeIndices T).filter (fun j => decide (g j = g i)) := by
    intro i
    apply List.filter_congr
    intro j _
    exact decide_eq_decide.mpr (h j i)
  have houter : (edgeIndices T).filter (fun i =>
      decide (((edgeIndices T).filter (fun j => decide (f j = f i))).head? = some i)) =
      (edgeIndices T).filter (fun i =>
      decide (((edgeIndices T).filter (fun j => decide (g j = g i))).head? = some i)) := by
    apply List.filter_congr
    intro i _
    rw [hfil i]
  rw [houter]
  apply List.map_congr_left
  intro i _
  exact hfil i

/-- Union sequences over pair lists with the same members identify the same
labels. -/
theorem ufInit_labels_iff (ps ps' : List (Nat × Nat))
    (h : ∀ p : Nat × Nat, p ∈ ps ↔ p ∈ ps') (i j : Nat) :
    ufUnions ufInit ps i = ufUnions ufInit ps j ↔
    ufUnions ufInit ps' i = ufUnions ufInit ps' j := by
  rw [ufUnions_iff, ufUnions_iff]
  constructor <;> intro hg <;> refine eqvGen_lift _ _ ?_ i j hg <;> intro x y hxy
  · rcases hxy with hxy | hxy
    · exact Relation.EqvGen.rel _ _ (Or.inl hxy)
    · exact Relation.EqvGen.rel _ _ (Or.inr ((h _).mp hxy))
  · rcases hxy with hxy | hxy
    · exact Relation.EqvGen.rel _ _ (Or.inl hxy)
    · exact Relation.EqvGen.rel _ _ (Or.inr ((h _).mpr hxy))

/-- The detected curves only depend on the number of half-edges, the edge
pairing, the colouring, and the members of each diagonal's square. -/
theorem curvesOf_congr (T T1 : Tri) (col : Nat → TCol) (c : TCol) (D : List Nat)
    (hn : T1.n = T.n) (hep : T1.ep = T.ep)
    (hsq : ∀ d ∈ D, ∀ y, y ∈ squareAbout T1 d ↔ y ∈ squareAbout T d) :
    curvesOf T1 col c D = curvesOf T col c D := by
  have hEdge : edgeIndices T1 = edgeIndices T := by
    unfold edgeIndices
    rw [hn]
    apply List.filter_congr
    intro x _
    rw [hep]
  have hmem : ∀ p : Nat × Nat, p ∈ unionPairs T1 col c D ↔ p ∈ unionPairs T col c D := by
    intro p
    rw [unionPairs_mem, unionPairs_mem]
    constructor <;> rintro ⟨d, hdD, h1, h2, h3⟩
    · exact ⟨d, hdD, h1, (hsq d hdD p.2).mp h2, h3⟩
    · exact ⟨d, hdD, h1, (hsq d hdD p.2).mpr h2, h3⟩
  unfold curvesOf
  have h1 : ufClasses T1 (ufUnions ufInit (unionPairs T1 col c D)) =
      ufClasses T (ufUnions ufInit (unionPairs T1 col c D)) := by
    unfold ufClasses
    rw [hEdge]
  rw [h1, ufClasses_congr T _ _ (fun i j => ufInit_labels_iff _ _ hmem i j)]

end SqT

/-- C7: on a squared triangulation with pairwise disjoint flippable
quadrilaterals around its representative diagonals, applying `swap` twice
(with the diagonal extraction returning the same edges, as on a square
decomposition) yields the original structure up to the internal relabeling
that exchanges each diagonal with its opposite half-edge: the half-edge
count, edge pairing, colouring, distinguished colour and detected curves are
restored, and the face permutation is the original one conjugated by the
relabeling. -/
theorem claim_C7 (msl : SqT.Msl) (S S1 S2 : SqT.ST)
    (hw : S.ctri.tri.Wf)
    (hSS : SqT.stInit msl S.ctri = .ok S)
    (hfl : ∀ d ∈ S.diagonals, SqT.Flippable S.ctri.tri d)
    (hdisj : SqT.SixDisjoint S.ctri.tri S.diagonals)
    (hrep : ∀ d ∈ S.diagonals, d ≤ S.ctri.tri.ep d)
    (h1 : SqT.swapST msl S = .ok S1)
    (h2 : SqT.swapST msl S1 = .ok S2)
    (hd1 : S1.diagonals = S.diagonals)
    (hd2 : S2.diagonals = S.diagonals) :
    S2.ctri.tri.n = S.ctri.tri.n ∧
    S2.ctri.tri.ep = S.ctri.tri.ep ∧
    (∀ x, x < S.ctri.tri.n →
      S2.ctri.tri.fp x =
        SqT.swapPerm S.ctri.tri S.diagonals
          (S.ctri.tri.fp (SqT.swapPerm S.ctri.tri S.diagonals x))) ∧
    S2.ctri.col = S.ctri.col ∧
    S2.colour = S.colour ∧
    S2.curves = S.curves := by
  unfold SqT.swapST at h1
  cases hfm1 : SqT.flipMany S.ctri S.diagonals S.colour.other with
  | error m =>
    rw [hfm1] at h1
    exact Except.noConfusion h1
  | ok C2 =>
  rw [hfm1] at h1
  dsimp only at h1
  obtain ⟨-, hdiag, d0, hhead, hcolr, hmono, hcurves⟩ := SqT.stInit_ok msl S.ctri S hSS
  have hfm1' : SqT.flipMany ⟨S.ctri.tri, S.ctri.col⟩ S.diagonals S.colour.other = .ok C2 :=
    hfm1
  obtain ⟨n2, ep2, w2, img2, frm2, col2⟩ :=
    SqT.flipMany_fp S.diagonals S.ctri.tri S.ctri.col S.colour.other C2 hw hfl hdisj hfm1'
  have hsd : ∀ d ∈ S.diagonals, SqT.SixFacts S.ctri.tri d :=
    fun d hd => SqT.six_facts _ hw d (hfl d hd)
  have quad : ∀ d ∈ S.diagonals,
      C2.tri.fp d = S.ctri.tri.fp (S.ctri.tri.fp d) ∧
      C2.tri.fp (S.ctri.tri.fp (S.ctri.tri.fp d)) = S.ctri.tri.fp (S.ctri.tri.ep d) ∧
      C2.tri.fp (S.ctri.tri.ep d) = S.ctri.tri.fp (S.ctri.tri.fp (S.ctri.tri.ep d)) ∧
      C2.tri.fp (S.ctri.tri.fp (S.ctri.tri.fp (S.ctri.tri.ep d))) = S.ctri.tri.fp d := by
    intro d hd
    obtain ⟨i1, i2, i3, i4, i5, i6⟩ := SqT.combFlip_images S.ctri.tri d (hsd d hd)
    exact ⟨by rw [img2 d hd d (SqT.self_mem_six _ d), i1],
      by rw [img2 d hd _ (by simp [SqT.sixList]), i2],
      by rw [img2 d hd _ (SqT.ep_mem_six _ d), i4],
      by rw [img2 d hd _ (by simp [SqT.sixList]), i5]⟩
  have hsix2eq : ∀ d ∈ S.diagonals, SqT.sixList C2.tri d =
      [d, S.ctri.tri.fp (S.ctri.tri.fp d), S.ctri.tri.fp (S.ctri.tri.ep d),
       S.ctri.tri.ep d, S.ctri.tri.fp (S.ctri.tri.fp (S.ctri.tri.ep d)),
       S.ctri.tri.fp d] := by
    intro d hd
    obtain ⟨e1, e2, e4, e5⟩ := quad d hd
    unfold SqT.sixList
    rw [ep2, e1, e2, e4, e5]
  have hsix2 : ∀ d ∈ S.diagonals, ∀ y,
      y ∈ SqT.sixList C2.tri d ↔ y ∈ SqT.sixList S.ctri.tri d := by
    intro d hd y
    rw [hsix2eq d hd]
    simp only [SqT.sixList, List.mem_cons, List.not_mem_nil, or_false]
    tauto
  have hfl2 : ∀ d ∈ S.diagonals, SqT.Flippable C2.tri d := by
    intro d hd
    obtain ⟨hlt, g1, g2, g3⟩ := hfl d hd
    obtain ⟨e1, e2, e4, e5⟩ := quad d hd
    refine ⟨by rw [n2]; exact hlt, by rw [ep2]; exact g1, ?_, ?_⟩
    · rw [ep2, e1]
      exact g3
    · rw [ep2, e1, e2]
      exact Ne.symm (hsd d hd).cE
  have hdisj2 : SqT.SixDisjoint C2.tri S.diagonals := by
    apply List.Pairwise.imp_of_mem ?_ hdisj
    intro a b ha hb hR x hxa hxb
    exact hR x ((hsix2 a ha x).mp hxa) ((hsix2 b hb x).mp hxb)
  obtain ⟨hctri1, hdiag1, d0', hhead1, hcolr1, hmono1, hcurves1⟩ :=
    SqT.stInit_ok msl C2 S1 h1
  have hhead0 : S.diagonals.head? = some d0 := by
    rw [hdiag]
    exact hhead
  have hd0D : d0 ∈ S.diagonals := by
    rw [hdiag]
    exact SqT.head?_mem hhead
  have heI : ∀ d ∈ S.diagonals, SqT.eIdx S.ctri.tri d = d := by
    intro d hd
    unfold SqT.eIdx
    exact Nat.min_eq_left (hrep d hd)
  have hd0'eq : d0' = d0 := by
    have hh1 : S.diagonals.head? = some d0' := by
      rw [← hd1, hdiag1]
      exact hhead1
    rw [hhead0] at hh1
    exact (Option.some.inj hh1).symm
  rw [hd0'eq] at hcolr1
  have hS1col : S1.colour = S.colour.other := by
    rw [hcolr1, col2 d0]
    have hany : (S.diagonals.any (fun d => decide (SqT.eIdx S.ctri.tri d = d0))) = true :=
      List.any_eq_true.mpr ⟨d0, hd0D, by simp [heI d0 hd0D]⟩
    rw [if_pos hany]
  unfold SqT.swapST at h2
  rw [hctri1, hd1, hS1col, SqT.other_other] at h2
  cases hfm2 : SqT.flipMany C2 S.diagonals S.colour with
  | error m =>
    rw [hfm2] at h2
    exact Except.noConfusion h2
  | ok C4 =>
  rw [hfm2] at h2
  dsimp only at h2
  have hfm2' : SqT.flipMany ⟨C2.tri, C2.col⟩ S.diagonals S.colour = .ok C4 := hfm2
  obtain ⟨n4, ep4, w4, img4, frm4, col4⟩ :=
    SqT.flipMany_fp S.diagonals C2.tri C2.col S.colour C4 w2 hfl2 hdisj2 hfm2'
  have hep4T : C4.tri.ep = S.ctri.tri.ep := ep4.trans ep2
  obtain ⟨hctri2, hdiag2, d0'', hhead2, hcolr2, hmono2, hcurves2⟩ :=
    SqT.stInit_ok msl C4 S2 h2
  have hd0''eq : d0'' = d0 := by
    have hh2 : S.diagonals.head? = some d0'' := by
      rw [← hd2, hdiag2]
      exact hhead2
    rw [hhead0] at hh2
    exact (Option.some.inj hh2).symm
  rw [hd0''eq] at hcolr2 hcurves2
  have hfp4 : ∀ x, x < S.ctri.tri.n →
      C4.tri.fp x = SqT.swapPerm S.ctri.tri S.diagonals
        (S.ctri.tri.fp (SqT.swapPerm S.ctri.tri S.diagonals x)) := by
    intro x hx
    by_cases hx6 : ∃ d ∈ S.diagonals, x ∈ SqT.sixList S.ctri.tri d
    · obtain ⟨d, hdD, hxd⟩ := hx6
      rw [img4 d hdD x ((hsix2 d hdD x).mpr hxd)]
      have hagree : (combFlip C2.tri d).fp x =
          (combFlip (combFlip S.ctri.tri d) d).fp x := by
        obtain ⟨i1, i2, i3, i4, i5, i6⟩ := SqT.combFlip_images S.ctri.tri d (hsd d hdD)
        obtain ⟨e1, e2, e4, e5⟩ := quad d hdD
        apply SqT.combFlip_agree (combFlip S.ctri.tri d) C2.tri d
        · rw [ep2, SqT.combFlip_ep]
        · rw [e1, i1]
        · rw [i1, e2, i2]
        · rw [SqT.combFlip_ep, e4, i4]
        · rw [SqT.combFlip_ep, i4, e5, i5]
        · exact SqT.mem_six_combFlip_self S.ctri.tri hw d (hfl d hdD) x hxd
      rw [hagree, SqT.combFlip_twice S.ctri.tri hw d (hfl d hdD) x hxd,
        SqT.swapPerm_eq_pairSwap S.ctri.tri hw S.diagonals hfl hdisj d hdD x hxd,
        SqT.swapPerm_eq_pairSwap S.ctri.tri hw S.diagonals hfl hdisj d hdD _
          (SqT.fp_six_closed S.ctri.tri hw d (hsd d hdD) _
            (SqT.pairSwap_mem_six S.ctri.tri d x hxd))]
    · push_neg at hx6
      have hnot4 : ∀ d ∈ S.diagonals, ¬ x ∈ SqT.sixList C2.tri d :=
        fun d hd hc => hx6 d hd ((hsix2 d hd x).mp hc)
      rw [frm4 x hnot4, frm2 x hx6,
        SqT.swapPerm_frame S.ctri.tri hw S.diagonals x hx hx6]
      have hnotfp : ∀ d ∈ S.diagonals,
          ¬ S.ctri.tri.fp x ∈ SqT.sixList S.ctri.tri d :=
        fun d hd hc => hx6 d hd (SqT.fp_six_preimage S.ctri.tri hw d (hsd d hd) x hx hc)
      rw [SqT.swapPerm_frame S.ctri.tri hw S.diagonals _ (hw x hx).1 hnotfp]
  have heI4 : ∀ y, SqT.eIdx C2.tri y = SqT.eIdx S.ctri.tri y := by
    intro y
    unfold SqT.eIdx
    rw [ep2]
  have hcol4 : ∀ i, C4.col i = S.ctri.col i := by
    intro i
    rw [col4 i]
    simp only [heI4]
    by_cases hA : (S.diagonals.any (fun d => decide (SqT.eIdx S.ctri.tri d = i))) = true
    · rw [if_pos hA]
      obtain ⟨d, hdD2, hdec⟩ := List.any_eq_true.mp hA
      have heq : SqT.eIdx S.ctri.tri d = i := of_decide_eq_true hdec
      have hid : i = d := by
        rw [← heq, heI d hdD2]
      have hcd : S.ctri.col d = S.ctri.col d0 := hmono d (by rw [← hdiag]; exact hdD2)
      rw [hid, hcd, ← hcolr]
    · rw [if_neg hA, col2 i, if_neg hA]
  have hcol4f : C4.col = S.ctri.col := funext hcol4
  have hcolour2 : S2.colour = S.colour := by
    rw [hcolr2, hcol4 d0, ← hcolr]
  have hsq4 : ∀ d ∈ S.diagonals, ∀ y,
      y ∈ SqT.squareAbout C4.tri d ↔ y ∈ SqT.squareAbout S.ctri.tri d := by
    intro d hdD y
    have hs := hsd d hdD
    have hdlt := (hfl d hdD).1
    have p1 : SqT.swapPerm S.ctri.tri S.diagonals d = S.ctri.tri.ep d := by
      rw [SqT.swapPerm_eq_pairSwap S.ctri.tri hw S.diagonals hfl hdisj d hdD d
        (SqT.self_mem_six _ d), SqT.pairSwap_self]
    have p2 : SqT.swapPerm S.ctri.tri S.diagonals (S.ctri.tri.ep d) = d := by
      rw [SqT.swapPerm_eq_pairSwap S.ctri.tri hw S.diagonals hfl hdisj d hdD _
        (SqT.ep_mem_six _ d), SqT.pairSwap_ep _ _ hs.Ee]
    have pa : SqT.swapPerm S.ctri.tri S.diagonals (S.ctri.tri.fp d) =
        S.ctri.tri.fp d := by
      rw [SqT.swapPerm_eq_pairSwap S.ctri.tri hw S.diagonals hfl hdisj d hdD _
        (by simp [SqT.sixList]), SqT.pairSwap_other _ _ _ hs.ae (Ne.symm hs.Ea)]
    have pb : SqT.swapPerm S.ctri.tri S.diagonals (S.ctri.tri.fp (S.ctri.tri.fp d)) =
        S.ctri.tri.fp (S.ctri.tri.fp d) := by
      rw [SqT.swapPerm_eq_pairSwap S.ctri.tri hw S.diagonals hfl hdisj d hdD _
        (by simp [SqT.sixList]), SqT.pairSwap_other _ _ _ hs.be (Ne.symm hs.Eb)]
    have pc : SqT.swapPerm S.ctri.tri S.diagonals (S.ctri.tri.fp (S.ctri.tri.ep d)) =
        S.ctri.tri.fp (S.ctri.tri.ep d) := by
      rw [SqT.swapPerm_eq_pairSwap S.ctri.tri hw S.diagonals hfl hdisj d hdD _
        (by simp [SqT.sixList]), SqT.pairSwap_other _ _ _ hs.ce hs.cE]
    have pf : SqT.swapPerm S.ctri.tri S.diagonals
        (S.ctri.tri.fp (S.ctri.tri.fp (S.ctri.tri.ep d))) =
        S.ctri.tri.fp (S.ctri.tri.fp (S.ctri.tri.ep d)) := by
      rw [SqT.swapPerm_eq_pairSwap S.ctri.tri hw S.diagonals hfl hdisj d hdD _
        (by simp [SqT.sixList]), SqT.pairSwap_other _ _ _ hs.fe hs.fE]
    have q1 : C4.tri.fp d = S.ctri.tri.fp (S.ctri.tri.ep d) := by
      rw [hfp4 d hdlt, p1, pc]
    have q2 : C4.tri.fp (S.ctri.tri.fp (S.ctri.tri.ep d)) =
        S.ctri.tri.fp (S.ctri.tri.fp (S.ctri.tri.ep d)) := by
      rw [hfp4 _ hs.hc, pc, pf]
    have q3 : C4.tri.fp (S.ctri.tri.ep d) = S.ctri.tri.fp d := by
      rw [hfp4 _ hs.hE, p2, pa]
    have q4 : C4.tri.fp (S.ctri.tri.fp d) = S.ctri.tri.fp (S.ctri.tri.fp d) := by
      rw [hfp4 _ hs.ha, pa, pb]
    have heI4' : ∀ y2, SqT.eIdx C4.tri y2 = SqT.eIdx S.ctri.tri y2 := by
      intro y2
      unfold SqT.eIdx
      rw [hep4T]
    unfold SqT.squareAbout
    rw [hep4T, q1, q2, q3, q4]
    simp only [heI4']
    simp only [List.mem_cons, List.not_mem_nil, or_false]
    tauto
  have hcurvesFinal : S2.curves = S.curves := by
    rw [hcurves2, ← hdiag2, hd2, hcol4f,
      SqT.curvesOf_congr S.ctri.tri C4.tri S.ctri.col (S.ctri.col d0) S.diagonals
        (n4.trans n2) hep4T hsq4, hcurves, ← hdiag]
  refine ⟨?_, ?_, ?_, ?_, hcolour2, hcurvesFinal⟩
  · rw [hctri2]
    exact n4.trans n2
  · rw [hctri2]
    exact hep4T
  · intro x hx
    rw [hctri2]
    exact hfp4 x hx
  · rw [hctri2]
    exact hcol4f

/-- The four-triangle example after one swap. -/
def stEx1 : SqT.ST := okOr (SqT.swapST mslEx stEx) stD

/-- The four-triangle example after two swaps. -/
def stEx2 : SqT.ST := okOr (SqT.swapST mslEx stEx1) stD

/-- Witness for C7: on the four-triangle example the double swap restores the
curves, the distinguished colour and the colouring, and the flipped diagonal's
face successor is the relabeled original one. -/
theorem claim_C7_witness :
    stEx2.curves = stEx.curves ∧ stEx2.colour = stEx.colour ∧
    stEx2.ctri.col 1 = stEx.ctri.col 1 ∧
    stEx2.ctri.tri.fp 1 =
      SqT.swapPerm stEx.ctri.tri stEx.diagonals
        (stEx.ctri.tri.fp (SqT.swapPerm stEx.ctri.tri stEx.diagonals 1)) := by
  have hSS0 := okOr_spec (SqT.stInit mslEx ctriS) stD (by decide)
  have hctriEx : stEx.ctri = ctriS := (SqT.stInit_ok mslEx ctriS stEx hSS0).1
  have hSS : SqT.stInit mslEx stEx.ctri = .ok stEx := by
    rw [hctriEx]
    exact hSS0
  have h1 := okOr_spec (SqT.swapST mslEx stEx) stD (by decide)
  have h2 := okOr_spec (SqT.swapST mslEx stEx1) stD (by decide)
  have hw : stEx.ctri.tri.Wf := (wfB_iff stEx.ctri.tri).mp (by decide)
  have hDeq : stEx.diagonals = [1, 5] := by decide
  have hfl : ∀ d ∈ stEx.diagonals, SqT.Flippable stEx.ctri.tri d := by
    intro d hd
    rw [hDeq] at hd
    simp only [List.mem_cons, List.not_mem_nil, or_false] at hd
    rcases hd with rfl | rfl
    · exact ⟨by decide, by decide, by decide, by decide⟩
    · exact ⟨by decide, by decide, by decide, by decide⟩
  have hs1 : SqT.sixList stEx.ctri.tri 1 = [1, 3, 9, 10, 11, 2] := by decide
  have hs5 : SqT.sixList stEx.ctri.tri 5 = [5, 0, 7, 6, 8, 4] := by decide
  have hdisj : SqT.SixDisjoint stEx.ctri.tri stEx.diagonals := by
    rw [hDeq]
    unfold SqT.SixDisjoint
    refine List.Pairwise.cons ?_ (List.Pairwise.cons ?_ List.Pairwise.nil)
    · intro d' hd'
      simp only [List.mem_cons, List.not_mem_nil, or_false] at hd'
      subst hd'
      intro x hx hx5
      rw [hs1] at hx
      rw [hs5] at hx5
      simp only [List.mem_cons, List.not_mem_nil, or_false] at hx hx5
      omega
    · intro d' hd'
      exact absurd hd' (List.not_mem_nil d')
  have hrep : ∀ d ∈ stEx.diagonals, d ≤ stEx.ctri.tri.ep d := by
    intro d hd
    rw [hDeq] at hd
    simp only [List.mem_cons, List.not_mem_nil, or_false] at hd
    rcases hd with rfl | rfl
    · decide
    · decide
  have hd1 : stEx1.diagonals = stEx.diagonals := by decide
  have hd2 : stEx2.diagonals = stEx.diagonals := by decide
  have hc := claim_C7 mslEx stEx stEx1 stEx2 hw hSS hfl hdisj hrep h1 h2 hd1 hd2
  refine ⟨hc.2.2.2.2.2, hc.2.2.2.2.1, ?_, hc.2.2.1 1 (by decide)⟩
  rw [hc.2.2.2.1]

namespace SP

/-- The face containing a half-edge, named by its smallest half-edge (the
role of `half_edge_to_face` together with the face enumeration,
layout.py lines 331-337). -/
def faceRep (T : Tri) (h : Nat) : Nat := min h (min (T.fp h) (T.fp (T.fp h)))

/-- The running state of `set_pos` (layout.py lines 330-346 and the loop
locals): positions, holonomies (which the loop may negate), the seen flags
per face, the waiting queue and the current tree `q`, the randomness
counter, the bounding box and the current height. -/
structure St where
  pos : Nat → Option Vec
  vec : Nat → Vec
  seen : Nat → Bool
  wait : List Nat
  q : List Nat
  ctr : Nat
  xmin : ℤ
  xmax : ℤ
  ymin : ℤ
  ymax : ℤ
  y : ℤ

/-- The sequential sign flip of one face's three holonomies
(layout.py lines 449-452 and 363-366). -/
def negFace (vec : Nat → Vec) (A b c : Nat) : Nat → Vec :=
  let w1 := upd vec A (-(vec A))
  let w2 := upd w1 b (-(w1 b))
  upd w2 c (-(w2 c))

/-- The body of the spanning-tree edge scan (layout.py lines 430-459): check
the two assertions, skip already-seen neighbour faces, otherwise negate the
neighbour's triple when the two sides of `e` carry equal vectors, set the
three corner positions of the neighbour face, extend the bounding box and
enqueue it. -/
def processEdge (T : Tri) (t : Nat) (st : St) (e : Nat) : Except String St :=
  match st.pos e with
  | none => .error "AssertionError: pos[e] is not None"
  | some pe =>
    if faceRep T e = t then
      let A := T.ep e
      let f := faceRep T A
      if st.seen f then .ok st
      else
        let b := T.fp A
        let c := T.fp b
        let v1 := if st.vec e = st.vec (T.ep e) then negFace st.vec A b c else st.vec
        let pA := pe + v1 e
        let pb := pA + v1 A
        let pc := pb + v1 b
        .ok { st with
          pos := upd (upd (upd st.pos A (some pA)) b (some pb)) c (some pc),
          vec := v1,
          seen := upd st.seen f true,
          wait := st.wait ++ [f],
          q := st.q ++ [f],
          xmin := min st.xmin (min pA.1 (min pb.1 pc.1)),
          xmax := max st.xmax (max pA.1 (max pb.1 pc.1)),
          ymin := min st.ymin (min pA.2 (min pb.2 pc.2)),
          ymax := max st.ymax (max pA.2 (max pb.2 pc.2)) }
    else .error "AssertionError: half_edge_to_face[e] == t"

/-- The spanning-tree loop (layout.py lines 425-459): while the queue is
non-empty, shuffle it, pop its last face, shuffle that face's half-edges and
scan them; the shuffles are supplied by the oracle `sh` fed from the
randomness counter, and the structural recursion is on explicit fuel. -/
def innerLoop (T : Tri) (sh : Nat → List Nat → List Nat) :
    Nat → St → Except String St
  | 0, _ => .error "out of fuel"
  | fuel + 1, st =>
    match st.wait with
    | [] => .ok st
    | _ :: _ =>
      let wait2 := sh st.ctr st.wait
      match wait2.getLast? with
      | none => .error "shuffle lost the queue"
      | some t =>
        match ((sh (st.ctr + 1) [t, T.fp t, T.fp (T.fp t)]).foldlM
            (fun s e => processEdge T t s e)
            { st with wait := wait2.dropLast, ctr := st.ctr + 2 }) with
        | .error m => .error m
        | .ok st2 => innerLoop T sh fuel st2

/-- One face translation of the final placement shift (layout.py lines
467-472): move the three corners of the face by `t`. -/
def translateFace (T : Tri) (pos : Nat → Option Vec) (t : Vec) (f : Nat) :
    Nat → Option Vec :=
  let p1 := upd pos f ((pos f).map (fun v => v + t))
  let p2 := upd p1 (T.fp f) ((p1 (T.fp f)).map (fun v => v + t))
  upd p2 (T.fp (T.fp f)) ((p2 (T.fp (T.fp f))).map (fun v => v + t))

/-- The translation of the whole tree `q` (layout.py lines 465-472). -/
def translateAll (T : Tri) (pos : Nat → Option Vec) (t : Vec) (q : List Nat) :
    Nat → Option Vec :=
  q.foldl (fun p f => translateFace T p t f) pos

/-- The random-forest loop (layout.py lines 398-475): while some face is
unseen, root the first unseen face at the origin with its three corners laid
out, grow a spanning tree from it, then translate the finished tree above the
previously placed ones and advance the height. -/
def outerLoop (T : Tri) (sh : Nat → List Nat → List Nat) (ys : ℤ) :
    Nat → St → Except String St
  | 0, _ => .error "out of fuel"
  | fuel + 1, st =>
    match T.faceReps.find? (fun r => ! st.seen r) with
    | none => .ok st
    | some start =>
      let b := T.fp start
      let c := T.fp b
      let pa : Vec := 0
      let pb := pa + st.vec start
      let pc := pb + st.vec b
      let st1 : St := { st with
        pos := upd (upd (upd st.pos start (some pa)) b (some pb)) c (some pc),
        seen := upd st.seen start true,
        wait := [start],
        q := [start],
        xmin := min 0 (min pa.1 (min pb.1 pc.1)),
        xmax := max 0 (max pa.1 (max pb.1 pc.1)),
        ymin := min 0 (min pa.2 (min pb.2 pc.2)),
        ymax := max 0 (max pa.2 (max pb.2 pc.2)) }
      match innerLoop T sh fuel st1 with
      | .error m => .error m
      | .ok st2 =>
        outerLoop T sh ys fuel { st2 with
          pos := translateAll T st2.pos (-st2.xmin, st2.y - st2.ymin) st2.q,
          y := st2.y + (st2.ymax - st2.ymin) + ys }

/-- The final scan of `set_pos` (layout.py lines 477-480): the first unset
position raises the `RuntimeError` naming its half-edge. -/
def finalCheckPos (T : Tri) (pos : Nat → Option Vec) : Except String Unit :=
  match (List.range T.n).find? (fun e => (pos e).isNone) with
  | some e => .error ("RuntimeError: pos[" ++ toString e ++ "] not set properly")
  | none => .ok ()

/-- `FlatVeeringTriangulationLayout.set_pos` on the default `cylinders=None`
path (layout.py lines 312-480): all positions start unset and no face is
seen (the cylinder block is skipped and the cylinder consistency scan of
lines 391-395 passes vacuously), the random forest places every face, and
the final scan demands every position set.  The Python default
`y_space=0.1` is an exact parameter `ys` here, and `shuffle` is the oracle
`sh`. -/
def setPos (L : Layout) (sh : Nat → List Nat → List Nat) (ys : ℤ) (fuel : Nat) :
    Except String Layout :=
  match outerLoop L.tri sh ys fuel
      { pos := fun _ => none, vec := L.vectors, seen := fun _ => false,
        wait := [], q := [], ctr := 0,
        xmin := 0, xmax := 0, ymin := 0, ymax := 0, y := 0 } with
  | .error m => .error m
  | .ok st =>
    match finalCheckPos L.tri st.pos with
    | .error m => .error m
    | .ok _ => .ok { L with vectors := st.vec, pos := some st.pos }

end SP

namespace SP

/-- Membership in the face (the `fp`-orbit) of a half-edge. -/
def InFace (T : Tri) (h x : Nat) : Prop :=
  x = h ∨ x = T.fp h ∨ x = T.fp (T.fp h)

/-- The face representative is at most the half-edge. -/
theorem faceRep_le (T : Tri) (h : Nat) : faceRep T h ≤ h := by
  unfold faceRep
  omega

/-- The face representative is inside the triangulation. -/
theorem faceRep_lt (T : Tri) (h : Nat) (hh : h < T.n) : faceRep T h < T.n :=
  Nat.lt_of_le_of_lt (faceRep_le T h) hh

/-- The face representative is constant along the face. -/
theorem faceRep_rot (T : Tri) (h : Nat) (h3 : T.fp (T.fp (T.fp h)) = h) :
    faceRep T (T.fp h) = faceRep T h := by
  unfold faceRep
  rw [h3]
  omega

/-- The face representative lies in the face. -/
theorem faceRep_self_mem (T : Tri) (h : Nat) : InFace T h (faceRep T h) := by
  unfold faceRep InFace
  omega

theorem inFace_symm (T : Tri) (h x : Nat) (h3 : T.fp (T.fp (T.fp h)) = h)
    (hx : InFace T h x) : InFace T x h := by
  unfold InFace at hx ⊢
  rcases hx with rfl | rfl | rfl
  · exact Or.inl rfl
  · exact Or.inr (Or.inr h3.symm)
  · exact Or.inr (Or.inl h3.symm)

theorem inFace_trans (T : Tri) (h x y : Nat) (h3 : T.fp (T.fp (T.fp h)) = h)
    (hx : InFace T h x) (hy : InFace T x y) : InFace T h y := by
  unfold InFace at hx hy ⊢
  rcases hx with rfl | rfl | rfl
  · exact hy
  · rcases hy with rfl | rfl | rfl
    · exact Or.inr (Or.inl rfl)
    · exact Or.inr (Or.inr rfl)
    · exact Or.inl h3
  · rcases hy with rfl | rfl | rfl
    · exact Or.inr (Or.inr rfl)
    · exact Or.inl h3
    · refine Or.inr (Or.inl ?_)
      rw [h3]

/-- Two half-edges have the same face representative exactly when they share
a face. -/
theorem faceRep_eq_iff (T : Tri) (hw : T.Wf) (h x : Nat) (hh : h < T.n)
    (hx : x < T.n) : faceRep T x = faceRep T h ↔ InFace T h x := by
  have h3h := (hw h hh).2.2.2.1
  have h3x := (hw x hx).2.2.2.1
  constructor
  · intro hr
    have m1 : InFace T x (faceRep T h) := by
      rw [← hr]
      exact faceRep_self_mem T x
    have m2 : InFace T (faceRep T h) h :=
      inFace_symm T h (faceRep T h) h3h (faceRep_self_mem T h)
    exact inFace_symm T x h h3x (inFace_trans T x (faceRep T h) h h3x m1 m2)
  · intro hx2
    rcases hx2 with rfl | rfl | rfl
    · rfl
    · exact faceRep_rot T h h3h
    · have h3f := (hw (T.fp h) (hw h hh).1).2.2.2.1
      rw [faceRep_rot T (T.fp h) ?_, faceRep_rot T h h3h]
      rw [h3h]
  
/-- The face representative is idempotent. -/
theorem faceRep_idem (T : Tri) (hw : T.Wf) (h : Nat) (hh : h < T.n) :
    faceRep T (faceRep T h) = faceRep T h :=
  (faceRep_eq_iff T hw h (faceRep T h) hh
    (faceRep_lt T h hh)).mpr (faceRep_self_mem T h)

/-- The face representative belongs to the face enumeration. -/
theorem faceRep_mem_faceReps (T : Tri) (hw : T.Wf) (a : Nat) (ha : a < T.n) :
    faceRep T a ∈ T.faceReps := by
  rw [mem_faceReps]
  have hidem := faceRep_idem T hw a ha
  refine ⟨faceRep_lt T a ha, ?_, ?_⟩ <;>
    · generalize hr : faceRep T a = r at hidem ⊢
      unfold faceRep at hidem
      omega

end SP

namespace SP

/-- The loop invariant of `set_pos`: the holonomies sum to zero along every
face, every corner of a seen face carries a position consistent with its
holonomy, and the queues hold in-range face representatives, the waiting ones
marked seen. -/
def Inv (T : Tri) (st : St) : Prop :=
  (∀ a, a < T.n → st.vec a + st.vec (T.fp a) + st.vec (T.fp (T.fp a)) = 0) ∧
  (∀ a, a < T.n → st.seen (faceRep T a) = true →
    ∃ pa pb, st.pos a = some pa ∧ st.pos (T.fp a) = some pb ∧
      pb = pa + st.vec a) ∧
  (∀ f ∈ st.wait, f < T.n ∧ faceRep T f = f ∧ st.seen f = true) ∧
  (∀ f ∈ st.q, f < T.n ∧ faceRep T f = f)

/-- A half-edge of a seen face never lies in an unseen face. -/
theorem seen_not_inFace (T : Tri) (hw : T.Wf) (seen : Nat → Bool) (A a : Nat)
    (hA : A < T.n) (ha : a < T.n)
    (hsA : seen (faceRep T A) = false) (hsa : seen (faceRep T a) = true) :
    ¬ InFace T A a := by
  intro hin
  rw [(faceRep_eq_iff T hw A a hA ha).mpr hin, hsA] at hsa
  exact Bool.noConfusion hsa

/-- A half-edge outside a face stays outside after one step along its own
face. -/
theorem not_inFace_fp (T : Tri) (hw : T.Wf) (A a : Nat) (ha : a < T.n)
    (hA3 : T.fp (T.fp (T.fp A)) = A)
    (hin : ¬ InFace T A a) : ¬ InFace T A (T.fp a) := by
  intro hc
  apply hin
  have h3a := (hw a ha).2.2.2.1
  exact inFace_trans T A (T.fp a) a hA3 hc
    (Or.inr (Or.inr h3a.symm))

/-- Position consistency extends to a newly placed face laid out corner after
corner from an arbitrary starting position. -/
theorem part2_extend (T : Tri) (hw : T.Wf)
    (pos : Nat → Option Vec) (vec : Nat → Vec) (seen : Nat → Bool)
    (A : Nat) (hA : A < T.n) (pA : Vec)
    (hseenA : seen (faceRep T A) = false)
    (hsum : vec A + vec (T.fp A) + vec (T.fp (T.fp A)) = 0)
    (hp : ∀ a, a < T.n → seen (faceRep T a) = true →
      ∃ pa pb, pos a = some pa ∧ pos (T.fp a) = some pb ∧ pb = pa + vec a) :
    ∀ a, a < T.n → (upd seen (faceRep T A) true) (faceRep T a) = true →
      ∃ pa pb,
        (upd (upd (upd pos A (some pA)) (T.fp A) (some (pA + vec A)))
          (T.fp (T.fp A)) (some (pA + vec A + vec (T.fp A)))) a = some pa ∧
        (upd (upd (upd pos A (some pA)) (T.fp A) (some (pA + vec A)))
          (T.fp (T.fp A)) (some (pA + vec A + vec (T.fp A)))) (T.fp a) = some pb ∧
        pb = pa + vec a := by
  have h3A := (hw A hA).2.2.2.1
  have hbA : T.fp A ≠ A := (hw A hA).2.2.2.2.1
  have hcA : T.fp (T.fp A) ≠ A := (hw A hA).2.2.2.2.2
  have hcb : T.fp (T.fp A) ≠ T.fp A := (hw (T.fp A) (hw A hA).1).2.2.2.2.1
  intro a ha hsa
  by_cases hin : InFace T A a
  · rcases hin with rfl | rfl | rfl
    · refine ⟨pA, pA + vec a, ?_, ?_, rfl⟩
      · rw [upd_other _ _ _ _ (Ne.symm hcA), upd_other _ _ _ _ (Ne.symm hbA),
          upd_same]
      · rw [upd_other _ _ _ _ (Ne.symm hcb), upd_same]
    · refine ⟨pA + vec A, pA + vec A + vec (T.fp A), ?_, ?_, rfl⟩
      · rw [upd_other _ _ _ _ (Ne.symm hcb), upd_same]
      · rw [upd_same]
    · refine ⟨pA + vec A + vec (T.fp A), pA, ?_, ?_, ?_⟩
      · rw [upd_same]
      · rw [h3A, upd_other _ _ _ _ (Ne.symm hcA), upd_other _ _ _ _ (Ne.symm hbA),
          upd_same]
      · have hassoc : pA + vec A + vec (T.fp A) + vec (T.fp (T.fp A)) =
            pA + (vec A + vec (T.fp A) + vec (T.fp (T.fp A))) := by ring
        rw [hassoc, hsum, add_zero]
  · have hsa2 : seen (faceRep T a) = true := by
      by_cases hrr : faceRep T a = faceRep T A
      · exact absurd ((faceRep_eq_iff T hw A a hA ha).mp hrr) hin
      · rw [upd_other _ _ _ _ hrr] at hsa
        exact hsa
    obtain ⟨pa, pb, h1, h2, h3⟩ := hp a ha hsa2
    have hfin : ¬ InFace T A (T.fp a) := not_inFace_fp T hw A a ha h3A hin
    have hne1 : a ≠ A := fun hc => hin (Or.inl hc)
    have hne2 : a ≠ T.fp A := fun hc => hin (Or.inr (Or.inl hc))
    have hne3 : a ≠ T.fp (T.fp A) := fun hc => hin (Or.inr (Or.inr hc))
    have hfe1 : T.fp a ≠ A := fun hc => hfin (Or.inl hc)
    have hfe2 : T.fp a ≠ T.fp A := fun hc => hfin (Or.inr (Or.inl hc))
    have hfe3 : T.fp a ≠ T.fp (T.fp A) := fun hc => hfin (Or.inr (Or.inr hc))
    refine ⟨pa, pb, ?_, ?_, h3⟩
    · rw [upd_other _ _ _ _ hne3, upd_other _ _ _ _ hne2, upd_other _ _ _ _ hne1]
      exact h1
    · rw [upd_other _ _ _ _ hfe3, upd_other _ _ _ _ hfe2, upd_other _ _ _ _ hfe1]
      exact h2

end SP

namespace SP

/-- Values of the sequential triple sign flip on distinct corners. -/
theorem negFace_vals (vec : Nat → Vec) (A b c : Nat)
    (hba : b ≠ A) (hca : c ≠ A) (hcb : c ≠ b) :
    negFace vec A b c A = -(vec A) ∧ negFace vec A b c b = -(vec b) ∧
    negFace vec A b c c = -(vec c) ∧
    (∀ x, x ≠ A → x ≠ b → x ≠ c → negFace vec A b c x = vec x) := by
  unfold negFace
  refine ⟨?_, ?_, ?_, ?_⟩
  · rw [upd_other _ _ _ _ (Ne.symm hca), upd_other _ _ _ _ (Ne.symm hba), upd_same]
  · rw [upd_other _ _ _ _ (Ne.symm hcb), upd_same, upd_other _ _ _ _ hba]
  · rw [upd_same, upd_other _ _ _ _ hcb, upd_other _ _ _ _ hca]
  · intro x h1 h2 h3
    rw [upd_other _ _ _ _ h3, upd_other _ _ _ _ h2, upd_other _ _ _ _ h1]

/-- One edge scan preserves the invariant and only adds seen marks. -/
theorem processEdge_inv (T : Tri) (hw : T.Wf) (t : Nat) (st st' : St) (e : Nat)
    (hinv : Inv T st) (he : e < T.n)
    (hse : st.seen (faceRep T e) = true)
    (h : processEdge T t st e = .ok st') :
    Inv T st' ∧ (∀ r, st.seen r = true → st'.seen r = true) := by
  obtain ⟨hsum, hp, hwait, hq⟩ := hinv
  unfold processEdge at h
  cases hpe : st.pos e with
  | none =>
    rw [hpe] at h
    exact Except.noConfusion h
  | some pe =>
    rw [hpe] at h
    dsimp only at h
    by_cases hft : faceRep T e = t
    · rw [if_pos hft] at h
      by_cases hsA : st.seen (faceRep T (T.ep e)) = true
      · rw [if_pos hsA] at h
        rw [← Except.ok.inj h]
        exact ⟨⟨hsum, hp, hwait, hq⟩, fun r hr => hr⟩
      · rw [if_neg hsA] at h
        have hsA' : st.seen (faceRep T (T.ep e)) = false :=
          (Bool.not_eq_true _) ▸ hsA
        have hA : T.ep e < T.n := (hw e he).2.1
        have hb : T.fp (T.ep e) < T.n := (hw _ hA).1
        have hba : T.fp (T.ep e) ≠ T.ep e := (hw _ hA).2.2.2.2.1
        have hca : T.fp (T.fp (T.ep e)) ≠ T.ep e := (hw _ hA).2.2.2.2.2
        have hcb : T.fp (T.fp (T.ep e)) ≠ T.fp (T.ep e) := (hw _ hb).2.2.2.2.1
        obtain ⟨hnA, hnb, hnc, hnfr⟩ :=
          negFace_vals st.vec (T.ep e) (T.fp (T.ep e)) (T.fp (T.fp (T.ep e)))
            hba hca hcb
        have hVframe : ∀ x, ¬ InFace T (T.ep e) x →
            (if st.vec e = st.vec (T.ep e) then
              negFace st.vec (T.ep e) (T.fp (T.ep e)) (T.fp (T.fp (T.ep e)))
            else st.vec) x = st.vec x := by
          intro x hx
          by_cases hng : st.vec e = st.vec (T.ep e)
          · rw [if_pos hng]
            exact hnfr x (fun hc => hx (Or.inl hc)) (fun hc => hx (Or.inr (Or.inl hc)))
              (fun hc => hx (Or.inr (Or.inr hc)))
          · rw [if_neg hng]
        have hVsum : ∀ a, a < T.n →
            (if st.vec e = st.vec (T.ep e) then
              negFace st.vec (T.ep e) (T.fp (T.ep e)) (T.fp (T.fp (T.ep e)))
            else st.vec) a +
            (if st.vec e = st.vec (T.ep e) then
              negFace st.vec (T.ep e) (T.fp (T.ep e)) (T.fp (T.fp (T.ep e)))
            else st.vec) (T.fp a) +
            (if st.vec e = st.vec (T.ep e) then
              negFace st.vec (T.ep e) (T.fp (T.ep e)) (T.fp (T.fp (T.ep e)))
            else st.vec) (T.fp (T.fp a)) = 0 := by
          intro a ha
          by_cases hng : st.vec e = st.vec (T.ep e)
          · rw [if_pos hng]
            have h3A := (hw (T.ep e) hA).2.2.2.1
            by_cases hin : InFace T (T.ep e) a
            · rcases hin with rfl | rfl | rfl
              · rw [hnA, hnb, hnc]
                have := hsum (T.ep e) hA
                have hgoal : -(st.vec (T.ep e)) + -(st.vec (T.fp (T.ep e))) +
                    -(st.vec (T.fp (T.fp (T.ep e)))) =
                    -(st.vec (T.ep e) + st.vec (T.fp (T.ep e)) +
                      st.vec (T.fp (T.fp (T.ep e)))) := by ring
                rw [hgoal, this, neg_zero]
              · rw [hnb, hnc, h3A, hnA]
                have := hsum (T.ep e) hA
                have hgoal : -(st.vec (T.fp (T.ep e))) +
                    -(st.vec (T.fp (T.fp (T.ep e)))) + -(st.vec (T.ep e)) =
                    -(st.vec (T.ep e) + st.vec (T.fp (T.ep e)) +
                      st.vec (T.fp (T.fp (T.ep e)))) := by ring
                rw [hgoal, this, neg_zero]
              · rw [hnc, h3A, hnA, hnb]
                have := hsum (T.ep e) hA
                have hgoal : -(st.vec (T.fp (T.fp (T.ep e)))) + -(st.vec (T.ep e)) +
                    -(st.vec (T.fp (T.ep e))) =
                    -(st.vec (T.ep e) + st.vec (T.fp (T.ep e)) +
                      st.vec (T.fp (T.fp (T.ep e)))) := by ring
                rw [hgoal, this, neg_zero]
            · have hfr1 := hnfr a (fun hc => hin (Or.inl hc))
                (fun hc => hin (Or.inr (Or.inl hc))) (fun hc => hin (Or.inr (Or.inr hc)))
              have hin2 := not_inFace_fp T hw (T.ep e) a ha h3A hin
              have hfr2 := hnfr (T.fp a) (fun hc => hin2 (Or.inl hc))
                (fun hc => hin2 (Or.inr (Or.inl hc)))
                (fun hc => hin2 (Or.inr (Or.inr hc)))
              have hin3 := not_inFace_fp T hw (T.ep e) (T.fp a) (hw a ha).1 h3A hin2
              have hfr3 := hnfr (T.fp (T.fp a)) (fun hc => hin3 (Or.inl hc))
                (fun hc => hin3 (Or.inr (Or.inl hc)))
                (fun hc => hin3 (Or.inr (Or.inr hc)))
              rw [hfr1, hfr2, hfr3]
              exact hsum a ha
          · rw [if_neg hng]
            exact hsum a ha
        rw [← Except.ok.inj h]
        refine ⟨⟨?_, ?_, ?_, ?_⟩, ?_⟩
        · exact hVsum
        · have hp' : ∀ a, a < T.n → st.seen (faceRep T a) = true →
              ∃ pa pb, st.pos a = some pa ∧ st.pos (T.fp a) = some pb ∧
                pb = pa + (if st.vec e = st.vec (T.ep e) then
                  negFace st.vec (T.ep e) (T.fp (T.ep e)) (T.fp (T.fp (T.ep e)))
                else st.vec) a := by
            intro a ha hsa
            obtain ⟨pa, pb, h1, h2, h3⟩ := hp a ha hsa
            refine ⟨pa, pb, h1, h2, ?_⟩
            rw [hVframe a (seen_not_inFace T hw st.seen (T.ep e) a hA ha hsA' hsa)]
            exact h3
          exact part2_extend T hw st.pos _ st.seen (T.ep e) hA
            (pe + (if st.vec e = st.vec (T.ep e) then
              negFace st.vec (T.ep e) (T.fp (T.ep e)) (T.fp (T.fp (T.ep e)))
            else st.vec) e) hsA' (hVsum _ hA) hp'
        · intro f hf
          rcases List.mem_append.mp hf with hf | hf
          · obtain ⟨hf1, hf2, hf3⟩ := hwait f hf
            refine ⟨hf1, hf2, ?_⟩
            show upd st.seen (faceRep T (T.ep e)) true f = true
            by_cases hc : f = faceRep T (T.ep e)
            · rw [hc, upd_same]
            · rw [upd_other _ _ _ _ hc]
              exact hf3
          · have hfe : f = faceRep T (T.ep e) := by
              rcases List.mem_cons.mp hf with h' | h'
              · exact h'
              · exact absurd h' (List.not_mem_nil f)
            subst hfe
            exact ⟨faceRep_lt T _ hA, faceRep_idem T hw _ hA, upd_same _ _ _⟩
        · intro f hf
          rcases List.mem_append.mp hf with hf | hf
          · exact hq f hf
          · have hfe : f = faceRep T (T.ep e) := by
              rcases List.mem_cons.mp hf with h' | h'
              · exact h'
              · exact absurd h' (List.not_mem_nil f)
            subst hfe
            exact ⟨faceRep_lt T _ hA, faceRep_idem T hw _ hA⟩
        · intro r hr
          show upd st.seen (faceRep T (T.ep e)) true r = true
          by_cases hc : r = faceRep T (T.ep e)
          · rw [hc, upd_same]
          · rw [upd_other _ _ _ _ hc]
            exact hr
    · rw [if_neg hft] at h
      exact Except.noConfusion h

/-- The edge scan of one face preserves the invariant. -/
theorem foldPE_inv (T : Tri) (hw : T.Wf) (t : Nat) (l : List Nat) :
    ∀ (st st' : St), Inv T st → st.seen t = true →
    (∀ e ∈ l, e < T.n ∧ faceRep T e = t) →
    l.foldlM (fun s e => processEdge T t s e) st = .ok st' →
    Inv T st' ∧ (∀ r, st.seen r = true → st'.seen r = true) := by
  induction l with
  | nil =>
    intro st st' hinv hseent _ h
    rw [List.foldlM_nil] at h
    rw [← Except.ok.inj h]
    exact ⟨hinv, fun r hr => hr⟩
  | cons e l ih =>
    intro st st' hinv hseent hl h
    rw [List.foldlM_cons] at h
    cases hfe : processEdge T t st e with
    | error m =>
      rw [hfe] at h
      have hred : ((Except.error m : Except String St) >>=
          fun s => l.foldlM (fun s e => processEdge T t s e) s) =
          (Except.error m : Except String St) := rfl
      rw [hred] at h
      exact Except.noConfusion h
    | ok st1 =>
      rw [hfe] at h
      have hred : ((Except.ok st1 : Except String St) >>=
          fun s => l.foldlM (fun s e => processEdge T t s e) s) =
          l.foldlM (fun s e => processEdge T t s e) st1 := rfl
      rw [hred] at h
      obtain ⟨he, hft⟩ := hl e (List.mem_cons_self e l)
      have hse : st.seen (faceRep T e) = true := by
        rw [hft]
        exact hseent
      obtain ⟨hinv1, hmono1⟩ := processEdge_inv T hw t st st1 e hinv he hse hfe
      obtain ⟨hinv2, hmono2⟩ := ih st1 st' hinv1 (hmono1 t hseent)
        (fun e' he' => hl e' (List.mem_cons_of_mem e he')) h
      exact ⟨hinv2, fun r hr => hmono2 r (hmono1 r hr)⟩

/-- The spanning-tree loop preserves the invariant. -/
theorem innerLoop_inv (T : Tri) (hw : T.Wf) (sh : Nat → List Nat → List Nat)
    (hsh : ∀ k l x, x ∈ sh k l → x ∈ l) :
    ∀ (fuel : Nat) (st st' : St), Inv T st →
    innerLoop T sh fuel st = .ok st' → Inv T st' := by
  intro fuel
  induction fuel with
  | zero =>
    intro st st' _ h
    exact Except.noConfusion h
  | succ fuel ih =>
    intro st st' hinv h
    unfold innerLoop at h
    cases hwq : st.wait with
    | nil =>
      rw [hwq] at h
      dsimp only at h
      rw [← Except.ok.inj h]
      exact hinv
    | cons w ws =>
      rw [hwq] at h
      dsimp only at h
      cases hgl : (sh st.ctr (w :: ws)).getLast? with
      | none =>
        rw [hgl] at h
        exact Except.noConfusion h
      | some t =>
        rw [hgl] at h
        dsimp only at h
        have htmem : t ∈ st.wait := by
          rw [hwq]
          exact hsh _ _ t (List.mem_of_mem_getLast? hgl)
        obtain ⟨htn, htrep, htseen⟩ := hinv.2.2.1 t htmem
        have hinv0 : Inv T
            { st with
              wait := (sh st.ctr (w :: ws)).dropLast
              ctr := st.ctr + 2 } := by
          obtain ⟨p1, p2, p3, p4⟩ := hinv
          refine ⟨p1, p2, ?_, p4⟩
          intro f hf
          apply p3
          rw [hwq]
          exact hsh _ _ f (List.dropLast_subset _ hf)
        cases hfl : (sh (st.ctr + 1) [t, T.fp t, T.fp (T.fp t)]).foldlM
            (fun s e => processEdge T t s e)
            { st with
              wait := (sh st.ctr (w :: ws)).dropLast
              ctr := st.ctr + 2 } with
        | error m =>
          rw [hfl] at h
          exact Except.noConfusion h
        | ok st2 =>
          rw [hfl] at h
          dsimp only at h
          have h3t := (hw t htn).2.2.2.1
          have h3ft := (hw (T.fp t) (hw t htn).1).2.2.2.1
          have hl : ∀ e ∈ sh (st.ctr + 1) [t, T.fp t, T.fp (T.fp t)],
              e < T.n ∧ faceRep T e = t := by
            intro e hemem
            have := hsh _ _ e hemem
            simp only [List.mem_cons, List.not_mem_nil, or_false] at this
            rcases this with rfl | rfl | rfl
            · exact ⟨htn, htrep⟩
            · rw [faceRep_rot T t h3t]
              exact ⟨(hw t htn).1, htrep⟩
            · rw [faceRep_rot T (T.fp t) h3ft, faceRep_rot T t h3t]
              exact ⟨(hw (T.fp t) (hw t htn).1).1, htrep⟩
          obtain ⟨hinv2, _⟩ := foldPE_inv T hw t _ _ st2 hinv0 htseen hl hfl
          exact ih st2 st' hinv2 h

end SP

namespace SP

theorem inFace_fp (T : Tri) (h x : Nat) (h3 : T.fp (T.fp (T.fp h)) = h)
    (hx : InFace T h x) : InFace T h (T.fp x) := by
  unfold InFace at hx ⊢
  rcases hx with rfl | rfl | rfl
  · exact Or.inr (Or.inl rfl)
  · exact Or.inr (Or.inr rfl)
  · exact Or.inl h3

/-- The one-face translation shifts exactly the three corners of its face. -/
theorem translateFace_vals (T : Tri) (hw : T.Wf) (pos : Nat → Option Vec) (t : Vec)
    (f : Nat) (hf : f < T.n) :
    (∀ x, InFace T f x →
      translateFace T pos t f x = (pos x).map (fun v => v + t)) ∧
    (∀ x, ¬ InFace T f x → translateFace T pos t f x = pos x) := by
  have hba : T.fp f ≠ f := (hw f hf).2.2.2.2.1
  have hca : T.fp (T.fp f) ≠ f := (hw f hf).2.2.2.2.2
  have hcb : T.fp (T.fp f) ≠ T.fp f := (hw (T.fp f) (hw f hf).1).2.2.2.2.1
  simp only [translateFace]
  constructor
  · intro x hx
    rcases hx with rfl | rfl | rfl
    · rw [upd_other _ _ _ _ (Ne.symm hca), upd_other _ _ _ _ (Ne.symm hba), upd_same]
    · rw [upd_other _ _ _ _ (Ne.symm hcb), upd_same, upd_other _ _ _ _ hba]
    · rw [upd_same, upd_other _ _ _ _ hcb, upd_other _ _ _ _ hca]
  · intro x hx
    have h1 : x ≠ f := fun hc => hx (Or.inl hc)
    have h2 : x ≠ T.fp f := fun hc => hx (Or.inr (Or.inl hc))
    have h3 : x ≠ T.fp (T.fp f) := fun hc => hx (Or.inr (Or.inr hc))
    rw [upd_other _ _ _ _ h3, upd_other _ _ _ _ h2, upd_other _ _ _ _ h1]

/-- Translating whole faces preserves the position consistency of every seen
face. -/
theorem translateAll_part2 (T : Tri) (hw : T.Wf) (vec : Nat → Vec)
    (seen : Nat → Bool) (t : Vec) (q : List Nat) :
    ∀ (pos : Nat → Option Vec),
    (∀ f ∈ q, f < T.n) →
    (∀ a, a < T.n → seen (faceRep T a) = true →
      ∃ pa pb, pos a = some pa ∧ pos (T.fp a) = some pb ∧ pb = pa + vec a) →
    (∀ a, a < T.n → seen (faceRep T a) = true →
      ∃ pa pb, translateAll T pos t q a = some pa ∧
        translateAll T pos t q (T.fp a) = some pb ∧ pb = pa + vec a) := by
  induction q with
  | nil =>
    intro pos _ hp a ha hs
    unfold translateAll
    rw [List.foldl_nil]
    exact hp a ha hs
  | cons f q ih =>
    intro pos hq hp
    have hf := hq f (List.mem_cons_self f q)
    have hstep : ∀ a, a < T.n → seen (faceRep T a) = true →
        ∃ pa pb, translateFace T pos t f a = some pa ∧
          translateFace T pos t f (T.fp a) = some pb ∧ pb = pa + vec a := by
      intro a ha hs
      obtain ⟨pa, pb, h1, h2, h3⟩ := hp a ha hs
      obtain ⟨hin_f, hout_f⟩ := translateFace_vals T hw pos t f hf
      by_cases hin : InFace T f a
      · have hin2 : InFace T f (T.fp a) := inFace_fp T f a (hw f hf).2.2.2.1 hin
        refine ⟨pa + t, pb + t, ?_, ?_, ?_⟩
        · rw [hin_f a hin, h1]
          rfl
        · rw [hin_f _ hin2, h2]
          rfl
        · rw [h3]
          ring
      · have hnin2 := not_inFace_fp T hw f a ha (hw f hf).2.2.2.1 hin
        refine ⟨pa, pb, ?_, ?_, h3⟩
        · rw [hout_f a hin]
          exact h1
        · rw [hout_f _ hnin2]
          exact h2
    have hrest := ih (translateFace T pos t f)
      (fun f' hf' => hq f' (List.mem_cons_of_mem f hf')) hstep
    intro a ha hs
    unfold translateAll
    rw [List.foldl_cons]
    unfold translateAll at hrest
    exact hrest a ha hs

end SP

namespace SP

/-- The random forest preserves the invariant, and on normal return every
face has been seen. -/
theorem outerLoop_inv (T : Tri) (hw : T.Wf) (sh : Nat → List Nat → List Nat)
    (hsh : ∀ k l x, x ∈ sh k l → x ∈ l) (ys : ℤ) :
    ∀ (fuel : Nat) (st st' : St), Inv T st →
    outerLoop T sh ys fuel st = .ok st' →
    Inv T st' ∧ (∀ r ∈ T.faceReps, st'.seen r = true) := by
  intro fuel
  induction fuel with
  | zero =>
    intro st st' _ h
    exact Except.noConfusion h
  | succ fuel ih =>
    intro st st' hinv h
    unfold outerLoop at h
    cases hfind : T.faceReps.find? (fun r => ! st.seen r) with
    | none =>
      rw [hfind] at h
      dsimp only at h
      rw [← Except.ok.inj h]
      refine ⟨hinv, ?_⟩
      intro r hr
      have := List.find?_eq_none.mp hfind r hr
      simpa using this
    | some start =>
      rw [hfind] at h
      dsimp only at h
      have hmem := List.mem_of_find?_eq_some hfind
      have hps := List.find?_some hfind
      have hseenst : st.seen start = false := by simpa using hps
      obtain ⟨hstn, hle1, hle2⟩ := (mem_faceReps T start).mp hmem
      have hrep : faceRep T start = start := by
        unfold faceRep
        omega
      split at h
      · exact Except.noConfusion h
      · next st2 heq =>
        have hinv2 : Inv T st2 := by
          refine innerLoop_inv T hw sh hsh fuel _ st2 ?_ heq
          refine ⟨hinv.1, ?_, ?_, ?_⟩
          · have hpart2 := part2_extend T hw st.pos st.vec st.seen start hstn 0
              (by rw [hrep]; exact hseenst) (hinv.1 start hstn) hinv.2.1
            rw [hrep] at hpart2
            exact hpart2
          · intro f hf
            have hfs : f = start := by
              rcases List.mem_cons.mp hf with h' | h'
              · exact h'
              · exact absurd h' (List.not_mem_nil f)
            subst hfs
            exact ⟨hstn, hrep, upd_same _ _ _⟩
          · intro f hf
            have hfs : f = start := by
              rcases List.mem_cons.mp hf with h' | h'
              · exact h'
              · exact absurd h' (List.not_mem_nil f)
            subst hfs
            exact ⟨hstn, hrep⟩
        have hinv3 : Inv T { st2 with
            pos := translateAll T st2.pos (-st2.xmin, st2.y - st2.ymin) st2.q,
            y := st2.y + (st2.ymax - st2.ymin) + ys } := by
          refine ⟨hinv2.1, ?_, hinv2.2.2.1, hinv2.2.2.2⟩
          exact translateAll_part2 T hw st2.vec st2.seen _ st2.q st2.pos
            (fun f hf => (hinv2.2.2.2 f hf).1) hinv2.2.1
        exact ih _ st' hinv3 h

end SP

/-- C3: over the exact embedded arithmetic, when `set_pos` (without cylinders)
returns normally, every half-edge position is set and every face triple
satisfies the position consistency `pos a + vector a = pos (fp a)` at each of
its three corners exactly; and whenever a position is left unset, the final
scan raises the `RuntimeError` naming an offending half-edge. -/
theorem claim_C3 (L : Layout) (sh : Nat → List Nat → List Nat) (ys : ℤ)
    (fuel : Nat) (L2 : Layout) (hw : L.tri.Wf)
    (hsh : ∀ k l x, x ∈ sh k l → x ∈ l)
    (hzero : ∀ a, a < L.tri.n →
      L.vectors a + L.vectors (L.tri.fp a) + L.vectors (L.tri.fp (L.tri.fp a)) = 0)
    (h : SP.setPos L sh ys fuel = .ok L2) :
    L2.tri = L.tri ∧
    (∃ P, L2.pos = some P ∧
      (∀ e, e < L.tri.n → P e ≠ none) ∧
      (∀ a, a < L.tri.n → ∃ pa pb, P a = some pa ∧ P (L.tri.fp a) = some pb ∧
        pb = pa + L2.vectors a)) ∧
    (∀ pos : Nat → Option Vec, (∃ e, e < L.tri.n ∧ pos e = none) →
      ∃ e, e < L.tri.n ∧ pos e = none ∧
        SP.finalCheckPos L.tri pos =
          .error ("RuntimeError: pos[" ++ toString e ++ "] not set properly")) := by
  unfold SP.setPos at h
  cases hol : SP.outerLoop L.tri sh ys fuel
      { pos := fun _ => none, vec := L.vectors, seen := fun _ => false,
        wait := [], q := [], ctr := 0,
        xmin := 0, xmax := 0, ymin := 0, ymax := 0, y := 0 } with
  | error m =>
    rw [hol] at h
    exact Except.noConfusion h
  | ok st =>
    rw [hol] at h
    dsimp only at h
    cases hfc : SP.finalCheckPos L.tri st.pos with
    | error m =>
      rw [hfc] at h
      exact Except.noConfusion h
    | ok u =>
      rw [hfc] at h
      dsimp only at h
      have hL2 : { L with vectors := st.vec, pos := some st.pos } = L2 :=
        Except.ok.inj h
      have hinv0 : SP.Inv L.tri
          { pos := fun _ => none, vec := L.vectors, seen := fun _ => false,
            wait := [], q := [], ctr := 0,
            xmin := 0, xmax := 0, ymin := 0, ymax := 0, y := 0 } := by
        refine ⟨hzero, ?_, ?_, ?_⟩
        · intro a ha hs
          exact Bool.noConfusion hs
        · intro f hf
          exact absurd hf (List.not_mem_nil f)
        · intro f hf
          exact absurd hf (List.not_mem_nil f)
      obtain ⟨hinvF, hseenF⟩ :=
        SP.outerLoop_inv L.tri hw sh hsh ys fuel _ st hinv0 hol
      refine ⟨by rw [← hL2], ⟨st.pos, by rw [← hL2], ?_, ?_⟩, ?_⟩
      · intro e he hnone
        unfold SP.finalCheckPos at hfc
        cases hfind : (List.range L.tri.n).find? (fun e => (st.pos e).isNone) with
        | some e0 =>
          rw [hfind] at hfc
          exact Except.noConfusion hfc
        | none =>
          have hno := List.find?_eq_none.mp hfind e (List.mem_range.mpr he)
          rw [hnone] at hno
          simp at hno
      · intro a ha
        have hseen : st.seen (SP.faceRep L.tri a) = true :=
          hseenF _ (SP.faceRep_mem_faceReps L.tri hw a ha)
        obtain ⟨pa, pb, h1, h2, h3⟩ := hinvF.2.1 a ha hseen
        refine ⟨pa, pb, h1, h2, ?_⟩
        rw [← hL2]
        exact h3
      · intro pos hex
        obtain ⟨e, he, hnone⟩ := hex
        have hsome : ∃ x ∈ List.range L.tri.n, ((pos x).isNone) = true :=
          ⟨e, List.mem_range.mpr he, by rw [hnone]; rfl⟩
        obtain ⟨e0, he0⟩ :=
          Option.isSome_iff_exists.mp (List.find?_isSome.mpr hsome)
        have hP := List.find?_some he0
        have hmem0 := List.mem_of_find?_eq_some he0
        refine ⟨e0, List.mem_range.mp hmem0, Option.isNone_iff_eq_none.mp hP, ?_⟩
        unfold SP.finalCheckPos
        rw [he0]

/-- The identity shuffle oracle used by the witness run. -/
def shId : Nat → List Nat → List Nat := fun _ l => l

/-- The square-torus layout with positions set by the embedded `set_pos`. -/
def layC3 : Layout := okOr (SP.setPos layEx shId 1 10) layoutD

/-- Witness for C3: on the two-triangle square torus the embedded `set_pos`
returns normally, the position of half-edge 0 is set, and its face satisfies
the exact position consistency at that corner. -/
theorem claim_C3_witness :
    SP.setPos layEx shId 1 10 = .ok layC3 ∧
    (layC3.pos.getD (fun _ => none)) 0 ≠ none ∧
    (layC3.pos.getD (fun _ => none)) (layEx.tri.fp 0) =
      ((layC3.pos.getD (fun _ => none)) 0).map (fun v => v + layC3.vectors 0) := by
  have h := okOr_spec (SP.setPos layEx shId 1 10) layoutD (by decide)
  have hc := claim_C3 layEx shId 1 10 layC3 ((wfB_iff layEx.tri).mp (by decide))
    (fun _ _ _ hx => hx) (by decide) h
  obtain ⟨htri, ⟨P, hP, hall, hcons⟩, herr⟩ := hc
  obtain ⟨pa, pb, h1, h2, h3⟩ := hcons 0 (by decide)
  refine ⟨h, ?_, ?_⟩
  · rw [hP, Option.getD_some]
    exact hall 0 (by decide)
  · rw [hP, Option.getD_some, h1, h2, h3]
    rfl
